import Mathlib

/-!
# Triangles: maximum path sum over a flattened triangle

A shallow embedding of `triangles.cpp`.

* `size_t` values are natural numbers.  The only `size_t` subtractions whose
  left operand can be smaller than the right one (`height_ - 1` and the cache
  size) go through `size_sub`, which wraps modulo `2 ^ 64`.
* `int` items are unbounded integers, except in the text reader, where the
  range of a 32-bit `int` decides whether an extraction succeeds, and in
  `max_path_sum_int`, the evaluator in which the sum `value() + back()` and the
  cache index `id()` are 32-bit `int` values.
* A `std::vector` is a `List`.  For the three traversal stacks the head of the
  list is `back()`, so `push_back` is `::` and `pop_back` is `List.tail`.
* A thrown exception is an `Error`; an unchecked vector access outside the
  vector, or reading a variable that was never assigned, is `Error.undefined`.
-/

namespace Triangles

/-! ## Data model -/

instance {ε α : Type} [DecidableEq ε] [DecidableEq α] : DecidableEq (Except ε α) :=
  fun a b =>
    match a, b with
    | .ok x, .ok y => if h : x = y then isTrue (by rw [h]) else isFalse (fun e => h (by cases e; rfl))
    | .error x, .error y =>
      if h : x = y then isTrue (by rw [h]) else isFalse (fun e => h (by cases e; rfl))
    | .ok _, .error _ => isFalse (fun e => by cases e)
    | .error _, .ok _ => isFalse (fun e => by cases e)

/-- Everything that can stop a run: the four exceptions of the program and
undefined behaviour. -/
inductive Error where
  /-- The `std::out_of_range` of `NodeRef::child`: node `id` has no child `n`. -/
  | out_of_range (id n : Nat)
  /-- The `std::out_of_range` of `Triangle::head`: the triangle is empty. -/
  | empty_triangle
  /-- The `std::runtime_error` "at line L: can't parse integer: TOKEN". -/
  | parse_error (line : Nat) (token : List Char)
  /-- The `std::runtime_error` "at line L: expected E items, got G". -/
  | structure_error (line expected got : Nat)
  /-- A vector that cannot be allocated because its size wrapped around. -/
  | bad_alloc
  /-- Undefined behaviour: unchecked access outside a vector, `back()` on an
  empty vector, or a read of an unassigned variable. -/
  | undefined
  /-- Undefined behaviour of its own kind: an `int` sum outside the range of
  `int`. -/
  | signed_overflow
deriving DecidableEq, Repr

/-- The class `Triangle`: the flat item storage, the height and the order. -/
structure Triangle where
  items : List Int
  height : Nat
  order : Nat
deriving DecidableEq, Repr

/-- The class `NodeRef` without its back pointer: the triangle is passed to
every method instead. -/
structure NodeRef where
  id : Nat
  level : Nat
deriving DecidableEq, Repr

/-- Subtraction of two `size_t` values, wrapping modulo `2 ^ 64`. -/
def size_sub (a b : Nat) : Nat :=
  if b ≤ a then a - b else a + 2 ^ 64 - b

/-- The default constructor `Triangle()`. -/
def Triangle.fresh : Triangle :=
  { items := [], height := 0, order := 0 }

/-- The method `Triangle::empty`. -/
def Triangle.empty (t : Triangle) : Bool :=
  t.items.isEmpty

/-- The method `Triangle::num_items`. -/
def Triangle.num_items (t : Triangle) : Nat :=
  t.items.length

/-- The method `Triangle::row_size`; `order_ - 1` is guarded by `order_ > 0`. -/
def Triangle.row_size (t : Triangle) (level : Nat) : Nat :=
  if t.order > 0 then 1 + level * (t.order - 1) else 0

/-- The method `Triangle::head`. -/
def Triangle.head (t : Triangle) : Except Error NodeRef :=
  if !t.empty then .ok { id := 0, level := 0 } else .error .empty_triangle

/-- The method `NodeRef::value`: an unchecked read of `items_[id_]`. -/
def NodeRef.value (t : Triangle) (r : NodeRef) : Except Error Int :=
  match t.items[r.id]? with
  | some v => .ok v
  | none => .error .undefined

/-- The method `NodeRef::final`. -/
def NodeRef.final (t : Triangle) (r : NodeRef) : Bool :=
  r.level == size_sub t.height 1

/-- The method `NodeRef::num_children`. -/
def NodeRef.num_children (t : Triangle) (r : NodeRef) : Nat :=
  if !r.final t then t.order else 0

/-- The method `NodeRef::child`. -/
def NodeRef.child (t : Triangle) (r : NodeRef) (n : Nat) : Except Error NodeRef :=
  if n ≥ r.num_children t then .error (.out_of_range r.id n)
  else .ok { id := r.id + t.row_size r.level + n, level := 1 + r.level }

/-! ## Geometry of a well-formed triangle -/

/-- Number of items a row really holds: one in row 0, `row_size` afterwards. -/
def row_items (t : Triangle) (r : Nat) : Nat :=
  1 + r * (t.order - 1)

/-- Flat index of the first item of row `level`: the sum of the sizes of the
rows above it. -/
def row_start (t : Triangle) : Nat → Nat
  | 0 => 0
  | level + 1 => row_start t level + row_items t level

/-- A well-formed triangle: at least one row, a positive order as soon as
there are two rows, and row `r` holding `1 + r * (order - 1)` items. -/
def WellFormed (t : Triangle) : Prop :=
  1 ≤ t.height ∧ (2 ≤ t.height → 1 ≤ t.order) ∧ t.items.length = row_start t t.height

instance (t : Triangle) : Decidable (WellFormed t) := by
  unfold WellFormed; infer_instance

/-- The node `r` lies in row `r.level` of the triangle. -/
def InRow (t : Triangle) (r : NodeRef) : Prop :=
  r.level < t.height ∧ row_start t r.level ≤ r.id ∧ r.id < row_start t r.level + row_items t r.level

instance (t : Triangle) (r : NodeRef) : Decidable (InRow t r) := by
  unfold InRow; infer_instance

/-! ## The path evaluator -/

/-- The local variables of `max_path_sum` that live across loop iterations.
The head of each of the three stacks is its `back()`. -/
structure Loop where
  path : List NodeRef
  next_child : List Nat
  max_child_path_sum : List Int
  max_path_cache : List Int
  max_path_cached : List Bool
  max_path_sum : Option Int
deriving DecidableEq, Repr

/-- The statement `xs.back() = v` on a stack. -/
def set_back {α : Type} (xs : List α) (v : α) : Except Error (List α) :=
  match xs with
  | [] => .error .undefined
  | _ :: rest => .ok (v :: rest)

/-- The unchecked write `xs[i] = v` into a vector. -/
def write_at {α : Type} (xs : List α) (i : Nat) (v : α) : Except Error (List α) :=
  if i < xs.length then .ok (xs.set i v) else .error .undefined

/-- The unchecked read `xs[i]` of a vector. -/
def read_at {α : Type} (xs : List α) (i : Nat) : Except Error α :=
  match xs[i]? with
  | some v => .ok v
  | none => .error .undefined

/-- The method `back()` of a stack. -/
def back {α : Type} (xs : List α) : Except Error α :=
  match xs with
  | [] => .error .undefined
  | x :: _ => .ok x

/-- The condition `v > max_child_path_sum.back() || next_child.back() == 0`
that guards each of the three assignments to `max_child_path_sum.back()`; the
right operand is evaluated only when the left one is false. -/
def takes (v : Int) (s : Loop) : Except Error Bool := do
  let b ← back s.max_child_path_sum
  if v > b then pure true
  else
    let n ← back s.next_child
    pure (n == 0)

/-- The statement `next_child.back()++`. -/
def bump (s : Loop) : Except Error Loop := do
  let n ← back s.next_child
  let ns ← set_back s.next_child (n + 1)
  pure { s with next_child := ns }

/-- The three `push_back` calls that descend into `child`. -/
def push (s : Loop) (child : NodeRef) : Loop :=
  { s with path := child :: s.path, next_child := 0 :: s.next_child,
           max_child_path_sum := 0 :: s.max_child_path_sum }

/-- The branch of the loop body taken when every child of `path.back()` has
been tried: the node is resolved, recorded and popped, and its value is handed
to the frame below, or becomes the answer when no frame is left. -/
def resolve (t : Triangle) (s : Loop) : Except Error Loop := do
  let node ← back s.path
  let v ← node.value t
  let b ← back s.max_child_path_sum
  let max_curr_path_sum := v + b
  let cached ← write_at s.max_path_cached node.id true
  let cache ← write_at s.max_path_cache node.id max_curr_path_sum
  let s1 : Loop :=
    { s with max_path_cached := cached, max_path_cache := cache,
             max_child_path_sum := s.max_child_path_sum.tail,
             next_child := s.next_child.tail, path := s.path.tail }
  if !s1.max_child_path_sum.isEmpty then
    if ← takes max_curr_path_sum s1 then
      let bs ← set_back s1.max_child_path_sum max_curr_path_sum
      pure { s1 with max_child_path_sum := bs }
    else pure s1
  else pure { s1 with max_path_sum := some max_curr_path_sum }

/-- Folding of the value `v` of a child that is not pushed (a final child or a
cached one) into the frame on top, followed by `next_child.back()++`. -/
def fold_in (v : Int) (s : Loop) : Except Error Loop := do
  if ← takes v s then
    let bs ← set_back s.max_child_path_sum v
    bump { s with max_child_path_sum := bs }
  else bump s

/-- One pass through the body of the `while` loop of `max_path_sum`. -/
def iteration (t : Triangle) (s : Loop) : Except Error Loop := do
  let node ← back s.path
  let n ← back s.next_child
  if n == node.num_children t then resolve t s
  else
    let child ← node.child t n
    if child.final t then
      let child_value ← child.value t
      fold_in child_value s
    else if ← read_at s.max_path_cached child.id then
      let child_max_path ← read_at s.max_path_cache child.id
      fold_in child_max_path s
    else
      let s1 ← bump s
      pure (push s1 child)

/-- The `while (!path.empty())` loop, run for at most `fuel` iterations;
`none` means that the fuel ran out before the stack was empty. -/
def loop (t : Triangle) : Nat → Loop → Option (Except Error Loop)
  | 0, s => if s.path.isEmpty then some (.ok s) else none
  | fuel + 1, s =>
    if s.path.isEmpty then some (.ok s)
    else
      match iteration t s with
      | .error e => some (.error e)
      | .ok s1 => loop t fuel s1

/-- The state of `max_path_sum` on entry to the loop, for a non-empty
triangle: the cache vectors are allocated and the root is pushed. -/
def enter (t : Triangle) : Except Error Loop := do
  let last := t.row_size (size_sub t.height 1)
  if t.num_items < last then throw Error.bad_alloc
  let cache_size := t.num_items - last
  let head ← t.head
  pure { path := [head], next_child := [0], max_child_path_sum := [0],
         max_path_cache := List.replicate cache_size 0,
         max_path_cached := List.replicate cache_size false,
         max_path_sum := none }

/-- The function `max_path_sum`, with the loop bounded by `fuel`; `none` means
that the fuel ran out.  The sums are unbounded integers and the cache vectors
are indexed by the field `id_`; `max_path_sum_int` is the same function with
the sum and the index `id()` in 32-bit `int`. -/
def max_path_sum (fuel : Nat) (t : Triangle) : Option (Except Error Int) :=
  if t.empty then some (.ok 0)
  else
    match enter t with
    | .error e => some (.error e)
    | .ok s =>
      match loop t fuel s with
      | none => none
      | some (.error e) => some (.error e)
      | some (.ok s1) =>
        match s1.max_path_sum with
        | some v => some (.ok v)
        | none => some (.error .undefined)

/-! ## The evaluator without the cache lookup

The variant of `max_path_sum` in which the test `max_path_cached[child.id()]`
and its branch are deleted: a child that is not final is always pushed. -/

/-- The loop body with the cache lookup removed; everything else is the body
of `iteration`. -/
def iteration_nomemo (t : Triangle) (s : Loop) : Except Error Loop := do
  let node ← back s.path
  let n ← back s.next_child
  if n == node.num_children t then resolve t s
  else
    let child ← node.child t n
    if child.final t then
      let child_value ← child.value t
      fold_in child_value s
    else
      let s1 ← bump s
      pure (push s1 child)

/-- The loop of the variant, bounded by `fuel`. -/
def loop_nomemo (t : Triangle) : Nat → Loop → Option (Except Error Loop)
  | 0, s => if s.path.isEmpty then some (.ok s) else none
  | fuel + 1, s =>
    if s.path.isEmpty then some (.ok s)
    else
      match iteration_nomemo t s with
      | .error e => some (.error e)
      | .ok s1 => loop_nomemo t fuel s1

/-- The variant of `max_path_sum` that never consults the cache. -/
def max_path_sum_nomemo (fuel : Nat) (t : Triangle) : Option (Except Error Int) :=
  if t.empty then some (.ok 0)
  else
    match enter t with
    | .error e => some (.error e)
    | .ok s =>
      match loop_nomemo t fuel s with
      | none => none
      | some (.error e) => some (.error e)
      | some (.ok s1) =>
        match s1.max_path_sum with
        | some v => some (.ok v)
        | none => some (.error .undefined)

/-! ## The evaluator with 32-bit `int`

The function `max_path_sum` with the two places at which the width of `int`
shows: the sum `path.back().value() + max_child_path_sum.back()`, whose
overflow is undefined behaviour, and the index of the two cache vectors, which
is the `int` returned by `id()` and not the `size_t` field `id_`. -/

/-- The sum of two `int` values; a sum outside the range of `int` is undefined
behaviour. -/
def add_int (a b : Int) : Except Error Int :=
  if -2147483648 ≤ a + b ∧ a + b ≤ 2147483647 then .ok (a + b) else .error .signed_overflow

/-- The method `NodeRef::id`, which returns the `size_t` field `id_` as an
`int`: the value modulo `2 ^ 32`, read as a two's complement number (the
conversion that C++20 defines and that compilers before it implement). -/
def NodeRef.id_int (r : NodeRef) : Int :=
  let m := r.id % 4294967296
  if m < 2147483648 then (m : Int) else (m : Int) - 4294967296

/-- The conversion of an `int` to the `size_t` that `operator[]` of a vector
takes: the value modulo `2 ^ 64`. -/
def to_size (i : Int) : Nat :=
  (i % 18446744073709551616).toNat

/-- The pop branch of the loop body, as `resolve`, with the sum computed in
`int` and the cache vectors indexed by `id()`. -/
def resolve_int (t : Triangle) (s : Loop) : Except Error Loop := do
  let node ← back s.path
  let v ← node.value t
  let b ← back s.max_child_path_sum
  let max_curr_path_sum ← add_int v b
  let cached ← write_at s.max_path_cached (to_size node.id_int) true
  let cache ← write_at s.max_path_cache (to_size node.id_int) max_curr_path_sum
  let s1 : Loop :=
    { s with max_path_cached := cached, max_path_cache := cache,
             max_child_path_sum := s.max_child_path_sum.tail,
             next_child := s.next_child.tail, path := s.path.tail }
  if !s1.max_child_path_sum.isEmpty then
    if ← takes max_curr_path_sum s1 then
      let bs ← set_back s1.max_child_path_sum max_curr_path_sum
      pure { s1 with max_child_path_sum := bs }
    else pure s1
  else pure { s1 with max_path_sum := some max_curr_path_sum }

/-- One pass through the body of the `while` loop, as `iteration`, with the
sum computed in `int` and the cache vectors indexed by `id()`. -/
def iteration_int (t : Triangle) (s : Loop) : Except Error Loop := do
  let node ← back s.path
  let n ← back s.next_child
  if n == node.num_children t then resolve_int t s
  else
    let child ← node.child t n
    if child.final t then
      let child_value ← child.value t
      fold_in child_value s
    else if ← read_at s.max_path_cached (to_size child.id_int) then
      let child_max_path ← read_at s.max_path_cache (to_size child.id_int)
      fold_in child_max_path s
    else
      let s1 ← bump s
      pure (push s1 child)

/-- The `while (!path.empty())` loop over `iteration_int`, run for at most
`fuel` iterations. -/
def loop_int (t : Triangle) : Nat → Loop → Option (Except Error Loop)
  | 0, s => if s.path.isEmpty then some (.ok s) else none
  | fuel + 1, s =>
    if s.path.isEmpty then some (.ok s)
    else
      match iteration_int t s with
      | .error e => some (.error e)
      | .ok s1 => loop_int t fuel s1

/-- The function `max_path_sum` with 32-bit `int`, the loop bounded by `fuel`;
`none` means that the fuel ran out. -/
def max_path_sum_int (fuel : Nat) (t : Triangle) : Option (Except Error Int) :=
  if t.empty then some (.ok 0)
  else
    match enter t with
    | .error e => some (.error e)
    | .ok s =>
      match loop_int t fuel s with
      | none => none
      | some (.error e) => some (.error e)
      | some (.ok s1) =>
        match s1.max_path_sum with
        | some v => some (.ok v)
        | none => some (.error .undefined)

/-! ## Root-to-leaf paths

A path is given by the child slot taken at each step, so a path of a triangle
of height `h` is a list of `h - 1` slots, each below `order`. -/

/-- The nodes visited from `r` when the slots `slots` are taken in turn, by
the child-addressing rule. -/
def walk (t : Triangle) (r : NodeRef) : List Nat → List NodeRef
  | [] => [r]
  | n :: rest => r :: walk t { id := r.id + t.row_size r.level + n, level := 1 + r.level } rest

/-- Sum of the values on the path that starts at the root and takes `slots`. -/
def path_sum (t : Triangle) (slots : List Nat) : Int :=
  ((walk t { id := 0, level := 0 } slots).map (fun r => t.items.getD r.id 0)).sum

/-- All lists of `len` slots, each below `order`. -/
def slot_lists (order : Nat) : Nat → List (List Nat)
  | 0 => [[]]
  | len + 1 => (List.range order).flatMap (fun n => (slot_lists order len).map (fun rest => n :: rest))

/-- The sums along all root-to-leaf paths of the triangle. -/
def all_path_sums (t : Triangle) : List Int :=
  (slot_lists t.order (t.height - 1)).map (path_sum t)

/-! ## Relations between the rows of a triangle -/

/-- Sum of `row_size` over the rows above `level`. -/
def row_offset (t : Triangle) (level : Nat) : Nat :=
  ((List.range level).map t.row_size).sum

/-- No node of row `level + 1` is reached from two different pairs of a parent
in row `level` and a child slot. -/
def ChildMapInjective (t : Triangle) (level : Nat) : Prop :=
  ∀ (p q : NodeRef) (n m : Nat) (c : NodeRef),
    InRow t p → p.level = level → InRow t q → q.level = level →
    p.child t n = .ok c → q.child t m = .ok c → p = q ∧ n = m

/-- Every node of row `level + 1` is a child of some parent in row `level`. -/
def ChildMapSurjective (t : Triangle) (level : Nat) : Prop :=
  ∀ c : NodeRef, InRow t c → c.level = level + 1 →
    ∃ (p : NodeRef) (n : Nat), InRow t p ∧ p.level = level ∧ p.child t n = .ok c

/-! ## Example triangles -/

/-- The triangle with rows `[3]`, `[7,4]`, `[2,4,6]`, `[8,5,9,3]`. -/
def classic : Triangle :=
  { items := [3, 7, 4, 2, 4, 6, 8, 5, 9, 3], height := 4, order := 2 }

/-- The triangle with rows `[-1]`, `[-1,-1]`, `[-1,-1,-1]`. -/
def all_minus_one : Triangle :=
  { items := [-1, -1, -1, -1, -1, -1], height := 3, order := 2 }

/-- The triangle with rows `[0]`, `[0,5]`, `[-10,-10,-10]`, `[-1,-1,-1,-1]`. -/
def shared_negative : Triangle :=
  { items := [0, 0, 5, -10, -10, -10, -1, -1, -1, -1], height := 4, order := 2 }

/-! ## The text reader

The input is the list of lines that `std::getline` delivers, each a list of
characters without its newline.  An `std::istringstream` over a line is the
list of characters not yet read together with its `eofbit` and `failbit`. -/

/-- An `std::istringstream`: unread characters and two state bits. -/
structure IStream where
  rest : List Char
  eofbit : Bool
  failbit : Bool
deriving DecidableEq, Repr

/-- The stream `std::istringstream iss(line)`. -/
def IStream.of_line (line : List Char) : IStream :=
  { rest := line, eofbit := false, failbit := false }

/-- The classic-locale `isspace`: space, `\t`, `\n`, `\v`, `\f`, `\r`. -/
def is_space (c : Char) : Bool :=
  c == ' ' || (9 ≤ c.toNat && c.toNat ≤ 13)

/-- The decimal digits `0` to `9`. -/
def is_digit (c : Char) : Bool :=
  48 ≤ c.toNat && c.toNat ≤ 57

/-- Value of a run of decimal digits, most significant first. -/
def digits_value (ds : List Char) : Nat :=
  ds.foldl (fun acc c => 10 * acc + (c.toNat - 48)) 0

/-- The extraction `iss >> item` for an `int`: the new stream and the value
when the extraction succeeds.  A stream that is not good only gets its
`failbit`.  Otherwise white space is skipped (reaching the end sets both
bits), an optional sign and the longest run of digits are consumed, and the
extraction fails when there is no digit or the value does not fit a 32-bit
`int`; `eofbit` is set when the end of the line was reached while reading. -/
def extract_int (s : IStream) : IStream × Option Int :=
  if s.eofbit || s.failbit then ({ s with failbit := true }, none)
  else
    match s.rest.dropWhile is_space with
    | [] => ({ rest := [], eofbit := true, failbit := true }, none)
    | c :: r1 =>
      let r2 := if c == '-' || c == '+' then r1 else c :: r1
      let ds := r2.takeWhile is_digit
      let r3 := r2.dropWhile is_digit
      let v : Int := if c == '-' then -(digits_value ds : Int) else (digits_value ds : Int)
      if ds.isEmpty || v < -2147483648 || v > 2147483647 then
        ({ rest := r3, eofbit := r3.isEmpty, failbit := true }, none)
      else ({ rest := r3, eofbit := r3.isEmpty, failbit := false }, some v)

/-- The extraction `iss >> item` for a `std::string` on a stream that was just
cleared: white space is skipped and the characters up to the next white space
are returned. -/
def extract_word (rest : List Char) : List Char :=
  (rest.dropWhile is_space).takeWhile (fun c => !is_space c)

/-- Outcome of the inner loop on one line. -/
inductive Scan where
  /-- The loop ended normally; these integers were pushed, in this order. -/
  | ints (row : List Int)
  /-- The loop threw the parse error for this token. -/
  | bad (token : List Char)
deriving DecidableEq, Repr

/-- The inner loop `while (iss >> item || !iss.eof())`, for at most `fuel`
extractions; `row` collects the integers pushed so far, so `count` is its
length.  `none` means that the fuel ran out. -/
def read_items : Nat → IStream → List Int → Option Scan
  | 0, _, _ => none
  | fuel + 1, s, row =>
    match extract_int s with
    | (s1, some item) => read_items fuel s1 (row ++ [item])
    | (s1, none) =>
      if !s1.eofbit then some (.bad (extract_word s1.rest))
      else some (.ints row)

/-- The inner loop on a whole line; every successful extraction consumes a
character, so `length + 1` extractions are enough. -/
def scan_line (line : List Char) : Option Scan :=
  read_items (line.length + 1) (IStream.of_line line) []

/-- The loop `while (std::getline(is, line))` of `operator>>`, entered with
the triangle `t` and the local `expected`; `none` means that the inner loop
ran out of fuel. -/
def read_lines : Triangle → Nat → List (List Char) → Option (Except Error Triangle)
  | t, _, [] => some (.ok t)
  | t, expected, line :: rest =>
    if line.isEmpty then some (.ok t)
    else
      let t1 : Triangle := { t with height := t.height + 1 }
      match scan_line line with
      | none => none
      | some (.bad token) => some (.error (.parse_error t1.height token))
      | some (.ints row) =>
        let t2 : Triangle := { t1 with items := t1.items ++ row }
        let count := row.length
        if t2.height == 2 then
          let t3 : Triangle := { t2 with order := count }
          read_lines t3 (t3.row_size t3.height) rest
        else if count != expected then
          some (.error (.structure_error t2.height expected count))
        else read_lines t2 (t2.row_size t2.height) rest

/-- The operator `is >> triangle` applied to a fresh triangle. -/
def construct (lines : List (List Char)) : Option (Except Error Triangle) :=
  read_lines Triangle.fresh 1 lines

/-! ## Rows and tokens

The vocabulary in which the behaviour of the reader is stated: a line seen as
a row of integers, and a line seen as a list of tokens. -/

/-- The line is not the terminator and the inner loop ends normally on it,
having pushed exactly the integers of `row`. -/
def ScansAs (line : List Char) (row : List Int) : Prop :=
  line ≠ [] ∧ scan_line line = some (.ints row)

instance (line : List Char) (row : List Int) : Decidable (ScansAs line row) := by
  unfold ScansAs; infer_instance

/-- What follows the rows that are read: nothing, or an empty line and then
anything. -/
def Terminated (tail : List (List Char)) : Prop :=
  tail = [] ∨ ∃ more, tail = [] :: more

/-- The triangle described by a list of rows: the rows concatenated, one level
per row, and the size of the second row as order (0 without a second row). -/
def triangle_of_rows (rows : List (List Int)) : Triangle :=
  { items := rows.flatten, height := rows.length, order := (rows.getD 1 []).length }

/-- The count that the 1-based line `line` must have: 1 on line 1, and
`row_size (line - 1)` for the order declared by the second row afterwards. -/
def expected_count (rows : List (List Int)) (line : Nat) : Nat :=
  if line = 1 then 1 else (triangle_of_rows rows).row_size (line - 1)

/-- Line 1 has one integer and every line from the third on has the expected
count; the second line is free. -/
def RowsFit (rows : List (List Int)) : Prop :=
  ∀ (i : Nat) (row : List Int), rows[i]? = some row → i ≠ 1 →
    row.length = expected_count rows (i + 1)

/-- The outer loop of `operator>>` on lines that are already scanned into
rows. -/
def read_rows : Triangle → Nat → List (List Int) → Except Error Triangle
  | t, _, [] => .ok t
  | t, expected, row :: rest =>
    let t2 : Triangle := { t with height := t.height + 1, items := t.items ++ row }
    if t2.height == 2 then
      let t3 : Triangle := { t2 with order := row.length }
      read_rows t3 (t3.row_size t3.height) rest
    else if row.length != expected then
      .error (.structure_error t2.height expected row.length)
    else read_rows t2 (t2.row_size t2.height) rest

/-- The tokens of `c :: cs` for a `c` that is not white space, from the tokens
`ws` of `cs`: `c` extends the first token when `cs` starts with one, and is a
token of its own otherwise. -/
def attach (c : Char) (cs : List Char) (ws : List (List Char)) : List (List Char) :=
  match cs, ws with
  | d :: _, w :: rest => if is_space d then [c] :: w :: rest else (c :: w) :: rest
  | _, rest => [c] :: rest

/-- The tokens of a line: its maximal runs of characters that are not white
space. -/
def words : List Char → List (List Char)
  | [] => []
  | c :: cs => if is_space c then words cs else attach c cs (words cs)

/-- The integer written by a token: an optional sign followed by one or more
digits, with a value in the range of a 32-bit `int`; `none` for any other
token. -/
def int_token (tok : List Char) : Option Int :=
  match tok with
  | [] => none
  | c :: cs =>
    let ds := if c == '-' || c == '+' then cs else c :: cs
    let v : Int := if c == '-' then -(digits_value ds : Int) else (digits_value ds : Int)
    if !ds.isEmpty && ds.all is_digit && decide (-2147483648 ≤ v) && decide (v ≤ 2147483647) then some v
    else none

/-- The first token of the line that is not an integer. -/
def first_offending (line : List Char) : Option (List Char) :=
  (words line).find? (fun tok => (int_token tok).isNone)

/-- The token starts with a character that is neither a digit nor a sign. -/
def StartsOutsideNumber (tok : List Char) : Prop :=
  ∃ c cs, tok = c :: cs ∧ is_digit c = false ∧ c ≠ '-' ∧ c ≠ '+'

instance (tok : List Char) : Decidable (StartsOutsideNumber tok) :=
  match tok with
  | [] => isFalse (fun ⟨_, _, h, _⟩ => by cases h)
  | c :: cs =>
    if h : is_digit c = false ∧ c ≠ '-' ∧ c ≠ '+' then isTrue ⟨c, cs, rfl, h⟩
    else isFalse (fun ⟨_, _, e, h2⟩ => h (by cases e; exact h2))

/-- The list is empty or starts with a white-space character. -/
def Separated (rest : List Char) : Prop :=
  rest = [] ∨ ∃ s r, rest = s :: r ∧ is_space s = true

/-! ## States reached by the loop -/

/-- The state after the first `k` iterations of the loop from `s`; a state
with an empty stack is left as it is. -/
def steps (t : Triangle) : Nat → Loop → Except Error Loop
  | 0, s => .ok s
  | k + 1, s =>
    if s.path.isEmpty then .ok s
    else
      match iteration t s with
      | .error e => .error e
      | .ok s1 => steps t k s1

/-! ## Frames

The three stacks of `max_path_sum` seen as one stack of frames, and the
conditions that relate a frame to the frame below it. -/

/-- One frame of the traversal: the entries of `path`, `next_child` and
`max_child_path_sum` at the same depth. -/
structure Frame where
  node : NodeRef
  next : Nat
  best : Int
deriving DecidableEq, Repr

/-- The loop state whose three stacks hold the frames `fs`, the top first. -/
def Loop.of_frames (fs : List Frame) (cache : List Int) (cached : List Bool)
    (result : Option Int) : Loop :=
  { path := fs.map (fun f => f.node), next_child := fs.map (fun f => f.next),
    max_child_path_sum := fs.map (fun f => f.best), max_path_cache := cache,
    max_path_cached := cached, max_path_sum := result }

/-- The node that `child n` returns when it succeeds. -/
def child_node (t : Triangle) (r : NodeRef) (n : Nat) : NodeRef :=
  { id := r.id + t.row_size r.level + n, level := 1 + r.level }

/-- The frame after the value `v` of its child in slot `next` is folded into it
before the increment of `next` (a final child or a cached one). -/
def fold_frame (v : Int) (f : Frame) : Frame :=
  { f with next := f.next + 1, best := if v > f.best ∨ f.next = 0 then v else f.best }

/-- The stack below a popped frame after the value `v` of the popped node is
handed to its top frame. -/
def hand_down (v : Int) : List Frame → List Frame
  | [] => []
  | p :: fs => { p with best := if v > p.best ∨ p.next = 0 then v else p.best } :: fs

/-- The relation of a frame to the stack below it: the bottom frame holds the
root, and any other frame holds the child that the frame below it tried last,
a child that is not final. -/
def Linked (t : Triangle) (f : Frame) : List Frame → Prop
  | [] => f.node = { id := 0, level := 0 }
  | p :: _ => 1 ≤ p.next ∧ p.node.child t (p.next - 1) = .ok f.node ∧ f.node.final t = false

/-- The stack of frames is a chain from the root: every frame is linked to the
stack below it and has tried at most `num_children` children. -/
def Chain (t : Triangle) : List Frame → Prop
  | [] => True
  | f :: fs => f.next ≤ f.node.num_children t ∧ Linked t f fs ∧ Chain t fs

/-- The loop state consists of three stacks of one length that form a chain of
frames. -/
def Shaped (t : Triangle) (s : Loop) : Prop :=
  ∃ fs cache cached result, s = Loop.of_frames fs cache cached result ∧ Chain t fs

/-! ## The best sum below a node

The quantity that `max_path_sum` is meant to compute, by recursion on the
number of rows below the node. -/

/-- The largest of `f 0`, ..., `f k`. -/
def max_over (f : Nat → Int) : Nat → Int
  | 0 => f 0
  | k + 1 => max (max_over f k) (f (k + 1))

/-- The largest sum of the values along a path that starts at `r` and goes
down `d` rows, in a triangle of positive order. -/
def best_below (t : Triangle) : Nat → NodeRef → Int
  | 0, r => t.items.getD r.id 0
  | d + 1, r =>
    t.items.getD r.id 0 + max_over (fun n => best_below t d (child_node t r n)) (t.order - 1)

/-- The largest sum of the values along a path from `r` to the last row. -/
def best_sum (t : Triangle) (r : NodeRef) : Int :=
  best_below t (t.height - 1 - r.level) r

/-- Sum of the values on the path that starts at `r` and takes `slots`. -/
def walk_sum (t : Triangle) (r : NodeRef) (slots : List Nat) : Int :=
  ((walk t r slots).map (fun x => t.items.getD x.id 0)).sum

/-- The running best after `d` values `f 0`, ..., `f (d - 1)` are folded into
an initial 0 by taking the larger. -/
def running (f : Nat → Int) : Nat → Int
  | 0 => 0
  | d + 1 => max (running f d) (f d)

/-- All items of the triangle are non-negative. -/
def NonNeg (t : Triangle) : Prop :=
  ∀ v ∈ t.items, 0 ≤ v

instance (t : Triangle) : Decidable (NonNeg t) := by
  unfold NonNeg; infer_instance

/-! ## The invariant of the loop

What holds of the stack, the cache and the list of cache writes in every
state that the loop reaches on a well-formed triangle with at least two
rows. -/

/-- The child `c` needs no further work: it is final or its result is in the
cache. -/
def Done (t : Triangle) (cached : List Bool) (c : NodeRef) : Prop :=
  c.final t = true ∨ cached[c.id]? = some true

/-- The frame `f` has folded its first `d` children: each of them is done and
has a best sum that is at most the running best of `f`, and when no item is
negative the running best is the largest of these best sums (0 for `d = 0`). -/
def FrameInv (t : Triangle) (cached : List Bool) (f : Frame) (d : Nat) : Prop :=
  (∀ m, m < d → best_sum t (child_node t f.node m) ≤ f.best ∧
      Done t cached (child_node t f.node m)) ∧
  (NonNeg t → f.best = running (fun m => best_sum t (child_node t f.node m)) d)

/-- The top frame has folded `next` children, and every other frame has folded
all the children it tried but the last one, which is the frame above it. -/
def Frames (t : Triangle) (cached : List Bool) : List Frame → Prop
  | [] => True
  | f :: rest => FrameInv t cached f f.next ∧ ∀ p ∈ rest, FrameInv t cached p (p.next - 1)

/-- A cached entry of a node that is not final is at least the best sum of the
node, equals it when no item is negative, and all children of the node are
done. -/
def CacheInv (t : Triangle) (cache : List Int) (cached : List Bool) : Prop :=
  ∀ r, InRow t r → r.level + 1 < t.height → cached[r.id]? = some true →
    (∃ c, cache[r.id]? = some c ∧ best_sum t r ≤ c ∧ (NonNeg t → c = best_sum t r)) ∧
    ∀ m, m < t.order → Done t cached (child_node t r m)

/-- The list `log` of the indices written so far has no repetition and holds
exactly the indices whose flag is set. -/
def Logged (log : List Nat) (cached : List Bool) : Prop :=
  log.Nodup ∧ ∀ id, id ∈ log ↔ cached[id]? = some true

/-- The invariant of the loop on the stack of frames `fs`, the two cache
vectors and the result variable, with the list `log` of the cache indices
written so far: the frames form a chain, the cache vectors have one entry per
node that is not final, the frames and the cache carry the values described
above, no node on the stack is cached, and once the stack is empty the result
is assigned. -/
def GoodAt (t : Triangle) (log : List Nat) (fs : List Frame) (cache : List Int)
    (cached : List Bool) (result : Option Int) : Prop :=
  Chain t fs ∧
    cache.length = row_start t (t.height - 1) ∧ cached.length = row_start t (t.height - 1) ∧
    Frames t cached fs ∧ CacheInv t cache cached ∧
    (∀ f ∈ fs, cached[f.node.id]? = some false) ∧ Logged log cached ∧
    (fs = [] → ∃ v, result = some v ∧ best_sum t { id := 0, level := 0 } ≤ v ∧
      (NonNeg t → v = best_sum t { id := 0, level := 0 }) ∧ cached[0]? = some true)

/-- The invariant of the loop on a loop state. -/
def Good (t : Triangle) (log : List Nat) (s : Loop) : Prop :=
  ∃ fs cache cached result, s = Loop.of_frames fs cache cached result ∧
    GoodAt t log fs cache cached result

/-- The cache index written by the iteration that starts in state `s`: the id
of the node on top when all its children have been tried, nothing otherwise. -/
def written (t : Triangle) (s : Loop) : List Nat :=
  match s.path, s.next_child with
  | r :: _, n :: _ => if n == r.num_children t then [r.id] else []
  | _, _ => []

/-- The cache indices written during the first `k` iterations from `s`, in the
order of the writes. -/
def writes (t : Triangle) : Nat → Loop → List Nat
  | 0, _ => []
  | k + 1, s =>
    if s.path.isEmpty then []
    else
      match iteration t s with
      | .error _ => []
      | .ok s1 => written t s ++ writes t k s1

/-- Bound on the iterations spent on one child of a node that has `d` rows
between its children and the last row: one for a final or cached child, and
for a pushed child the push, one slot cost per grandchild and the pop. -/
def slot_cost (t : Triangle) : Nat → Nat
  | 0 => 1
  | d + 1 => t.order * slot_cost t d + 2

/-- Bound on the iterations that the frame of node `r` with `n` children tried
still needs: the untried children and the pop. -/
def frame_weight (t : Triangle) (r : NodeRef) (n : Nat) : Nat :=
  (t.order - n) * slot_cost t (t.height - 2 - r.level) + 1

/-- The measure of the loop: the sum of the weights of the frames on the
stack, a function of `path` and `next_child` only. -/
def potential (t : Triangle) (s : Loop) : Nat :=
  ((s.path.zip s.next_child).map (fun x => frame_weight t x.1 x.2)).sum

/-- The triangle value with the single row `[5]` and order 1; the reader gives
a single row the order 0. -/
def single_order_one : Triangle :=
  { items := [5], height := 1, order := 1 }

/-- The triangle of `n` rows of order 1 in which every item is 0: the one that
is read from `n` lines `0`. -/
def column (n : Nat) : Triangle :=
  { items := List.replicate n 0, height := n, order := 1 }

/-! # Theorems -/

/-! ## Elementary facts about the store -/

theorem size_sub_of_le {a b : Nat} (h : b ≤ a) : size_sub a b = a - b := by
  simp [size_sub, h]

theorem final_iff (t : Triangle) (r : NodeRef) (h : 1 ≤ t.height) :
    r.final t = true ↔ r.level = t.height - 1 := by
  simp [NodeRef.final, size_sub_of_le h]

theorem num_children_eq (t : Triangle) (r : NodeRef) (h : 1 ≤ t.height) :
    r.num_children t = if r.level = t.height - 1 then 0 else t.order := by
  by_cases hf : r.level = t.height - 1
  · have : r.final t = true := (final_iff t r h).2 hf
    simp [NodeRef.num_children, this, hf]
  · have : r.final t = false := by
      cases hb : r.final t
      · rfl
      · exact absurd ((final_iff t r h).1 hb) hf
    simp [NodeRef.num_children, this, hf]

theorem num_children_of_lt (t : Triangle) (r : NodeRef) (h : r.level + 1 < t.height) :
    r.num_children t = t.order := by
  rw [num_children_eq t r (by omega), if_neg (by omega)]

theorem child_ok_iff (t : Triangle) (r c : NodeRef) (n : Nat) :
    r.child t n = .ok c ↔
      n < r.num_children t ∧ c = { id := r.id + t.row_size r.level + n, level := 1 + r.level } := by
  unfold NodeRef.child
  by_cases h : n ≥ r.num_children t
  · simp [h]
  · rw [if_neg h]
    constructor
    · intro e
      injection e with e
      exact ⟨by omega, e.symm⟩
    · rintro ⟨_, e⟩
      rw [e]

theorem row_size_eq_row_items (t : Triangle) (level : Nat) (h : 1 ≤ t.order) :
    t.row_size level = row_items t level := by
  have : t.order > 0 := h
  simp [Triangle.row_size, row_items, this]

theorem row_items_succ (t : Triangle) (level : Nat) :
    row_items t (level + 1) = row_items t level + (t.order - 1) := by
  unfold row_items
  ring

theorem row_items_pos (t : Triangle) (level : Nat) : 1 ≤ row_items t level := by
  unfold row_items
  omega

theorem row_start_mono (t : Triangle) {a b : Nat} (h : a ≤ b) : row_start t a ≤ row_start t b := by
  induction b with
  | zero =>
    have : a = 0 := by omega
    rw [this]
  | succ b ih =>
    by_cases hab : a = b + 1
    · rw [hab]
    · have := ih (by omega)
      simp only [row_start]
      omega

theorem row_offset_succ (t : Triangle) (level : Nat) :
    row_offset t (level + 1) = row_offset t level + t.row_size level := by
  simp [row_offset, List.range_succ]

theorem row_offset_eq_row_start (t : Triangle) (level : Nat) (h : 1 ≤ t.order) :
    row_offset t level = row_start t level := by
  induction level with
  | zero => simp [row_offset, row_start]
  | succ l ih => rw [row_offset_succ, ih, row_size_eq_row_items t l h, row_start]

/-! ## Fuel -/

theorem loop_add (t : Triangle) (fuel : Nat) :
    ∀ (s : Loop) (r : Except Error Loop), loop t fuel s = some r →
      ∀ extra, loop t (fuel + extra) s = some r := by
  induction fuel with
  | zero =>
    intro s r h extra
    cases hp : s.path.isEmpty with
    | false => simp [loop, hp] at h
    | true =>
      simp only [loop, hp, if_true] at h
      cases extra with
      | zero => simp [loop, hp, h]
      | succ extra => simp [loop, hp, h]
  | succ fuel ih =>
    intro s r h extra
    have e : fuel + 1 + extra = (fuel + extra) + 1 := by omega
    rw [e]
    cases hp : s.path.isEmpty with
    | true =>
      simp only [loop, hp, if_true] at h ⊢
      exact h
    | false =>
      simp only [loop, hp, Bool.false_eq_true, if_false] at h ⊢
      cases hi : iteration t s with
      | error err =>
        simp only [hi] at h ⊢
        exact h
      | ok s1 =>
        simp only [hi] at h ⊢
        exact ih s1 r h extra

theorem loop_nomemo_add (t : Triangle) (fuel : Nat) :
    ∀ (s : Loop) (r : Except Error Loop), loop_nomemo t fuel s = some r →
      ∀ extra, loop_nomemo t (fuel + extra) s = some r := by
  induction fuel with
  | zero =>
    intro s r h extra
    cases hp : s.path.isEmpty with
    | false => simp [loop_nomemo, hp] at h
    | true =>
      simp only [loop_nomemo, hp, if_true] at h
      cases extra with
      | zero => simp [loop_nomemo, hp, h]
      | succ extra => simp [loop_nomemo, hp, h]
  | succ fuel ih =>
    intro s r h extra
    have e : fuel + 1 + extra = (fuel + extra) + 1 := by omega
    rw [e]
    cases hp : s.path.isEmpty with
    | true =>
      simp only [loop_nomemo, hp, if_true] at h ⊢
      exact h
    | false =>
      simp only [loop_nomemo, hp, Bool.false_eq_true, if_false] at h ⊢
      cases hi : iteration_nomemo t s with
      | error err =>
        simp only [hi] at h ⊢
        exact h
      | ok s1 =>
        simp only [hi] at h ⊢
        exact ih s1 r h extra

/-- Once `max_path_sum` returns with some fuel, it returns the same with any
larger fuel. -/
theorem max_path_sum_add (t : Triangle) (fuel : Nat) (r : Except Error Int)
    (h : max_path_sum fuel t = some r) : ∀ extra, max_path_sum (fuel + extra) t = some r := by
  intro extra
  unfold max_path_sum at h ⊢
  cases he : t.empty with
  | true =>
    simp only [he, if_true] at h ⊢
    exact h
  | false =>
    simp only [he, Bool.false_eq_true, if_false] at h ⊢
    cases hen : enter t with
    | error err =>
      simp only [hen] at h ⊢
      exact h
    | ok s =>
      simp only [hen] at h ⊢
      cases hl : loop t fuel s with
      | none => simp [hl] at h
      | some res =>
        rw [loop_add t fuel s res hl extra]
        rw [hl] at h
        exact h

/-- Once the variant without the cache lookup returns with some fuel, it
returns the same with any larger fuel. -/
theorem max_path_sum_nomemo_add (t : Triangle) (fuel : Nat) (r : Except Error Int)
    (h : max_path_sum_nomemo fuel t = some r) :
    ∀ extra, max_path_sum_nomemo (fuel + extra) t = some r := by
  intro extra
  unfold max_path_sum_nomemo at h ⊢
  cases he : t.empty with
  | true =>
    simp only [he, if_true] at h ⊢
    exact h
  | false =>
    simp only [he, Bool.false_eq_true, if_false] at h ⊢
    cases hen : enter t with
    | error err =>
      simp only [hen] at h ⊢
      exact h
    | ok s =>
      simp only [hen] at h ⊢
      cases hl : loop_nomemo t fuel s with
      | none => simp [hl] at h
      | some res =>
        rw [loop_nomemo_add t fuel s res hl extra]
        rw [hl] at h
        exact h

/-! ## The evaluator on concrete triangles -/

/-- The classic instance: on rows `[3]`, `[7,4]`, `[2,4,6]`, `[8,5,9,3]` the
evaluator returns 23, the largest of the eight path sums. -/
theorem max_path_sum_classic :
    WellFormed classic ∧ all_path_sums classic = [20, 17, 19, 23, 16, 20, 22, 16] ∧
    ∀ extra, max_path_sum (18 + extra) classic = some (.ok 23) :=
  ⟨by decide, by decide, max_path_sum_add classic 18 _ (by decide)⟩

/-- C1: on the well-formed triangle with rows `[-1]`, `[-1,-1]`, `[-1,-1,-1]`
every root-to-leaf path sums to -3, yet `max_path_sum` returns -1, with 11
loop iterations or any larger bound: a child that was pushed is folded into
its parent after the parent's `next_child` has been incremented, so the
first-child test never holds for it and the running best keeps its initial
0. -/
theorem max_path_sum_all_minus_one :
    WellFormed all_minus_one ∧ all_path_sums all_minus_one = [-3, -3, -3, -3] ∧
    ∀ extra, max_path_sum (11 + extra) all_minus_one = some (.ok (-1)) :=
  ⟨by decide, by decide, max_path_sum_add all_minus_one 11 _ (by decide)⟩

/-- C2: on the well-formed triangle with rows `[0]`, `[0,5]`, `[-10,-10,-10]`,
`[-1,-1,-1,-1]` the evaluator returns 0 and the variant without the cache
lookup returns 5 (the largest path sum is -6): node 4 is the first child of
node 2 and is found in the cache, where the first-child test is made before
the increment, while the variant pushes it and folds it after the increment. -/
theorem max_path_sum_nomemo_differs :
    WellFormed shared_negative ∧
    all_path_sums shared_negative = [-11, -11, -11, -11, -6, -6, -6, -6] ∧
    (∀ extra, max_path_sum (18 + extra) shared_negative = some (.ok 0)) ∧
    ∀ extra, max_path_sum_nomemo (21 + extra) shared_negative = some (.ok 5) :=
  ⟨by decide, by decide, max_path_sum_add shared_negative 18 _ (by decide),
    max_path_sum_nomemo_add shared_negative 21 _ (by decide)⟩

/-! ## Child addressing -/

/-- C3, as stated, fails: in the classic triangle nodes 1 and 2 of row 1 share
the child with flat index 4 (slot 1 of node 1 and slot 0 of node 2), so the
map from (parent, slot) to the child is not injective. -/
theorem child_map_not_injective_classic :
    WellFormed classic ∧ 1 + 1 < classic.height ∧
    NodeRef.child classic { id := 1, level := 1 } 1 = .ok { id := 4, level := 2 } ∧
    NodeRef.child classic { id := 2, level := 1 } 0 = .ok { id := 4, level := 2 } ∧
    ¬ ChildMapInjective classic 1 := by
  refine ⟨by decide, by decide, by decide, by decide, ?_⟩
  intro h
  have := h { id := 1, level := 1 } { id := 2, level := 1 } 1 0 { id := 4, level := 2 }
    (by decide) rfl (by decide) rfl (by decide) (by decide)
  exact absurd this.2 (by decide)

/-- C3, amended: in a well-formed triangle, for every level with
`level + 1 < height`, every node of row `level + 1` is a child of some node of
row `level`, and a node of row `level + 1` has a single (parent, slot) pair
exactly when `order = 1` or `level = 0`. -/
theorem child_map_surjective_injective_iff (t : Triangle) (level : Nat)
    (hwf : WellFormed t) (hl : level + 1 < t.height) :
    ChildMapSurjective t level ∧ (ChildMapInjective t level ↔ (t.order = 1 ∨ level = 0)) := by
  obtain ⟨_, hord, _⟩ := hwf
  have ho : 1 ≤ t.order := hord (by omega)
  have hrs : t.row_size level = row_items t level := row_size_eq_row_items t level ho
  have hsucc := row_items_succ t level
  have hpos := row_items_pos t level
  refine ⟨?_, ?_, ?_⟩
  · -- surjective
    intro c hc hcl
    obtain ⟨_, hlo, hhi⟩ := hc
    rw [hcl] at hlo hhi
    simp only [row_start] at hlo hhi
    -- position of `c` in its row, and the parent position chosen for it
    let q := c.id - (row_start t level + row_items t level)
    let pp := min q (row_items t level - 1)
    refine ⟨{ id := row_start t level + pp, level := level }, q - pp, ?_, rfl, ?_⟩
    · refine ⟨by simp only; omega, by simp only; omega, ?_⟩
      simp only
      omega
    · rw [child_ok_iff, num_children_of_lt t _ (by simpa using hl)]
      refine ⟨by omega, ?_⟩
      cases c with
      | mk cid clevel =>
        simp only at hcl hlo hhi
        simp only [NodeRef.mk.injEq, hrs]
        refine ⟨?_, by omega⟩
        show cid = row_start t level + pp + row_items t level + (q - pp)
        have hq : q = cid - (row_start t level + row_items t level) := rfl
        omega
  · -- injective implies order = 1 or level = 0
    intro hinj
    by_contra hne
    push_neg at hne
    obtain ⟨h1, h0⟩ := hne
    have hmul : 1 ≤ level * (t.order - 1) := Nat.mul_pos (by omega) (by omega)
    have hri : 2 ≤ row_items t level := by
      unfold row_items
      omega
    have := hinj { id := row_start t level, level := level }
      { id := row_start t level + 1, level := level } 1 0
      { id := row_start t level + t.row_size level + 1, level := 1 + level }
      ⟨by simp only; omega, by simp only; omega, by simp only; omega⟩ rfl
      ⟨by simp only; omega, by simp only; omega, by simp only; omega⟩ rfl
      (by rw [child_ok_iff, num_children_of_lt t _ (by simpa using hl)]
          exact ⟨by omega, rfl⟩)
      (by rw [child_ok_iff, num_children_of_lt t _ (by simpa using hl)]
          refine ⟨by omega, ?_⟩
          simp only [NodeRef.mk.injEq, and_true]
          omega)
    exact absurd this.2 (by decide)
  · -- order = 1 or level = 0 implies injective
    intro hcase p q n m c hp hpl hq hql hpc hqc
    rw [child_ok_iff, num_children_of_lt t _ (by omega)] at hpc hqc
    obtain ⟨hn, hc1⟩ := hpc
    obtain ⟨hm, hc2⟩ := hqc
    rw [hc1] at hc2
    simp only [NodeRef.mk.injEq] at hc2
    obtain ⟨hid, _⟩ := hc2
    rw [hpl, hql] at hid
    obtain ⟨_, hplo, hphi⟩ := hp
    obtain ⟨_, hqlo, hqhi⟩ := hq
    rw [hpl] at hplo hphi
    rw [hql] at hqlo hqhi
    have key : p.id = q.id ∧ n = m := by
      rcases hcase with h1 | h0
      · omega
      · subst h0
        simp only [row_start, row_items] at hplo hphi hqlo hqhi
        omega
    refine ⟨?_, key.2⟩
    cases p
    cases q
    simp only [NodeRef.mk.injEq]
    simp only at hpl hql key
    exact ⟨key.1, by omega⟩

/-- The amended C3 at the classic triangle and level 1: the child map is
surjective, and it is not injective because the order is 2. -/
theorem child_map_surjective_injective_iff_witness :
    WellFormed classic ∧ 1 + 1 < classic.height ∧
    (ChildMapSurjective classic 1 ∧ (ChildMapInjective classic 1 ↔ (classic.order = 1 ∨ 1 = 0))) :=
  ⟨by decide, by decide, child_map_surjective_injective_iff classic 1 (by decide) (by decide)⟩

/-- C4: in a well-formed triangle, a node that lies in its row and is not
final has a child in every slot below `order`; each child is on the next
level, its flat index is below `num_items` and inside the block of row
`level + 1` (from the sum of `row_size` over rows `0..level`, for
`row_size (level + 1)` items), and different slots give different indices. -/
theorem children_distinct_in_range (t : Triangle) (r : NodeRef)
    (hwf : WellFormed t) (hr : InRow t r) (hnf : r.final t = false) :
    (∀ n, n < t.order → ∃ c, r.child t n = .ok c ∧ c.level = r.level + 1 ∧
        c.id = r.id + t.row_size r.level + n ∧ c.id < t.num_items ∧
        row_offset t (r.level + 1) ≤ c.id ∧
        c.id < row_offset t (r.level + 1) + t.row_size (r.level + 1)) ∧
    (∀ n m c d, r.child t n = .ok c → r.child t m = .ok d → n ≠ m → c.id ≠ d.id) := by
  obtain ⟨hh, hord, hlen⟩ := hwf
  obtain ⟨hlt, hlo, hhi⟩ := hr
  have hne : r.level ≠ t.height - 1 := by
    intro e
    rw [(final_iff t r hh).2 e] at hnf
    exact absurd hnf (by decide)
  have hl : r.level + 1 < t.height := by omega
  have ho : 1 ≤ t.order := hord (by omega)
  have hnc := num_children_of_lt t r hl
  refine ⟨?_, ?_⟩
  · intro n hn
    refine ⟨{ id := r.id + t.row_size r.level + n, level := 1 + r.level }, ?_, ?_, rfl, ?_, ?_, ?_⟩
    · rw [child_ok_iff, hnc]
      exact ⟨hn, rfl⟩
    · simp only
      omega
    · have hmono := row_start_mono t (show r.level + 1 + 1 ≤ t.height by omega)
      have hsucc := row_items_succ t r.level
      simp only [row_start] at hmono
      simp only [Triangle.num_items, hlen, row_size_eq_row_items t _ ho]
      omega
    · simp only [row_offset_eq_row_start t _ ho, row_start, row_size_eq_row_items t _ ho]
      omega
    · have hsucc := row_items_succ t r.level
      simp only [row_offset_eq_row_start t _ ho, row_start, row_size_eq_row_items t _ ho]
      omega
  · intro n m c d hc hd hnm
    rw [child_ok_iff] at hc hd
    rw [hc.2, hd.2]
    simp only
    omega

/-- C4 at node 1 (row 1) of the classic triangle: its children are the nodes
3 and 4 of row 2. -/
theorem children_distinct_in_range_witness :
    WellFormed classic ∧ InRow classic { id := 1, level := 1 } ∧
    NodeRef.final classic { id := 1, level := 1 } = false ∧
    NodeRef.child classic { id := 1, level := 1 } 0 = .ok { id := 3, level := 2 } ∧
    NodeRef.child classic { id := 1, level := 1 } 1 = .ok { id := 4, level := 2 } ∧
    (∀ n m c d, NodeRef.child classic { id := 1, level := 1 } n = .ok c →
      NodeRef.child classic { id := 1, level := 1 } m = .ok d → n ≠ m → c.id ≠ d.id) :=
  ⟨by decide, by decide, by decide, by decide, by decide,
    (children_distinct_in_range classic { id := 1, level := 1 }
      (by decide) (by decide) (by decide)).2⟩

/-- C5: for a triangle of height at least 1, `num_children` is 0 on a final
node (level `height - 1`) and `order` elsewhere; `child n` raises the
out-of-range error exactly when `n ≥ num_children`, hence for every `n` on a
final node and for `n = order` on every node; otherwise it returns the
reference `(id + row_size level + n, level + 1)`. -/
theorem child_fails_iff (t : Triangle) (r : NodeRef) (n : Nat) (h : 1 ≤ t.height) :
    (r.num_children t = if r.level = t.height - 1 then 0 else t.order) ∧
    (r.child t n = .error (.out_of_range r.id n) ↔ n ≥ r.num_children t) ∧
    ((∃ e, r.child t n = .error e) ↔ n ≥ r.num_children t) ∧
    (n < r.num_children t →
      r.child t n = .ok { id := r.id + t.row_size r.level + n, level := r.level + 1 }) ∧
    (r.level = t.height - 1 → ∀ k, r.child t k = .error (.out_of_range r.id k)) ∧
    r.child t t.order = .error (.out_of_range r.id t.order) := by
  have hnc := num_children_eq t r h
  refine ⟨hnc, ?_, ?_, ?_, ?_, ?_⟩
  · unfold NodeRef.child
    by_cases hn : n ≥ r.num_children t <;> simp [hn]
  · unfold NodeRef.child
    by_cases hn : n ≥ r.num_children t <;> simp [hn]
  · intro hn
    unfold NodeRef.child
    rw [if_neg (by omega), Nat.add_comm 1 r.level]
  · intro hf k
    unfold NodeRef.child
    rw [hnc, if_pos hf, if_pos (by omega)]
  · unfold NodeRef.child
    rw [if_pos]
    rw [hnc]
    split <;> omega

/-- C5 at the classic triangle: slot 2 of node 1 is out of range. -/
theorem child_fails_iff_witness :
    1 ≤ classic.height ∧
    (NodeRef.child classic { id := 1, level := 1 } 2 = .error (.out_of_range 1 2) ↔
      2 ≥ NodeRef.num_children classic { id := 1, level := 1 }) :=
  ⟨by decide, (child_fails_iff classic { id := 1, level := 1 } 2 (by decide)).2.1⟩

/-- C10: `head` raises the empty-triangle error exactly when the triangle
holds no item; otherwise it returns the reference with id 0 and level 0, whose
`value` is the first item.  The method only reads the triangle. -/
theorem head_fails_iff (t : Triangle) :
    (t.head = .error .empty_triangle ↔ t.num_items = 0) ∧
    ((∃ e, t.head = .error e) ↔ t.num_items = 0) ∧
    (t.num_items ≠ 0 → t.head = .ok { id := 0, level := 0 }) ∧
    (∀ v rest, t.items = v :: rest →
      t.head = .ok { id := 0, level := 0 } ∧ NodeRef.value t { id := 0, level := 0 } = .ok v) := by
  cases hi : t.items with
  | nil => simp [Triangle.head, Triangle.empty, Triangle.num_items, hi]
  | cons v rest => simp [Triangle.head, Triangle.empty, Triangle.num_items, NodeRef.value, hi]

/-! ## The outer loop of the reader -/

theorem read_rows_second (t : Triangle) (expected : Nat) (row : List Int)
    (rest : List (List Int)) (h : t.height = 1) :
    read_rows t expected (row :: rest) =
      read_rows { items := t.items ++ row, height := 2, order := row.length }
        (Triangle.row_size { items := t.items ++ row, height := 2, order := row.length } 2) rest := by
  simp [read_rows, h]

theorem read_rows_mismatch (t : Triangle) (expected : Nat) (row : List Int)
    (rest : List (List Int)) (h : t.height ≠ 1) (hc : row.length ≠ expected) :
    read_rows t expected (row :: rest) =
      .error (.structure_error (t.height + 1) expected row.length) := by
  simp [read_rows, h, hc]

theorem read_rows_match (t : Triangle) (expected : Nat) (row : List Int)
    (rest : List (List Int)) (h : t.height ≠ 1) (hc : row.length = expected) :
    read_rows t expected (row :: rest) =
      read_rows { items := t.items ++ row, height := t.height + 1, order := t.order }
        (t.row_size (t.height + 1)) rest := by
  simp only [read_rows, hc]
  have h2 : (t.height + 1 == 2) = false := by simpa using h
  simp only [h2, Bool.false_eq_true, if_false, bne_self_eq_false]
  rfl

theorem read_lines_of_scans (lines : List (List Char)) (rows : List (List Int))
    (tail : List (List Char)) (hscan : List.Forall₂ ScansAs lines rows) (htail : Terminated tail) :
    ∀ (t : Triangle) (expected : Nat),
      read_lines t expected (lines ++ tail) = some (read_rows t expected rows) := by
  induction hscan with
  | nil =>
    intro t expected
    rcases htail with h | ⟨more, h⟩ <;> simp [h, read_lines, read_rows]
  | @cons line row lines rows hline _ ih =>
    intro t expected
    obtain ⟨hne, hs⟩ := hline
    have hempty : line.isEmpty = false := by
      cases line with
      | nil => exact absurd rfl hne
      | cons _ _ => rfl
    simp only [List.cons_append, read_lines, hempty, hs, read_rows]
    by_cases h2 : t.height = 1
    · simp [h2, ih]
    · by_cases hc : row.length = expected
      · simp [h2, hc, ih]
      · simp [h2, hc]

theorem read_rows_from_two (rest : List (List Int)) :
    ∀ t : Triangle, 2 ≤ t.height →
      (read_rows t (t.row_size t.height) rest =
          .ok { items := t.items ++ rest.flatten, height := t.height + rest.length,
                order := t.order } ∧
        ∀ j row, rest[j]? = some row → row.length = t.row_size (t.height + j)) ∨
      ∃ j row, rest[j]? = some row ∧ row.length ≠ t.row_size (t.height + j) ∧
        (∀ j' row', j' < j → rest[j']? = some row' → row'.length = t.row_size (t.height + j')) ∧
        read_rows t (t.row_size t.height) rest =
          .error (.structure_error (t.height + j + 1) (t.row_size (t.height + j)) row.length) := by
  induction rest with
  | nil =>
    intro t _
    left
    simp [read_rows]
  | cons row rest ih =>
    intro t ht
    have h1 : t.height ≠ 1 := by omega
    by_cases hc : row.length = t.row_size t.height
    · have hrs : ∀ level, Triangle.row_size
          { items := t.items ++ row, height := t.height + 1, order := t.order } level =
            t.row_size level := fun _ => rfl
      rw [read_rows_match t _ row rest h1 hc]
      rcases ih { items := t.items ++ row, height := t.height + 1, order := t.order }
          (by simp only; omega) with ⟨hok, hall⟩ | ⟨j, r, hj, hbad, hbefore, herr⟩
      · left
        simp only [hrs] at hok hall
        constructor
        · rw [hok]
          simp [Nat.add_assoc, Nat.add_comm 1]
        · intro j r hj
          cases j with
          | zero =>
            simp only [List.getElem?_cons_zero, Option.some.injEq] at hj
            rw [← hj]
            exact hc
          | succ j =>
            simp only [List.getElem?_cons_succ] at hj
            rw [hall j r hj]
            congr 1
            omega
      · right
        simp only [hrs] at hbad hbefore herr
        have e1 : t.height + 1 + j = t.height + (j + 1) := by omega
        rw [e1] at hbad herr
        refine ⟨j + 1, r, by simpa using hj, hbad, ?_, herr⟩
        intro j' r' hlt hj'
        cases j' with
        | zero =>
          simp only [List.getElem?_cons_zero, Option.some.injEq] at hj'
          rw [← hj']
          exact hc
        | succ j' =>
          simp only [List.getElem?_cons_succ] at hj'
          rw [hbefore j' r' (by omega) hj']
          congr 1
          omega
    · right
      refine ⟨0, row, by simp, by simpa using hc, ?_, ?_⟩
      · intro j' r' hlt
        omega
      · rw [read_rows_mismatch t _ row rest h1 hc]
        rfl

theorem expected_count_first (rows : List (List Int)) : expected_count rows (0 + 1) = 1 := by
  simp [expected_count]

theorem expected_count_later (r1 r2 : List Int) (rest : List (List Int)) (j : Nat) :
    expected_count (r1 :: r2 :: rest) (j + 2 + 1) =
      Triangle.row_size { items := r1 ++ r2, height := 2, order := r2.length } (2 + j) := by
  have e : j + 2 + 1 - 1 = 2 + j := by omega
  simp [expected_count, triangle_of_rows, Triangle.row_size, e]

theorem read_rows_fresh (rows : List (List Int)) :
    (read_rows Triangle.fresh 1 rows = .ok (triangle_of_rows rows) ∧ RowsFit rows) ∨
    ∃ i row, rows[i]? = some row ∧ i ≠ 1 ∧ row.length ≠ expected_count rows (i + 1) ∧
      (∀ i' row', i' < i → i' ≠ 1 → rows[i']? = some row' →
        row'.length = expected_count rows (i' + 1)) ∧
      read_rows Triangle.fresh 1 rows =
        .error (.structure_error (i + 1) (expected_count rows (i + 1)) row.length) := by
  have h0 : Triangle.fresh.height ≠ 1 := by decide
  match rows with
  | [] =>
    left
    refine ⟨rfl, ?_⟩
    intro i row h
    simp at h
  | r1 :: rest1 =>
    by_cases hc : r1.length = 1
    · rw [read_rows_match _ _ r1 rest1 h0 hc]
      match rest1 with
      | [] =>
        left
        refine ⟨by simp [read_rows, triangle_of_rows, Triangle.fresh], ?_⟩
        intro i row h hi
        cases i with
        | zero =>
          simp only [List.getElem?_cons_zero, Option.some.injEq] at h
          rw [← h, hc, expected_count_first]
        | succ i => simp at h
      | r2 :: rest =>
        rw [read_rows_second _ _ r2 rest rfl]
        have hfit : ∀ i row, (r1 :: r2 :: rest)[i]? = some row → i ≠ 1 → i < 2 →
            row.length = expected_count (r1 :: r2 :: rest) (i + 1) := by
          intro i row h hi hlt
          have : i = 0 := by omega
          subst this
          simp only [List.getElem?_cons_zero, Option.some.injEq] at h
          rw [← h, hc, expected_count_first]
        rcases read_rows_from_two rest
            { items := Triangle.fresh.items ++ r1 ++ r2, height := 2, order := r2.length }
            (by simp) with ⟨hok, hall⟩ | ⟨j, r, hj, hbad, hbefore, herr⟩
        · left
          refine ⟨?_, ?_⟩
          · rw [hok]
            simp only [triangle_of_rows, Triangle.fresh, List.nil_append, List.flatten_cons,
              List.append_assoc, List.length_cons, List.getD_cons_succ, List.getD_cons_zero,
              Except.ok.injEq, Triangle.mk.injEq, true_and, and_true]
            omega
          · intro i row h hi
            by_cases hlt : i < 2
            · exact hfit i row h hi hlt
            · obtain ⟨j, rfl⟩ : ∃ j, i = j + 2 := ⟨i - 2, by omega⟩
              simp only [List.getElem?_cons_succ] at h
              rw [expected_count_later]
              exact hall j row h
        · right
          refine ⟨j + 2, r, by simpa using hj, by omega, ?_, ?_, ?_⟩
          · rw [expected_count_later]
            exact hbad
          · intro i' row' hlt hi' h
            by_cases hlt2 : i' < 2
            · exact hfit i' row' h hi' hlt2
            · obtain ⟨j', rfl⟩ : ∃ j', i' = j' + 2 := ⟨i' - 2, by omega⟩
              simp only [List.getElem?_cons_succ] at h
              rw [expected_count_later]
              exact hbefore j' row' (by omega) h
          · rw [herr, expected_count_later]
            have e : 2 + j + 1 = j + 2 + 1 := by omega
            simp only [e]
            rfl
    · right
      refine ⟨0, r1, by simp, by omega, ?_, ?_, ?_⟩
      · rw [expected_count_first]
        exact hc
      · intro i' row' hlt
        omega
      · rw [read_rows_mismatch _ _ r1 rest1 h0 hc, expected_count_first]
        rfl

theorem construct_of_scans (lines : List (List Char)) (rows : List (List Int))
    (tail : List (List Char)) (hscan : List.Forall₂ ScansAs lines rows) (htail : Terminated tail) :
    construct (lines ++ tail) = some (read_rows Triangle.fresh 1 rows) :=
  read_lines_of_scans lines rows tail hscan htail Triangle.fresh 1

/-- C7: when the lines before the terminator scan as the rows `rows`,
construction returns, and it succeeds exactly when line 1 has one integer and
every line from the third on has `row_size` of its row index many integers,
for the order given by the count of line 2.  A structure error never names
line 2.  On success the height is the number of rows, the order is the count
of line 2 (0 without a line 2) and the items are the rows concatenated. -/
theorem construct_succeeds_iff (lines : List (List Char)) (rows : List (List Int))
    (tail : List (List Char)) (hscan : List.Forall₂ ScansAs lines rows) (htail : Terminated tail) :
    ((∃ t, construct (lines ++ tail) = some (.ok t)) ↔
      ((∀ row, rows[0]? = some row → row.length = 1) ∧
        ∀ i row, 2 ≤ i → rows[i]? = some row →
          row.length = Triangle.row_size
            { items := rows.flatten, height := rows.length, order := (rows.getD 1 []).length } i)) ∧
    (∀ t, construct (lines ++ tail) = some (.ok t) →
      t.height = rows.length ∧ t.order = (rows.getD 1 []).length ∧ t.items = rows.flatten) ∧
    (∀ L e g, construct (lines ++ tail) = some (.error (.structure_error L e g)) → L ≠ 2) ∧
    ((∃ t, construct (lines ++ tail) = some (.ok t)) ∨
      ∃ L e g, construct (lines ++ tail) = some (.error (.structure_error L e g))) := by
  rw [construct_of_scans lines rows tail hscan htail]
  have hfit : RowsFit rows ↔
      ((∀ row, rows[0]? = some row → row.length = 1) ∧
        ∀ i row, 2 ≤ i → rows[i]? = some row →
          row.length = Triangle.row_size
            { items := rows.flatten, height := rows.length, order := (rows.getD 1 []).length } i) := by
    constructor
    · intro h
      refine ⟨fun row h0 => ?_, fun i row hi hrow => ?_⟩
      · have := h 0 row h0 (by omega)
        rwa [expected_count_first] at this
      · have := h i row hrow (by omega)
        rw [this]
        have e : i + 1 ≠ 1 := by omega
        simp [expected_count, e, triangle_of_rows]
    · rintro ⟨h0, h2⟩ i row hrow hi
      by_cases hz : i = 0
      · subst hz
        rw [expected_count_first]
        exact h0 row hrow
      · rw [h2 i row (by omega) hrow]
        have e : i + 1 ≠ 1 := by omega
        simp [expected_count, e, triangle_of_rows]
  rw [← hfit]
  rcases read_rows_fresh rows with ⟨hok, hrf⟩ | ⟨i, row, hrow, hi, hbad, _, herr⟩
  · rw [hok]
    refine ⟨⟨fun _ => hrf, fun _ => ⟨_, rfl⟩⟩, ?_, ?_, Or.inl ⟨_, rfl⟩⟩
    · intro t ht
      simp only [Option.some.injEq, Except.ok.injEq] at ht
      rw [← ht]
      exact ⟨rfl, rfl, rfl⟩
    · intro L e g h
      simp at h
  · rw [herr]
    refine ⟨⟨?_, ?_⟩, ?_, ?_, Or.inr ⟨_, _, _, rfl⟩⟩
    · rintro ⟨t, ht⟩
      simp at ht
    · intro hrf
      exact absurd (hrf i row hrow hi) hbad
    · intro t ht
      simp at ht
    · intro L e g h
      simp only [Option.some.injEq, Except.error.injEq, Error.structure_error.injEq] at h
      omega

/-- C7 on the lines `1`, `5 6`, `1 2 3` followed by an empty line and a line
that is never read: construction succeeds. -/
theorem construct_succeeds_iff_witness :
    List.Forall₂ ScansAs ["1".toList, "5 6".toList, "1 2 3".toList] [[1], [5, 6], [1, 2, 3]] ∧
    Terminated [[], "x".toList] ∧
    construct (["1".toList, "5 6".toList, "1 2 3".toList] ++ [[], "x".toList]) =
      some (.ok { items := [1, 5, 6, 1, 2, 3], height := 3, order := 2 }) ∧
    ∀ L e g, construct (["1".toList, "5 6".toList, "1 2 3".toList] ++ [[], "x".toList]) =
      some (.error (.structure_error L e g)) → L ≠ 2 :=
  ⟨by decide, Or.inr ⟨_, rfl⟩, by decide,
    (construct_succeeds_iff ["1".toList, "5 6".toList, "1 2 3".toList] [[1], [5, 6], [1, 2, 3]]
      [[], "x".toList] (by decide) (Or.inr ⟨_, rfl⟩)).2.2.1⟩

/-- C8, as stated, fails: on the lines `1`, a blank-only line and `5`, the
second line declares order 0, the error at line 3 names the expected count
`row_size 2 = 0`, and 0 is not `1 + (3 - 1) * (order - 1)`, neither over the
integers (-1) nor with the subtraction cut off at 0 (1). -/
theorem structure_error_expected_zero :
    List.Forall₂ ScansAs ["1".toList, " ".toList, "5".toList] [[1], [], [5]] ∧
    construct ["1".toList, " ".toList, "5".toList] = some (.error (.structure_error 3 0 1)) ∧
    (([[1], [], [5]] : List (List Int)).getD 1 []).length = 0 ∧
    (0 : Int) ≠ 1 + (3 - 1) * ((0 : Int) - 1) ∧ (0 : Nat) ≠ 1 + (3 - 1) * (0 - 1) := by
  decide

/-- C8, amended: when the lines scan as rows and construction fails with the
error naming line `L`, expected count `e` and actual count `g`, then
`L` is 1 or at least 3, `g` is the count of line `L`, `e` is 1 for `L = 1` and
`row_size (L - 1)` otherwise, that is `1 + (L - 1) * (order - 1)` when the
order declared by line 2 is positive and 0 when it is 0, the two counts
differ, and every earlier line other than line 2 has its expected count. -/
theorem structure_error_names_first_mismatch (lines : List (List Char))
    (rows : List (List Int)) (tail : List (List Char)) (L e g : Nat)
    (hscan : List.Forall₂ ScansAs lines rows) (htail : Terminated tail)
    (herr : construct (lines ++ tail) = some (.error (.structure_error L e g))) :
    (L = 1 ∨ 3 ≤ L) ∧
    (∃ row, rows[L - 1]? = some row ∧ g = row.length) ∧
    e = expected_count rows L ∧
    (L = 1 → e = 1) ∧
    (L ≠ 1 → 1 ≤ (rows.getD 1 []).length → e = 1 + (L - 1) * ((rows.getD 1 []).length - 1)) ∧
    (L ≠ 1 → (rows.getD 1 []).length = 0 → e = 0) ∧
    g ≠ e ∧
    ∀ L' row', 1 ≤ L' → L' < L → L' ≠ 2 → rows[L' - 1]? = some row' →
      row'.length = expected_count rows L' := by
  rw [construct_of_scans lines rows tail hscan htail] at herr
  rcases read_rows_fresh rows with ⟨hok, _⟩ | ⟨i, row, hrow, hi, hbad, hbefore, herr2⟩
  · rw [hok] at herr
    simp at herr
  · rw [herr2] at herr
    simp only [Option.some.injEq, Except.error.injEq, Error.structure_error.injEq] at herr
    obtain ⟨hL, he, hg⟩ := herr
    subst hL
    have hexp : e = expected_count rows (i + 1) := he.symm
    refine ⟨by omega, ⟨row, by simpa using hrow, hg.symm⟩, hexp, ?_, ?_, ?_, ?_, ?_⟩
    · intro h1
      rw [hexp, h1]
      simp [expected_count]
    · intro h1 ho
      have ho' : (rows.getD 1 []).length > 0 := ho
      rw [hexp]
      simp only [expected_count, triangle_of_rows, Triangle.row_size, if_neg h1, if_pos ho']
    · intro h1 ho
      have ho' : ¬ (rows.getD 1 []).length > 0 := by omega
      rw [hexp]
      simp only [expected_count, triangle_of_rows, Triangle.row_size, if_neg h1, if_neg ho']
    · rw [← hg, hexp]
      exact hbad
    · intro L' row' h1 hlt h2 hrow'
      obtain ⟨i', rfl⟩ : ∃ i', L' = i' + 1 := ⟨L' - 1, by omega⟩
      exact hbefore i' row' (by omega) (by omega) (by simpa using hrow')

/-- The amended C8 on the lines `1`, `5 6`, `1 2`: the error names line 3, the
expected count 3 and the actual count 2. -/
theorem structure_error_names_first_mismatch_witness :
    List.Forall₂ ScansAs ["1".toList, "5 6".toList, "1 2".toList] [[1], [5, 6], [1, 2]] ∧
    Terminated [] ∧
    construct (["1".toList, "5 6".toList, "1 2".toList] ++ []) =
      some (.error (.structure_error 3 3 2)) ∧
    (3 = expected_count [[1], [5, 6], [1, 2]] 3) :=
  ⟨by decide, Or.inl rfl, by decide,
    (structure_error_names_first_mismatch ["1".toList, "5 6".toList, "1 2".toList]
      [[1], [5, 6], [1, 2]] [] 3 3 2 (by decide) (Or.inl rfl) (by decide)).2.2.1⟩

theorem read_lines_ok_scans (lines : List (List Char)) :
    ∀ (t : Triangle) (expected : Nat) (t' : Triangle),
      read_lines t expected lines = some (.ok t') →
      ∃ pre rows tail, lines = pre ++ tail ∧ List.Forall₂ ScansAs pre rows ∧ Terminated tail := by
  induction lines with
  | nil =>
    intro t expected t' _
    exact ⟨[], [], [], rfl, List.Forall₂.nil, Or.inl rfl⟩
  | cons line rest ih =>
    intro t expected t' h
    cases line with
    | nil => exact ⟨[], [], [] :: rest, rfl, List.Forall₂.nil, Or.inr ⟨rest, rfl⟩⟩
    | cons c cs =>
      simp only [read_lines, List.isEmpty_cons, Bool.false_eq_true, if_false] at h
      cases hs : scan_line (c :: cs) with
      | none => simp [hs] at h
      | some sc =>
        cases sc with
        | bad token => simp [hs] at h
        | ints row =>
          simp only [hs] at h
          have hrec : ∃ t1 e1, read_lines t1 e1 rest = some (.ok t') := by
            split at h
            · exact ⟨_, _, h⟩
            · split at h
              · simp at h
              · exact ⟨_, _, h⟩
          obtain ⟨t1, e1, h1⟩ := hrec
          obtain ⟨pre, rows, tail, hl, hf, ht⟩ := ih t1 e1 t' h1
          exact ⟨(c :: cs) :: pre, row :: rows, tail, by rw [hl]; rfl,
            List.Forall₂.cons ⟨by simp, hs⟩ hf, ht⟩

theorem construct_ok_rows (lines : List (List Char)) (t : Triangle)
    (h : construct lines = some (.ok t)) :
    ∃ rows, t = triangle_of_rows rows ∧ RowsFit rows := by
  obtain ⟨pre, rows, tail, hl, hf, ht⟩ := read_lines_ok_scans lines _ _ _ h
  rw [hl, construct_of_scans pre rows tail hf ht] at h
  rcases read_rows_fresh rows with ⟨hok, hrf⟩ | ⟨i, row, _, _, _, _, herr⟩
  · rw [hok] at h
    simp only [Option.some.injEq, Except.ok.injEq] at h
    exact ⟨rows, h.symm, hrf⟩
  · rw [herr] at h
    simp at h

theorem sum_lengths_eq (f : Nat → Nat) (rows : List (List Int))
    (h : ∀ i row, rows[i]? = some row → row.length = f i) :
    rows.flatten.length = ((List.range rows.length).map f).sum := by
  induction rows using List.reverseRecOn with
  | nil => simp
  | append_singleton init last ih =>
    have hinit : ∀ i row, init[i]? = some row → row.length = f i := by
      intro i row hi
      apply h i row
      have hlt : i < init.length := by
        by_contra hge
        rw [List.getElem?_eq_none (by omega)] at hi
        cases hi
      rw [List.getElem?_append_left hlt]
      exact hi
    have hlast : last.length = f init.length := by
      apply h init.length last
      simp
    simp only [List.flatten_append, List.length_append, List.flatten_cons, List.flatten_nil,
      List.append_nil, List.length_cons, List.length_nil, List.range_succ, List.map_append,
      List.sum_append, List.map_cons, List.map_nil, List.sum_cons, List.sum_nil]
    rw [ih hinit, hlast]
    rfl

theorem sum_first_row (n : Nat) :
    ((List.range n).map (fun i => if i = 0 then 1 else 0)).sum = min n 1 := by
  induction n with
  | zero => rfl
  | succ n ih =>
    rw [List.range_succ, List.map_append, List.sum_append, ih]
    cases n with
    | zero => rfl
    | succ n => simp

theorem rows_fit_lengths (rows : List (List Int)) (h : RowsFit rows)
    (ho : 1 ≤ (triangle_of_rows rows).order) :
    ∀ i row, rows[i]? = some row → row.length = (triangle_of_rows rows).row_size i := by
  intro i row hrow
  have ho' : (triangle_of_rows rows).order > 0 := ho
  by_cases h1 : i = 1
  · subst h1
    have : (triangle_of_rows rows).order = row.length := by
      simp [triangle_of_rows, List.getD, hrow]
    rw [this] at ho'
    simp only [Triangle.row_size, this, if_pos ho']
    omega
  · rw [h i row hrow h1]
    by_cases h0 : i = 0
    · subst h0
      simp [expected_count, Triangle.row_size, ho']
    · have : i + 1 ≠ 1 := by omega
      simp [expected_count, this]

theorem rows_fit_lengths_zero (rows : List (List Int)) (h : RowsFit rows)
    (ho : (triangle_of_rows rows).order = 0) :
    ∀ i row, rows[i]? = some row → row.length = if i = 0 then 1 else 0 := by
  intro i row hrow
  by_cases h1 : i = 1
  · subst h1
    have : (triangle_of_rows rows).order = row.length := by
      simp [triangle_of_rows, List.getD, hrow]
    rw [← this, ho]
    rfl
  · rw [h i row hrow h1]
    by_cases h0 : i = 0
    · subst h0
      simp [expected_count]
    · have : i + 1 ≠ 1 := by omega
      simp [expected_count, this, Triangle.row_size, ho, h0]

/-- C6, as stated, fails on a single-row triangle: the line `5` constructs a
triangle of height 1 and order 0, for which `row_size 0` is 0, not
`1 + 0 * (order - 1) = 1`, and the sum of `row_size` over its one row is 0,
not the item count 1. -/
theorem single_row_row_size_zero :
    construct ["5".toList] = some (.ok { items := [5], height := 1, order := 0 }) ∧
    Triangle.row_size { items := [5], height := 1, order := 0 } 0 = 0 ∧
    Triangle.row_size { items := [5], height := 1, order := 0 } 0 ≠ 1 + 0 * (0 - 1) ∧
    row_offset { items := [5], height := 1, order := 0 } 1 = 0 ∧
    Triangle.num_items { items := [5], height := 1, order := 0 } = 1 := by
  decide

/-- Geometry of a successfully constructed triangle, by the sign of its order. -/
theorem constructed_geometry (lines : List (List Char)) (t : Triangle)
    (h : construct lines = some (.ok t)) :
    (1 ≤ t.order → 2 ≤ t.height ∧ (∀ level, t.row_size level = 1 + level * (t.order - 1)) ∧
      row_offset t t.height = t.num_items) ∧
    (t.order = 0 → (∀ level, t.row_size level = 0) ∧ t.num_items = min t.height 1) := by
  obtain ⟨rows, ht, hfit⟩ := construct_ok_rows lines t h
  refine ⟨fun ho => ⟨?_, ?_, ?_⟩, fun ho => ⟨?_, ?_⟩⟩
  · rw [ht] at ho ⊢
    simp only [triangle_of_rows] at ho ⊢
    by_contra hlt
    have : rows[1]? = none := List.getElem?_eq_none (by omega)
    simp [List.getD, this] at ho
  · intro level
    have ho' : t.order > 0 := ho
    simp only [Triangle.row_size, if_pos ho']
  · rw [ht] at ho ⊢
    have := sum_lengths_eq (triangle_of_rows rows).row_size rows (rows_fit_lengths rows hfit ho)
    simp only [row_offset, Triangle.num_items]
    exact this.symm
  · intro level
    simp [Triangle.row_size, ho]
  · rw [ht] at ho ⊢
    have := sum_lengths_eq _ rows (rows_fit_lengths_zero rows hfit ho)
    rw [sum_first_row] at this
    exact this

/-- C6, amended: a triangle produced by a successful construction with a
positive order has at least two rows, `row_size level = 1 + level * (order - 1)`
at every level, and the sum of `row_size` over its rows equal to `num_items`;
one produced with order 0 (a single row, or a second line without integers)
has `row_size level = 0` at every level and one item (none when no line was
read). -/
theorem construct_geometry (lines : List (List Char)) (t : Triangle)
    (h : construct lines = some (.ok t)) :
    (1 ≤ t.order → 2 ≤ t.height ∧ (∀ level, t.row_size level = 1 + level * (t.order - 1)) ∧
      row_offset t t.height = t.num_items) ∧
    (t.order = 0 → (∀ level, t.row_size level = 0) ∧ t.num_items = min t.height 1) :=
  constructed_geometry lines t h

/-- The amended C6 on the lines `3`, `7 4`, `2 4 6`, `8 5 9 3`: the order is
2 and the four row sizes 1, 2, 3, 4 add up to the ten items. -/
theorem construct_geometry_witness :
    construct ["3".toList, "7 4".toList, "2 4 6".toList, "8 5 9 3".toList] = some (.ok classic) ∧
    (1 ≤ classic.order → 2 ≤ classic.height ∧
      (∀ level, classic.row_size level = 1 + level * (classic.order - 1)) ∧
      row_offset classic classic.height = classic.num_items) :=
  ⟨by decide,
    (construct_geometry ["3".toList, "7 4".toList, "2 4 6".toList, "8 5 9 3".toList] classic
      (by decide)).1⟩

/-- A successfully constructed triangle with a single row, or with a positive
order, is well-formed. -/
theorem construct_well_formed (lines : List (List Char)) (t : Triangle)
    (h : construct lines = some (.ok t)) (hh : 1 ≤ t.height)
    (ho : t.height = 1 ∨ 1 ≤ t.order) : WellFormed t := by
  have hg := constructed_geometry lines t h
  by_cases hpos : 1 ≤ t.order
  · obtain ⟨_, _, hsum⟩ := hg.1 hpos
    refine ⟨hh, fun _ => hpos, ?_⟩
    rw [← row_offset_eq_row_start t _ hpos, hsum]
    rfl
  · have h1 : t.height = 1 := by omega
    have hz : t.order = 0 := by omega
    obtain ⟨_, hn⟩ := hg.2 hz
    refine ⟨hh, fun h2 => by omega, ?_⟩
    rw [h1] at hn ⊢
    simp only [Triangle.num_items] at hn
    rw [hn]
    simp [row_start, row_items]

/-! ## Characters and runs of characters -/

theorem is_space_of_is_digit {c : Char} (h : is_digit c = true) : is_space c = false := by
  simp only [is_digit, Bool.and_eq_true, decide_eq_true_eq] at h
  simp only [is_space, Bool.or_eq_false_iff, Bool.and_eq_false_iff, decide_eq_false_iff_not,
    beq_eq_false_iff_ne]
  refine ⟨?_, by omega⟩
  intro e
  rw [e] at h
  revert h
  decide

theorem is_digit_of_is_space {c : Char} (h : is_space c = true) : is_digit c = false := by
  cases hd : is_digit c
  · rfl
  · rw [is_space_of_is_digit hd] at h
    cases h

theorem dropWhile_append_all {p : Char → Bool} (xs ys : List Char)
    (h : ∀ c ∈ xs, p c = true) : (xs ++ ys).dropWhile p = ys.dropWhile p := by
  induction xs with
  | nil => rfl
  | cons x xs ih =>
    have hx : p x = true := h x (by simp)
    simp only [List.cons_append, List.dropWhile_cons, hx, if_true]
    exact ih (fun c hc => h c (by simp [hc]))

theorem takeWhile_append_all {p : Char → Bool} (xs ys : List Char)
    (h : ∀ c ∈ xs, p c = true) : (xs ++ ys).takeWhile p = xs ++ ys.takeWhile p := by
  induction xs with
  | nil => rfl
  | cons x xs ih =>
    have hx : p x = true := h x (by simp)
    simp only [List.cons_append, List.takeWhile_cons, hx, if_true]
    rw [ih (fun c hc => h c (by simp [hc]))]

theorem takeWhile_digit_separated (rest : List Char) (h : Separated rest) :
    rest.takeWhile is_digit = [] := by
  rcases h with h | ⟨s, r, h, hs⟩
  · rw [h]; rfl
  · rw [h]
    simp [List.takeWhile_cons, is_digit_of_is_space hs]

theorem dropWhile_digit_separated (rest : List Char) (h : Separated rest) :
    rest.dropWhile is_digit = rest := by
  rcases h with h | ⟨s, r, h, hs⟩
  · rw [h]; rfl
  · rw [h]
    simp [List.dropWhile_cons, is_digit_of_is_space hs]

theorem takeWhile_not_space_separated (rest : List Char) (h : Separated rest) :
    rest.takeWhile (fun c => !is_space c) = [] := by
  rcases h with h | ⟨s, r, h, hs⟩
  · rw [h]; rfl
  · rw [h]
    simp [List.takeWhile_cons, hs]

/-! ## One extraction -/

theorem int_token_cons (c : Char) (cs : List Char) :
    int_token (c :: cs) =
      if (!(if c == '-' || c == '+' then cs else c :: cs).isEmpty &&
          (if c == '-' || c == '+' then cs else c :: cs).all is_digit &&
          decide (-2147483648 ≤ (if c == '-' then
            -(digits_value (if c == '-' || c == '+' then cs else c :: cs) : Int)
            else (digits_value (if c == '-' || c == '+' then cs else c :: cs) : Int))) &&
          decide ((if c == '-' then
            -(digits_value (if c == '-' || c == '+' then cs else c :: cs) : Int)
            else (digits_value (if c == '-' || c == '+' then cs else c :: cs) : Int)) ≤ 2147483647))
          = true
      then some (if c == '-' then
            -(digits_value (if c == '-' || c == '+' then cs else c :: cs) : Int)
            else (digits_value (if c == '-' || c == '+' then cs else c :: cs) : Int))
      else none := rfl

theorem int_token_shape (tok : List Char) (v : Int) (h : int_token tok = some v) :
    ∃ c cs ds, tok = c :: cs ∧ ds = (if c == '-' || c == '+' then cs else c :: cs) ∧
      ds ≠ [] ∧ (∀ d ∈ ds, is_digit d = true) ∧ is_space c = false ∧
      v = (if c == '-' then -(digits_value ds : Int) else (digits_value ds : Int)) ∧
      -2147483648 ≤ v ∧ v ≤ 2147483647 := by
  cases tok with
  | nil => cases h
  | cons c cs =>
    rw [int_token_cons] at h
    simp only [Option.ite_none_right_eq_some, Option.some.injEq] at h
    obtain ⟨hcond, h⟩ := h
    simp only [Bool.and_eq_true, Bool.not_eq_true', List.isEmpty_eq_false, List.all_eq_true,
      decide_eq_true_eq] at hcond
    obtain ⟨⟨⟨hne, hall⟩, hlo⟩, hhi⟩ := hcond
    refine ⟨c, cs, _, rfl, rfl, ?_, hall, ?_, h.symm, ?_, ?_⟩
    · intro e
      rw [e] at hne
      simp at hne
    · by_cases hs : (c == '-' || c == '+') = true
      · simp only [Bool.or_eq_true, beq_iff_eq] at hs
        rcases hs with hs | hs <;> (rw [hs]; decide)
      · simp only [hs] at hall
        exact is_space_of_is_digit (hall c (by simp))
    · rw [← h]; exact hlo
    · rw [← h]; exact hhi

theorem extract_int_good (rest : List Char) (c : Char) (r1 : List Char)
    (h : rest.dropWhile is_space = c :: r1) :
    extract_int { rest := rest, eofbit := false, failbit := false } =
      if ((if c == '-' || c == '+' then r1 else c :: r1).takeWhile is_digit).isEmpty ||
          decide ((if c == '-' then
            -(digits_value ((if c == '-' || c == '+' then r1 else c :: r1).takeWhile is_digit) : Int)
            else (digits_value ((if c == '-' || c == '+' then r1 else c :: r1).takeWhile is_digit) : Int))
              < -2147483648) ||
          decide ((if c == '-' then
            -(digits_value ((if c == '-' || c == '+' then r1 else c :: r1).takeWhile is_digit) : Int)
            else (digits_value ((if c == '-' || c == '+' then r1 else c :: r1).takeWhile is_digit) : Int))
              > 2147483647) then
        ({ rest := (if c == '-' || c == '+' then r1 else c :: r1).dropWhile is_digit,
           eofbit := ((if c == '-' || c == '+' then r1 else c :: r1).dropWhile is_digit).isEmpty,
           failbit := true }, none)
      else
        ({ rest := (if c == '-' || c == '+' then r1 else c :: r1).dropWhile is_digit,
           eofbit := ((if c == '-' || c == '+' then r1 else c :: r1).dropWhile is_digit).isEmpty,
           failbit := false },
         some (if c == '-' then
            -(digits_value ((if c == '-' || c == '+' then r1 else c :: r1).takeWhile is_digit) : Int)
            else (digits_value ((if c == '-' || c == '+' then r1 else c :: r1).takeWhile is_digit) : Int))) := by
  unfold extract_int
  simp only [Bool.or_self, Bool.false_eq_true, if_false, h]

theorem extract_int_token (sp tok rest : List Char) (v : Int)
    (hsp : ∀ c ∈ sp, is_space c = true) (htok : int_token tok = some v) (hrest : Separated rest) :
    extract_int { rest := sp ++ tok ++ rest, eofbit := false, failbit := false } =
      ({ rest := rest, eofbit := rest.isEmpty, failbit := false }, some v) := by
  obtain ⟨c, cs, ds, htk, hds, hne, hall, hc, hv, hlo, hhi⟩ := int_token_shape tok v htok
  subst htk
  have hdrop : (sp ++ c :: cs ++ rest).dropWhile is_space = c :: (cs ++ rest) := by
    rw [List.append_assoc, dropWhile_append_all sp _ hsp]
    simp [List.dropWhile_cons, hc]
  have hr2 : (if c == '-' || c == '+' then cs ++ rest else c :: (cs ++ rest)) = ds ++ rest := by
    rw [hds]
    split <;> rfl
  have htake : (ds ++ rest).takeWhile is_digit = ds := by
    rw [takeWhile_append_all ds rest hall, takeWhile_digit_separated rest hrest, List.append_nil]
  have hdropd : (ds ++ rest).dropWhile is_digit = rest := by
    rw [dropWhile_append_all ds rest hall, dropWhile_digit_separated rest hrest]
  have hemp : ds.isEmpty = false := by
    cases ds with
    | nil => exact absurd rfl hne
    | cons _ _ => rfl
  rw [extract_int_good _ c _ hdrop, hr2, htake, hdropd, ← hv, hemp]
  have h1 : ¬ (v < -2147483648) := by omega
  have h2 : ¬ (v > 2147483647) := by omega
  simp [h1, h2]

theorem extract_int_outside (sp tok rest : List Char)
    (hsp : ∀ c ∈ sp, is_space c = true) (htok : StartsOutsideNumber tok)
    (hns : ∀ c ∈ tok, is_space c = false) :
    extract_int { rest := sp ++ tok ++ rest, eofbit := false, failbit := false } =
      ({ rest := tok ++ rest, eofbit := false, failbit := true }, none) := by
  obtain ⟨c, cs, htk, hd, hm, hp⟩ := htok
  subst htk
  have hc : is_space c = false := hns c (by simp)
  have hdrop : (sp ++ c :: cs ++ rest).dropWhile is_space = c :: (cs ++ rest) := by
    rw [List.append_assoc, dropWhile_append_all sp _ hsp]
    simp [List.dropWhile_cons, hc]
  have hsign : (c == '-' || c == '+') = false := by simp [hm, hp]
  rw [extract_int_good _ c _ hdrop]
  simp only [hsign, Bool.false_eq_true, if_false, List.takeWhile_cons, List.dropWhile_cons, hd]
  simp

theorem extract_int_blank (sp : List Char) (hsp : ∀ c ∈ sp, is_space c = true) :
    extract_int { rest := sp, eofbit := false, failbit := false } =
      ({ rest := [], eofbit := true, failbit := true }, none) := by
  have hdrop : sp.dropWhile is_space = [] := by
    have := dropWhile_append_all sp [] hsp
    simpa using this
  simp only [extract_int, Bool.or_self, Bool.false_eq_true, if_false, hdrop]

theorem extract_int_at_eof (rest : List Char) :
    extract_int { rest := rest, eofbit := true, failbit := false } =
      ({ rest := rest, eofbit := true, failbit := true }, none) := by
  simp [extract_int]

theorem extract_word_token (tok rest : List Char) (hns : ∀ c ∈ tok, is_space c = false)
    (hne : tok ≠ []) (hrest : Separated rest) : extract_word (tok ++ rest) = tok := by
  cases tok with
  | nil => exact absurd rfl hne
  | cons c cs =>
    have hc : is_space c = false := hns c (by simp)
    have hall : ∀ x ∈ c :: cs, (fun y => !is_space y) x = true := by
      intro x hx
      simp [hns x hx]
    simp only [extract_word, List.cons_append, List.dropWhile_cons, hc, Bool.false_eq_true,
      if_false]
    rw [← List.cons_append, takeWhile_append_all (c :: cs) rest hall,
      takeWhile_not_space_separated rest hrest, List.append_nil]

/-! ## Tokens of a line -/

theorem words_space (c : Char) (cs : List Char) (h : is_space c = true) :
    words (c :: cs) = words cs := by
  simp [words, h]

theorem words_single (c : Char) (h : is_space c = false) : words [c] = [[c]] := by
  simp [words, attach, h]

theorem words_start (c d : Char) (ds : List Char) (h : is_space c = false)
    (hd : is_space d = true) : words (c :: d :: ds) = [c] :: words (d :: ds) := by
  rw [words]
  simp only [h, Bool.false_eq_true, if_false]
  cases hw : words (d :: ds) with
  | nil => rfl
  | cons w ws => simp [attach, hd]

theorem words_blank (l : List Char) (h : words l = []) : ∀ c ∈ l, is_space c = true := by
  induction l with
  | nil => simp
  | cons c cs ih =>
    by_cases hc : is_space c = true
    · rw [words_space c cs hc] at h
      intro x hx
      rcases List.mem_cons.1 hx with e | e
      · rw [e]; exact hc
      · exact ih h x e
    · have hc' : is_space c = false := by simpa using hc
      exfalso
      rw [words] at h
      simp only [hc', Bool.false_eq_true, if_false] at h
      unfold attach at h
      split at h
      · split at h <;> cases h
      · cases h

theorem words_continue (c d : Char) (ds : List Char) (h : is_space c = false)
    (hd : is_space d = false) :
    ∃ w ws, words (d :: ds) = w :: ws ∧ words (c :: d :: ds) = (c :: w) :: ws := by
  cases hw : words (d :: ds) with
  | nil =>
    have := words_blank (d :: ds) hw d (by simp)
    rw [hd] at this
    cases this
  | cons w ws =>
    refine ⟨w, ws, rfl, ?_⟩
    rw [words]
    simp only [h, Bool.false_eq_true, if_false, hw, hd, attach]

theorem words_split (l : List Char) :
    ∀ w more, words l = w :: more →
      ∃ sp rest, l = sp ++ w ++ rest ∧ (∀ c ∈ sp, is_space c = true) ∧ w ≠ [] ∧
        (∀ c ∈ w, is_space c = false) ∧ Separated rest ∧ words rest = more := by
  induction l with
  | nil =>
    intro w more h
    simp [words] at h
  | cons c cs ih =>
    intro w more h
    by_cases hc : is_space c = true
    · rw [words_space c cs hc] at h
      obtain ⟨sp, rest, hl, hsp, hne, hw, hrest, hmore⟩ := ih w more h
      refine ⟨c :: sp, rest, by rw [hl]; rfl, ?_, hne, hw, hrest, hmore⟩
      intro x hx
      rcases List.mem_cons.1 hx with e | e
      · rw [e]; exact hc
      · exact hsp x e
    · have hc' : is_space c = false := by simpa using hc
      cases cs with
      | nil =>
        rw [words_single c hc'] at h
        injection h with h1 h2
        refine ⟨[], [], by rw [← h1]; rfl, by simp, by rw [← h1]; simp, ?_, Or.inl rfl, ?_⟩
        · intro x hx
          rw [← h1] at hx
          simp only [List.mem_singleton] at hx
          rw [hx]; exact hc'
        · rw [← h2]; rfl
      | cons d ds =>
        by_cases hd : is_space d = true
        · rw [words_start c d ds hc' hd] at h
          injection h with h1 h2
          refine ⟨[], d :: ds, by rw [← h1]; rfl, by simp, by rw [← h1]; simp, ?_,
            Or.inr ⟨d, ds, rfl, hd⟩, h2⟩
          intro x hx
          rw [← h1] at hx
          simp only [List.mem_singleton] at hx
          rw [hx]; exact hc'
        · have hd' : is_space d = false := by simpa using hd
          obtain ⟨w', ws', hw', hcw⟩ := words_continue c d ds hc' hd'
          rw [hcw] at h
          injection h with h1 h2
          obtain ⟨sp, rest, hl, hsp, hne, hw, hrest, hmore⟩ := ih w' ws' hw'
          have hspnil : sp = [] := by
            cases sp with
            | nil => rfl
            | cons s sp' =>
              have hs : is_space s = true := hsp s (by simp)
              simp only [List.cons_append, List.cons.injEq] at hl
              rw [← hl.1, hd'] at hs
              cases hs
          subst hspnil
          refine ⟨[], rest, ?_, by simp, by rw [← h1]; simp, ?_, hrest, by rw [hmore, h2]⟩
          · rw [← h1, hl]
            rfl
          · intro x hx
            rw [← h1] at hx
            rcases List.mem_cons.1 hx with e | e
            · rw [e]; exact hc'
            · exact hw x e

/-! ## The inner loop on a line of tokens -/

theorem read_items_integers (toks : List (List Char)) :
    ∀ (l : List Char) (row : List Int) (fuel : Nat), words l = toks →
      (∀ tok ∈ toks, (int_token tok).isSome = true) → l.length + 1 ≤ fuel →
      ∃ vals, read_items fuel { rest := l, eofbit := false, failbit := false } row =
        some (.ints (row ++ vals)) := by
  induction toks with
  | nil =>
    intro l row fuel hw _ hfuel
    obtain ⟨fuel, rfl⟩ : ∃ f, fuel = f + 1 := ⟨fuel - 1, by omega⟩
    refine ⟨[], ?_⟩
    rw [read_items, extract_int_blank l (words_blank l hw)]
    simp
  | cons tok toks ih =>
    intro l row fuel hw hall hfuel
    obtain ⟨sp, rest, hl, hsp, hne, hns, hrest, hmore⟩ := words_split l tok toks hw
    obtain ⟨v, hv⟩ := Option.isSome_iff_exists.1 (hall tok (by simp))
    have hlen : rest.length + 2 ≤ fuel := by
      have : 1 ≤ tok.length := List.length_pos.2 hne
      rw [hl] at hfuel
      simp only [List.length_append] at hfuel
      omega
    obtain ⟨fuel, rfl⟩ : ∃ f, fuel = f + 1 := ⟨fuel - 1, by omega⟩
    rw [read_items, hl, extract_int_token sp tok rest v hsp hv hrest]
    simp only
    cases rest with
    | nil =>
      obtain ⟨fuel, rfl⟩ : ∃ f, fuel = f + 1 := ⟨fuel - 1, by simp at hlen; omega⟩
      refine ⟨[v], ?_⟩
      rw [List.isEmpty_nil, read_items, extract_int_at_eof]
      simp
    | cons s r =>
      obtain ⟨vals, hvals⟩ := ih (s :: r) (row ++ [v]) fuel hmore
        (fun t ht => hall t (by simp [ht])) (by omega)
      refine ⟨v :: vals, ?_⟩
      rw [List.isEmpty_cons, hvals]
      simp

theorem read_items_outside (toks : List (List Char)) :
    ∀ (l : List Char) (row : List Int) (fuel : Nat) (b : List Char) (more : List (List Char)),
      words l = toks ++ b :: more → (∀ tok ∈ toks, (int_token tok).isSome = true) →
      StartsOutsideNumber b → l.length + 1 ≤ fuel →
      read_items fuel { rest := l, eofbit := false, failbit := false } row = some (.bad b) := by
  induction toks with
  | nil =>
    intro l row fuel b more hw _ hb hfuel
    obtain ⟨sp, rest, hl, hsp, hne, hns, hrest, _⟩ := words_split l b more hw
    obtain ⟨fuel, rfl⟩ : ∃ f, fuel = f + 1 := ⟨fuel - 1, by omega⟩
    rw [read_items, hl, extract_int_outside sp b rest hsp hb hns]
    simp only [Bool.not_false, if_true]
    rw [extract_word_token b rest hns hne hrest]
  | cons tok toks ih =>
    intro l row fuel b more hw hall hb hfuel
    obtain ⟨sp, rest, hl, hsp, hne, hns, hrest, hmore⟩ :=
      words_split l tok (toks ++ b :: more) hw
    obtain ⟨v, hv⟩ := Option.isSome_iff_exists.1 (hall tok (by simp))
    have hlen : rest.length + 2 ≤ fuel := by
      have : 1 ≤ tok.length := List.length_pos.2 hne
      rw [hl] at hfuel
      simp only [List.length_append] at hfuel
      omega
    obtain ⟨fuel, rfl⟩ : ∃ f, fuel = f + 1 := ⟨fuel - 1, by omega⟩
    rw [read_items, hl, extract_int_token sp tok rest v hsp hv hrest]
    simp only
    cases rest with
    | nil =>
      simp [words] at hmore
    | cons s r =>
      rw [List.isEmpty_cons]
      exact ih (s :: r) (row ++ [v]) fuel b more hmore
        (fun t ht => hall t (by simp [ht])) hb (by omega)

theorem scan_line_integers (l : List Char)
    (h : ∀ tok ∈ words l, (int_token tok).isSome = true) : ∃ row, scan_line l = some (.ints row) := by
  obtain ⟨vals, hv⟩ := read_items_integers (words l) l [] (l.length + 1) rfl h (Nat.le_refl _)
  exact ⟨vals, by simpa [scan_line, IStream.of_line] using hv⟩

theorem scan_line_outside (l b : List Char) (toks more : List (List Char))
    (hw : words l = toks ++ b :: more) (h : ∀ tok ∈ toks, (int_token tok).isSome = true)
    (hb : StartsOutsideNumber b) : scan_line l = some (.bad b) :=
  read_items_outside toks l [] (l.length + 1) b more hw h hb (Nat.le_refl _)

theorem read_lines_cons_ints (t : Triangle) (expected : Nat) (line : List Char)
    (rest : List (List Char)) (row : List Int) (hne : line ≠ [])
    (hs : scan_line line = some (.ints row)) :
    read_lines t expected (line :: rest) =
      if t.height + 1 = 2 then
        read_lines { items := t.items ++ row, height := t.height + 1, order := row.length }
          (Triangle.row_size
            { items := t.items ++ row, height := t.height + 1, order := row.length }
            (t.height + 1)) rest
      else if row.length ≠ expected then
        some (.error (.structure_error (t.height + 1) expected row.length))
      else
        read_lines { items := t.items ++ row, height := t.height + 1, order := t.order }
          (Triangle.row_size
            { items := t.items ++ row, height := t.height + 1, order := t.order }
            (t.height + 1)) rest := by
  cases line with
  | nil => exact absurd rfl hne
  | cons c cs =>
    simp only [read_lines, List.isEmpty_cons, Bool.false_eq_true, if_false, hs, beq_iff_eq,
      bne_iff_ne, ne_eq, ite_not]

theorem read_lines_prefix (pre : List (List Char)) :
    ∀ (t : Triangle) (expected : Nat) (t0 : Triangle), (∀ p ∈ pre, p ≠ []) →
      read_lines t expected pre = some (.ok t0) →
      t0.height = t.height + pre.length ∧
        ∃ e0, ∀ suffix, read_lines t expected (pre ++ suffix) = read_lines t0 e0 suffix := by
  induction pre with
  | nil =>
    intro t expected t0 _ h
    simp only [read_lines, Option.some.injEq, Except.ok.injEq] at h
    subst h
    exact ⟨rfl, expected, fun _ => rfl⟩
  | cons line rest ih =>
    intro t expected t0 hne h
    have hrest : ∀ p ∈ rest, p ≠ [] := fun p hp => hne p (by simp [hp])
    have hline : line ≠ [] := hne line (by simp)
    cases hs : scan_line line with
    | none =>
      cases line with
      | nil => exact absurd rfl hline
      | cons c cs => simp [read_lines, hs] at h
    | some sc =>
      cases sc with
      | bad token =>
        cases line with
        | nil => exact absurd rfl hline
        | cons c cs => simp [read_lines, hs] at h
      | ints row =>
        rw [read_lines_cons_ints t expected line rest row hline hs] at h
        simp only [List.cons_append]
        by_cases h2 : t.height + 1 = 2
        · rw [if_pos h2] at h
          obtain ⟨hh, e0, he0⟩ := ih _ _ t0 hrest h
          refine ⟨?_, e0, fun suffix => ?_⟩
          · rw [hh]
            simp only [List.length_cons]
            omega
          · rw [read_lines_cons_ints t expected line _ row hline hs, if_pos h2]
            exact he0 suffix
        · rw [if_neg h2] at h
          by_cases hc : row.length ≠ expected
          · rw [if_pos hc] at h
            simp at h
          · rw [if_neg hc] at h
            obtain ⟨hh, e0, he0⟩ := ih _ _ t0 hrest h
            refine ⟨?_, e0, fun suffix => ?_⟩
            · rw [hh]
              simp only [List.length_cons]
              omega
            · rw [read_lines_cons_ints t expected line _ row hline hs, if_neg h2, if_neg hc]
              exact he0 suffix

theorem read_lines_no_parse_error (lines : List (List Char)) :
    ∀ (t : Triangle) (expected : Nat),
      (∀ l ∈ lines, ∀ tok ∈ words l, (int_token tok).isSome = true) →
      ∀ L tok, read_lines t expected lines ≠ some (.error (.parse_error L tok)) := by
  induction lines with
  | nil =>
    intro t expected _ L tok h
    simp [read_lines] at h
  | cons line rest ih =>
    intro t expected hall L tok h
    have hrest : ∀ l ∈ rest, ∀ tok ∈ words l, (int_token tok).isSome = true :=
      fun l hl => hall l (by simp [hl])
    obtain ⟨row, hrow⟩ := scan_line_integers line (hall line (by simp))
    simp only [read_lines, hrow] at h
    split at h
    · simp at h
    · split at h
      · exact ih _ _ hrest L tok h
      · split at h
        · simp at h
        · exact ih _ _ hrest L tok h

/-- C9, as stated, fails.  On the line `7x` the only token, `7x`, is not an
integer, and the parse error names `x`: the extraction takes the 7 and fails
on the rest.  On the lines `1` and `5 -` the token `-` is not an integer, and
no error is raised: the extraction consumes the sign, reaches the end of the
line, and the loop ends as it does after the last integer of a line. -/
theorem parse_error_names_rest_of_token :
    first_offending "7x".toList = some "7x".toList ∧
    construct ["7x".toList] = some (.error (.parse_error 1 "x".toList)) ∧
    "x".toList ≠ "7x".toList ∧
    first_offending "5 -".toList = some "-".toList ∧
    construct ["1".toList, "5 -".toList] = some (.ok { items := [1, 5], height := 2, order := 1 }) := by
  decide

/-- C9, amended: when the lines before line `L` are not empty and construct
successfully on their own, and the first token of line `L` that is not an
integer starts with a character that is neither a digit nor a sign,
construction fails with the parse error naming `L` and that token, whatever
else is on the line and after it.  No parse error is raised for an input all
of whose tokens are integers in the range of `int`. -/
theorem parse_error_names_token (pre : List (List Char)) (t0 : Triangle) (l : List Char)
    (post : List (List Char)) (toks : List (List Char)) (b : List Char)
    (more : List (List Char)) (hne : ∀ p ∈ pre, p ≠ [])
    (hpre : construct pre = some (.ok t0)) (hw : words l = toks ++ b :: more)
    (htoks : ∀ tok ∈ toks, (int_token tok).isSome = true) (hb : StartsOutsideNumber b) :
    construct (pre ++ l :: post) = some (.error (.parse_error (pre.length + 1) b)) ∧
    ∀ lines : List (List Char), (∀ l ∈ lines, ∀ tok ∈ words l, (int_token tok).isSome = true) →
      ∀ L tok, construct lines ≠ some (.error (.parse_error L tok)) := by
  refine ⟨?_, fun lines h => read_lines_no_parse_error lines _ _ h⟩
  obtain ⟨hh, e0, he0⟩ := read_lines_prefix pre _ _ t0 hne hpre
  have hl : l.isEmpty = false := by
    cases l with
    | nil => simp [words] at hw
    | cons _ _ => rfl
  rw [construct, he0, read_lines]
  simp only [hl, Bool.false_eq_true, if_false, scan_line_outside l b toks more hw htoks hb, hh]
  simp [Triangle.fresh]

/-- The amended C9 on the lines `1`, `5 6`, `1 x2 3`: the error names line 3
and the token `x2`. -/
theorem parse_error_names_token_witness :
    (∀ p ∈ ["1".toList, "5 6".toList], p ≠ []) ∧
    construct ["1".toList, "5 6".toList] = some (.ok { items := [1, 5, 6], height := 2, order := 2 }) ∧
    words "1 x2 3".toList = ["1".toList] ++ "x2".toList :: ["3".toList] ∧
    StartsOutsideNumber "x2".toList ∧
    construct (["1".toList, "5 6".toList] ++ "1 x2 3".toList :: []) =
      some (.error (.parse_error 3 "x2".toList)) :=
  ⟨by decide, by decide, by decide, by decide,
    (parse_error_names_token ["1".toList, "5 6".toList] { items := [1, 5, 6], height := 2, order := 2 }
      "1 x2 3".toList [] ["1".toList] "x2".toList ["3".toList] (by decide) (by decide)
      (by decide) (by decide) (by decide)).1⟩

/-! ## Degenerate triangles -/

theorem max_path_sum_single (a : Int) (order : Nat) (ho : order = 0) :
    max_path_sum 1 { items := [a], height := 1, order := order } = some (.ok a) := by
  subst ho
  simp [max_path_sum, Triangle.empty, enter, Triangle.row_size, Triangle.num_items, Triangle.head,
    loop, iteration, back, NodeRef.num_children, NodeRef.final, size_sub, resolve, NodeRef.value,
    write_at, bind, Except.bind, pure, Except.pure, throw, throwThe, MonadExceptOf.throw]

/-- C11: a line that scans as the single integer `a` constructs the triangle
with items `[a]`, height 1 and order 0, and on it `max_path_sum` returns `a`
after one iteration of the loop (and with any larger bound). -/
theorem single_row_returns_apex (line : List Char) (a : Int) (h : ScansAs line [a]) :
    construct [line] = some (.ok { items := [a], height := 1, order := 0 }) ∧
    ∀ extra, max_path_sum (1 + extra) { items := [a], height := 1, order := 0 } = some (.ok a) := by
  refine ⟨?_, max_path_sum_add _ 1 _ (max_path_sum_single a 0 rfl)⟩
  have := construct_of_scans [line] [[a]] [] (List.Forall₂.cons h List.Forall₂.nil) (Or.inl rfl)
  simp only [List.append_nil] at this
  rw [this]
  simp [read_rows, Triangle.fresh]

/-- C11 on the line `-7`. -/
theorem single_row_returns_apex_witness :
    ScansAs "-7".toList [-7] ∧
    construct ["-7".toList] = some (.ok { items := [-7], height := 1, order := 0 }) ∧
    max_path_sum (1 + 0) { items := [-7], height := 1, order := 0 } = some (.ok (-7)) :=
  ⟨by decide, (single_row_returns_apex "-7".toList (-7) (by decide)).1,
    (single_row_returns_apex "-7".toList (-7) (by decide)).2 0⟩

/-- C12: on a triangle without items `max_path_sum` returns 0, whatever the
bound on the loop: the loop is not entered and `head`, which would raise the
empty-triangle error, is not evaluated. -/
theorem max_path_sum_empty (t : Triangle) (fuel : Nat) (h : t.num_items = 0) :
    max_path_sum fuel t = some (.ok 0) ∧ t.head = .error .empty_triangle := by
  have he : t.empty = true := by
    simp only [Triangle.num_items] at h
    simp [Triangle.empty, List.length_eq_zero.1 h]
  simp [max_path_sum, Triangle.head, he]

/-- C12 on the fresh triangle. -/
theorem max_path_sum_empty_witness :
    Triangle.fresh.num_items = 0 ∧ max_path_sum 0 Triangle.fresh = some (.ok 0) :=
  ⟨by decide, (max_path_sum_empty Triangle.fresh 0 (by decide)).1⟩

/-- C13: on the triangle with rows `[-1]`, `[-1,-1]`, `[-1,-1,-1]`, after three
iterations node 1, the first child of the root, is on top with all its
children folded, and the root's running best is 0; the fourth iteration
resolves node 1 with the result -2 and folds it into the root, whose running
best stays 0 although this is its first child; after eight iterations both
children of the root are folded, with results -2 and -2, and the running best
of the root is still 0. -/
theorem pushed_first_child_not_taken :
    (enter all_minus_one >>= steps all_minus_one 3) =
      .ok { path := [{ id := 1, level := 1 }, { id := 0, level := 0 }],
            next_child := [2, 1], max_child_path_sum := [-1, 0],
            max_path_cache := [0, 0, 0], max_path_cached := [false, false, false],
            max_path_sum := none } ∧
    (enter all_minus_one >>= steps all_minus_one 4) =
      .ok { path := [{ id := 0, level := 0 }],
            next_child := [1], max_child_path_sum := [0],
            max_path_cache := [0, -2, 0], max_path_cached := [false, true, false],
            max_path_sum := none } ∧
    (enter all_minus_one >>= steps all_minus_one 8) =
      .ok { path := [{ id := 0, level := 0 }],
            next_child := [2], max_child_path_sum := [0],
            max_path_cache := [0, -2, -2], max_path_cached := [false, true, true],
            max_path_sum := none } := by
  decide

/-! ## The terminator -/

theorem read_lines_terminator (pre : List (List Char)) (post : List (List Char)) :
    ∀ (t : Triangle) (expected : Nat),
      read_lines t expected (pre ++ [] :: post) = read_lines t expected pre := by
  induction pre with
  | nil =>
    intro t expected
    simp [read_lines]
  | cons line rest ih =>
    intro t expected
    cases line with
    | nil => simp [read_lines]
    | cons c cs =>
      simp only [List.cons_append, read_lines, List.isEmpty_cons, Bool.false_eq_true, if_false]
      have ih' : ∀ (t : Triangle) (expected : Nat),
          read_lines t expected (rest.append ([] :: post)) = read_lines t expected rest := ih
      cases scan_line (c :: cs) with
      | none => rfl
      | some sc =>
        cases sc with
        | bad token => rfl
        | ints row => simp only [ih']

theorem scan_line_blank (l : List Char) (hw : words l = []) : scan_line l = some (.ints []) := by
  rw [scan_line, read_items, IStream.of_line, extract_int_blank l (words_blank l hw)]
  simp

/-- C15, as stated, fails: the line that holds one blank has no token, and it
is read as a row: after the line `1` it makes the height 2 instead of 1, and
as the first line it raises the error "at line 1: expected 1 items, got 0"
where the empty input constructs the empty triangle. -/
theorem blank_line_not_terminator :
    words " ".toList = [] ∧
    construct ["1".toList, " ".toList] = some (.ok { items := [1], height := 2, order := 0 }) ∧
    construct ["1".toList] = some (.ok { items := [1], height := 1, order := 0 }) ∧
    construct [" ".toList] = some (.error (.structure_error 1 1 0)) ∧
    construct [] = some (.ok Triangle.fresh) := by
  decide

/-- C15, amended: an empty line is the terminator, so that line and every line
after it change nothing: the outcome is that of the lines before it.  A line
that is not empty and holds no token is not a terminator: the inner loop ends
normally on it with no integer pushed, so it is read as a row of zero
integers, which counts for the height and has its count checked (or, on line
2, taken as the order). -/
theorem empty_line_terminates (pre post : List (List Char)) (l : List Char)
    (hne : l ≠ []) (hw : words l = []) :
    construct (pre ++ [] :: post) = construct pre ∧ ScansAs l [] ∧
    ∀ lines rows tail, List.Forall₂ ScansAs lines rows → Terminated tail →
      construct (lines ++ l :: tail) = some (read_rows Triangle.fresh 1 (rows ++ [[]])) := by
  have hs : ScansAs l [] := ⟨hne, scan_line_blank l hw⟩
  refine ⟨read_lines_terminator pre post _ _, hs, ?_⟩
  intro lines rows tail hscan htail
  have hall : List.Forall₂ ScansAs (lines ++ [l]) (rows ++ [[]]) :=
    List.rel_append hscan (List.Forall₂.cons hs List.Forall₂.nil)
  have := construct_of_scans (lines ++ [l]) (rows ++ [[]]) tail hall htail
  simpa using this

/-- The amended C15 on the lines `1`, `2 3`, an empty line and `x`, and on the
line of one blank. -/
theorem empty_line_terminates_witness :
    " ".toList ≠ [] ∧ words " ".toList = [] ∧
    construct (["1".toList, "2 3".toList] ++ [] :: ["x".toList]) =
      construct ["1".toList, "2 3".toList] ∧
    ScansAs " ".toList [] :=
  ⟨by decide, by decide,
    (empty_line_terminates ["1".toList, "2 3".toList] ["x".toList] " ".toList
      (by decide) (by decide)).1,
    (empty_line_terminates ["1".toList, "2 3".toList] ["x".toList] " ".toList
      (by decide) (by decide)).2.1⟩

/-! ## One iteration on a stack of frames -/

theorem iteration_of_frames (t : Triangle) (f : Frame) (fs : List Frame) (cache : List Int)
    (cached : List Bool) (result : Option Int) :
    iteration t (Loop.of_frames (f :: fs) cache cached result) =
      if f.next = f.node.num_children t then
        (do
          let v ← f.node.value t
          let cached1 ← write_at cached f.node.id true
          let cache1 ← write_at cache f.node.id (v + f.best)
          pure (Loop.of_frames (hand_down (v + f.best) fs) cache1 cached1
            (if fs.isEmpty then some (v + f.best) else result)))
      else
        (do
          let c ← f.node.child t f.next
          if c.final t then
            let v ← c.value t
            pure (Loop.of_frames (fold_frame v f :: fs) cache cached result)
          else if ← read_at cached c.id then
            let v ← read_at cache c.id
            pure (Loop.of_frames (fold_frame v f :: fs) cache cached result)
          else
            pure (Loop.of_frames
              ({ node := c, next := 0, best := 0 } :: { f with next := f.next + 1 } :: fs)
              cache cached result)) := by
  by_cases hn : f.next = f.node.num_children t
  · simp only [iteration, Loop.of_frames, List.map_cons, back, bind, Except.bind, hn, beq_self_eq_true,
      if_true, resolve, List.tail_cons, pure, Except.pure]
    cases f.node.value t with
    | error e => rfl
    | ok v =>
      simp only
      cases write_at cached f.node.id true with
      | error e => rfl
      | ok cached1 =>
        simp only
        cases write_at cache f.node.id (v + f.best) with
        | error e => rfl
        | ok cache1 =>
          simp only
          cases fs with
          | nil => simp [hand_down]
          | cons p fs =>
            simp only [List.map_cons, List.isEmpty_cons, Bool.not_false, if_true, takes, back, bind,
              Except.bind, pure, Except.pure, hand_down, Bool.false_eq_true, if_false]
            by_cases hv : v + f.best > p.best
            · simp [hv, set_back]
            · by_cases hp : p.next = 0 <;> simp [hv, hp, set_back]
  · have hb : (f.next == f.node.num_children t) = false := by simpa using hn
    simp only [iteration, Loop.of_frames, List.map_cons, back, bind, Except.bind, hb,
      Bool.false_eq_true, if_false, hn, pure, Except.pure]
    cases f.node.child t f.next with
    | error e => rfl
    | ok c =>
      simp only
      cases hf : c.final t with
      | true =>
        simp only [if_true]
        cases c.value t with
        | error e => rfl
        | ok v =>
          simp only [fold_in, takes, back, bind, Except.bind, pure, Except.pure, fold_frame]
          by_cases hv : v > f.best
          · simp [hv, set_back, bump, back, bind, Except.bind, pure, Except.pure]
          · by_cases hp : f.next = 0 <;>
              simp [hv, hp, set_back, bump, back, bind, Except.bind, pure, Except.pure]
      | false =>
        simp only [Bool.false_eq_true, if_false]
        cases read_at cached c.id with
        | error e => rfl
        | ok b =>
          cases b with
          | true =>
            simp only [if_true]
            cases read_at cache c.id with
            | error e => rfl
            | ok v =>
              simp only [fold_in, takes, back, bind, Except.bind, pure, Except.pure, fold_frame]
              by_cases hv : v > f.best
              · simp [hv, set_back, bump, back, bind, Except.bind, pure, Except.pure]
              · by_cases hp : f.next = 0 <;>
                  simp [hv, hp, set_back, bump, back, bind, Except.bind, pure, Except.pure]
          | false =>
            simp [bump, back, set_back, push, bind, Except.bind, pure, Except.pure]

theorem write_at_ok {α : Type} (xs : List α) (i : Nat) (v : α) (h : i < xs.length) :
    write_at xs i v = .ok (xs.set i v) := by
  simp [write_at, h]

theorem write_at_eq_ok {α : Type} (xs ys : List α) (i : Nat) (v : α)
    (h : write_at xs i v = .ok ys) : i < xs.length ∧ ys = xs.set i v := by
  unfold write_at at h
  split at h
  · rename_i hlt
    injection h with h
    exact ⟨hlt, h.symm⟩
  · cases h

theorem read_at_eq_ok {α : Type} (xs : List α) (i : Nat) (v : α) :
    read_at xs i = .ok v ↔ xs[i]? = some v := by
  unfold read_at
  cases xs[i]? with
  | none => simp
  | some w => simp

theorem iteration_resolve (t : Triangle) (f : Frame) (fs : List Frame) (cache : List Int)
    (cached : List Bool) (result : Option Int) (v : Int)
    (hn : f.next = f.node.num_children t) (hv : f.node.value t = .ok v)
    (h1 : f.node.id < cached.length) (h2 : f.node.id < cache.length) :
    iteration t (Loop.of_frames (f :: fs) cache cached result) =
      .ok (Loop.of_frames (hand_down (v + f.best) fs) (cache.set f.node.id (v + f.best))
        (cached.set f.node.id true) (if fs.isEmpty then some (v + f.best) else result)) := by
  rw [iteration_of_frames, if_pos hn, hv]
  simp only [bind, Except.bind, write_at_ok _ _ _ h1, write_at_ok _ _ _ h2]
  rfl

theorem iteration_fold_final (t : Triangle) (f : Frame) (fs : List Frame) (cache : List Int)
    (cached : List Bool) (result : Option Int) (c : NodeRef) (v : Int)
    (hn : f.next ≠ f.node.num_children t) (hc : f.node.child t f.next = .ok c)
    (hf : c.final t = true) (hv : c.value t = .ok v) :
    iteration t (Loop.of_frames (f :: fs) cache cached result) =
      .ok (Loop.of_frames (fold_frame v f :: fs) cache cached result) := by
  rw [iteration_of_frames, if_neg hn, hc]
  simp only [bind, Except.bind, hf, if_true, hv]
  rfl

theorem iteration_fold_cached (t : Triangle) (f : Frame) (fs : List Frame) (cache : List Int)
    (cached : List Bool) (result : Option Int) (c : NodeRef) (v : Int)
    (hn : f.next ≠ f.node.num_children t) (hc : f.node.child t f.next = .ok c)
    (hf : c.final t = false) (h1 : cached[c.id]? = some true) (h2 : cache[c.id]? = some v) :
    iteration t (Loop.of_frames (f :: fs) cache cached result) =
      .ok (Loop.of_frames (fold_frame v f :: fs) cache cached result) := by
  rw [iteration_of_frames, if_neg hn, hc]
  simp only [bind, Except.bind, hf, Bool.false_eq_true, if_false, (read_at_eq_ok _ _ _).2 h1,
    if_true, (read_at_eq_ok _ _ _).2 h2]
  rfl

theorem iteration_push (t : Triangle) (f : Frame) (fs : List Frame) (cache : List Int)
    (cached : List Bool) (result : Option Int) (c : NodeRef)
    (hn : f.next ≠ f.node.num_children t) (hc : f.node.child t f.next = .ok c)
    (hf : c.final t = false) (h1 : cached[c.id]? = some false) :
    iteration t (Loop.of_frames (f :: fs) cache cached result) =
      .ok (Loop.of_frames
        ({ node := c, next := 0, best := 0 } :: { f with next := f.next + 1 } :: fs)
        cache cached result) := by
  rw [iteration_of_frames, if_neg hn, hc]
  simp only [bind, Except.bind, hf, Bool.false_eq_true, if_false, (read_at_eq_ok _ _ _).2 h1]
  rfl

/-- The four ways in which an iteration can succeed. -/
theorem iteration_cases (t : Triangle) (f : Frame) (fs : List Frame) (cache : List Int)
    (cached : List Bool) (result : Option Int) (s1 : Loop)
    (h : iteration t (Loop.of_frames (f :: fs) cache cached result) = .ok s1) :
    (f.next = f.node.num_children t ∧ ∃ v, f.node.value t = .ok v ∧
      f.node.id < cached.length ∧ f.node.id < cache.length ∧
      s1 = Loop.of_frames (hand_down (v + f.best) fs) (cache.set f.node.id (v + f.best))
        (cached.set f.node.id true) (if fs.isEmpty then some (v + f.best) else result)) ∨
    (f.next ≠ f.node.num_children t ∧ ∃ c v, f.node.child t f.next = .ok c ∧
      ((c.final t = true ∧ c.value t = .ok v) ∨
        (c.final t = false ∧ cached[c.id]? = some true ∧ cache[c.id]? = some v)) ∧
      s1 = Loop.of_frames (fold_frame v f :: fs) cache cached result) ∨
    (f.next ≠ f.node.num_children t ∧ ∃ c, f.node.child t f.next = .ok c ∧
      c.final t = false ∧ cached[c.id]? = some false ∧
      s1 = Loop.of_frames
        ({ node := c, next := 0, best := 0 } :: { f with next := f.next + 1 } :: fs)
        cache cached result) := by
  rw [iteration_of_frames] at h
  by_cases hn : f.next = f.node.num_children t
  · left
    rw [if_pos hn] at h
    cases hv : f.node.value t with
    | error e => simp [hv, bind, Except.bind] at h
    | ok v =>
      cases h1 : write_at cached f.node.id true with
      | error e => simp [hv, h1, bind, Except.bind] at h
      | ok cached1 =>
        cases h2 : write_at cache f.node.id (v + f.best) with
        | error e => simp [hv, h1, h2, bind, Except.bind] at h
        | ok cache1 =>
          simp only [hv, h1, h2, bind, Except.bind, pure, Except.pure, Except.ok.injEq] at h
          obtain ⟨hl1, e1⟩ := write_at_eq_ok _ _ _ _ h1
          obtain ⟨hl2, e2⟩ := write_at_eq_ok _ _ _ _ h2
          exact ⟨hn, v, rfl, hl1, hl2, by rw [← h, e1, e2]⟩
  · right
    rw [if_neg hn] at h
    cases hc : f.node.child t f.next with
    | error e => simp [hc, bind, Except.bind] at h
    | ok c =>
      simp only [hc, bind, Except.bind] at h
      cases hf : c.final t with
      | true =>
        left
        simp only [hf, if_true] at h
        cases hv : c.value t with
        | error e => simp [hv] at h
        | ok v =>
          simp only [hv, pure, Except.pure, Except.ok.injEq] at h
          exact ⟨hn, c, v, rfl, Or.inl ⟨hf, hv⟩, h.symm⟩
      | false =>
        simp only [hf, Bool.false_eq_true, if_false] at h
        cases h1 : read_at cached c.id with
        | error e => simp [h1] at h
        | ok b =>
          cases b with
          | true =>
            left
            simp only [h1, if_true] at h
            cases h2 : read_at cache c.id with
            | error e => simp [h2] at h
            | ok v =>
              simp only [h2, pure, Except.pure, Except.ok.injEq] at h
              exact ⟨hn, c, v, rfl,
                Or.inr ⟨hf, (read_at_eq_ok _ _ _).1 h1, (read_at_eq_ok _ _ _).1 h2⟩, h.symm⟩
          | false =>
            right
            simp only [h1, Bool.false_eq_true, if_false, pure, Except.pure, Except.ok.injEq] at h
            exact ⟨hn, c, rfl, hf, (read_at_eq_ok _ _ _).1 h1, h.symm⟩

/-! ## The chain of frames -/

theorem chain_hand_down (t : Triangle) (v : Int) (fs : List Frame) (h : Chain t fs) :
    Chain t (hand_down v fs) := by
  cases fs with
  | nil => exact h
  | cons p rest =>
    obtain ⟨h1, h2, h3⟩ := h
    refine ⟨h1, ?_, h3⟩
    cases rest with
    | nil => exact h2
    | cons q rest => exact h2

theorem linked_same_node (t : Triangle) (f g : Frame) (fs : List Frame) (h : g.node = f.node)
    (hl : Linked t f fs) : Linked t g fs := by
  cases fs with
  | nil =>
    simp only [Linked] at hl ⊢
    rw [h]; exact hl
  | cons p rest =>
    simp only [Linked] at hl ⊢
    rw [h]; exact hl

theorem not_final_of_child_ok (t : Triangle) (r c : NodeRef) (n : Nat)
    (h : r.child t n = .ok c) : r.final t = false ∧ n < t.order ∧ c = child_node t r n := by
  rw [child_ok_iff] at h
  obtain ⟨hn, hc⟩ := h
  cases hf : r.final t with
  | true => simp [NodeRef.num_children, hf] at hn
  | false =>
    simp only [NodeRef.num_children, hf, Bool.not_false, if_true] at hn
    exact ⟨rfl, hn, hc⟩

theorem shaped_iteration (t : Triangle) (s s1 : Loop) (hs : Shaped t s)
    (h : iteration t s = .ok s1) : Shaped t s1 := by
  obtain ⟨fs, cache, cached, result, rfl, hch⟩ := hs
  cases fs with
  | nil => simp [iteration, Loop.of_frames, back, bind, Except.bind] at h
  | cons f fs =>
    obtain ⟨hle, hlink, hrest⟩ := hch
    rcases iteration_cases t f fs cache cached result s1 h with
      ⟨_, v, _, _, _, rfl⟩ | ⟨hn, c, v, _, _, rfl⟩ | ⟨hn, c, hc, hf, _, rfl⟩
    · exact ⟨_, _, _, _, rfl, chain_hand_down t _ fs hrest⟩
    · refine ⟨_, _, _, _, rfl, ?_, linked_same_node t f _ fs rfl hlink, hrest⟩
      simp only [fold_frame]
      omega
    · refine ⟨_, _, _, _, rfl, Nat.zero_le _, ⟨by simp, by simpa using hc, hf⟩, ?_,
        linked_same_node t f _ fs rfl hlink, hrest⟩
      simp only
      omega

theorem enter_eq_ok (t : Triangle) (s0 : Loop) (h : enter t = .ok s0) :
    ∃ size, s0 = Loop.of_frames [{ node := { id := 0, level := 0 }, next := 0, best := 0 }]
      (List.replicate size 0) (List.replicate size false) none ∧
      size = t.num_items - t.row_size (size_sub t.height 1) ∧
      t.row_size (size_sub t.height 1) ≤ t.num_items ∧ t.empty = false := by
  unfold enter at h
  by_cases hlt : t.num_items < t.row_size (size_sub t.height 1)
  · simp [hlt, bind, Except.bind, throw, throwThe, MonadExceptOf.throw] at h
  · cases he : t.empty with
    | true => simp [hlt, bind, Except.bind, Triangle.head, he, pure, Except.pure] at h
    | false =>
      simp only [hlt, if_false, bind, Except.bind, Triangle.head, he, Bool.not_false, if_true, pure,
        Except.pure, Except.ok.injEq] at h
      exact ⟨_, by rw [← h]; rfl, rfl, by omega, rfl⟩

theorem shaped_enter (t : Triangle) (s0 : Loop) (h : enter t = .ok s0) : Shaped t s0 := by
  obtain ⟨size, rfl, _⟩ := enter_eq_ok t s0 h
  exact ⟨_, _, _, _, rfl, Nat.zero_le _, rfl, trivial⟩

theorem shaped_steps (t : Triangle) (k : Nat) :
    ∀ s s1 : Loop, Shaped t s → steps t k s = .ok s1 → Shaped t s1 := by
  induction k with
  | zero =>
    intro s s1 hs h
    simp only [steps, Except.ok.injEq] at h
    rw [← h]; exact hs
  | succ k ih =>
    intro s s1 hs h
    simp only [steps] at h
    split at h
    · simp only [Except.ok.injEq] at h
      rw [← h]; exact hs
    · cases hi : iteration t s with
      | error e => simp [hi] at h
      | ok s2 =>
        simp only [hi] at h
        exact ih s2 s1 (shaped_iteration t s s2 hs hi) h

theorem chain_suffix (t : Triangle) (above rest : List Frame) (h : Chain t (above ++ rest)) :
    Chain t rest := by
  induction above with
  | nil => exact h
  | cons a above ih => exact ih h.2.2

theorem chain_top_level (t : Triangle) (fs : List Frame) :
    ∀ f, Chain t (f :: fs) → 1 ≤ t.height → f.node.level = fs.length ∧ f.node.level < t.height := by
  induction fs with
  | nil =>
    intro f h hh
    have : f.node = { id := 0, level := 0 } := h.2.1
    rw [this]
    exact ⟨rfl, hh⟩
  | cons p rest ih =>
    intro f h hh
    obtain ⟨_, ⟨_, hc, _⟩, hrest⟩ := h
    obtain ⟨hp1, hp2⟩ := ih p hrest hh
    obtain ⟨hpf, _, hfc⟩ := not_final_of_child_ok t _ _ _ hc
    have hne : p.node.level ≠ t.height - 1 := by
      intro e
      rw [(final_iff t p.node hh).2 e] at hpf
      cases hpf
    rw [hfc]
    simp only [child_node, List.length_cons]
    omega

theorem bind_eq_ok {α β : Type} (x : Except Error α) (g : α → Except Error β) (b : β)
    (h : (x >>= g) = .ok b) : ∃ a, x = .ok a ∧ g a = .ok b := by
  cases x with
  | error e => cases h
  | ok a => exact ⟨a, rfl, h⟩

theorem shaped_reached (t : Triangle) (k : Nat) (s : Loop)
    (hk : (enter t >>= steps t k) = .ok s) : Shaped t s := by
  obtain ⟨s0, h0, h1⟩ := bind_eq_ok _ _ _ hk
  exact shaped_steps t k s0 s (shaped_enter t s0 h0) h1

/-- C17: in every state that the loop of `max_path_sum` reaches on a
well-formed triangle, the three stacks have one length and are the columns of
one stack of frames; the frame with `i` frames below it holds a node of level
`i`, which is the root for `i = 0` and otherwise the child that the frame
below it tried last; every frame has `next_child` at most `num_children` of
its node; and the stack holds at most `height` frames. -/
theorem stacks_form_chain (t : Triangle) (k : Nat) (s : Loop) (hwf : WellFormed t)
    (hk : (enter t >>= steps t k) = .ok s) :
    s.path.length = s.next_child.length ∧
    s.next_child.length = s.max_child_path_sum.length ∧
    s.path.length ≤ t.height ∧
    ∃ fs : List Frame, s.path = fs.map (fun f => f.node) ∧
      s.next_child = fs.map (fun f => f.next) ∧
      s.max_child_path_sum = fs.map (fun f => f.best) ∧
      ∀ above f below, fs = above ++ f :: below →
        f.node.level = below.length ∧ f.next ≤ f.node.num_children t ∧
        (below = [] → f.node = { id := 0, level := 0 }) ∧
        ∀ p rest, below = p :: rest →
          1 ≤ p.next ∧ p.next ≤ p.node.num_children t ∧
          p.node.child t (p.next - 1) = .ok f.node := by
  obtain ⟨fs, cache, cached, result, rfl, hch⟩ := shaped_reached t k s hk
  have hh : 1 ≤ t.height := hwf.1
  refine ⟨by simp [Loop.of_frames], by simp [Loop.of_frames], ?_, fs, rfl, rfl, rfl, ?_⟩
  · cases fs with
    | nil => simp [Loop.of_frames]
    | cons f rest =>
      have := chain_top_level t rest f hch hh
      simp only [Loop.of_frames, List.length_map, List.length_cons]
      omega
  · intro above f below hsplit
    rw [hsplit] at hch
    have hc := chain_suffix t above (f :: below) hch
    refine ⟨(chain_top_level t below f hc hh).1, hc.1, ?_, ?_⟩
    · intro hb
      rw [hb] at hc
      exact hc.2.1
    · intro p rest hb
      rw [hb] at hc
      exact ⟨hc.2.1.1, hc.2.2.1, hc.2.1.2.1⟩

/-- C17 on the classic triangle after six iterations. -/
theorem stacks_form_chain_witness :
    WellFormed classic ∧
    (enter classic >>= steps classic 6) =
      .ok { path := [{ id := 4, level := 2 }, { id := 1, level := 1 }, { id := 0, level := 0 }],
            next_child := [0, 2, 1], max_child_path_sum := [0, 10, 0],
            max_path_cache := [0, 0, 0, 10, 0, 0],
            max_path_cached := [false, false, false, true, false, false],
            max_path_sum := none } ∧
    ([{ id := 4, level := 2 }, { id := 1, level := 1 }, { id := 0, level := 0 }] :
      List NodeRef).length ≤ classic.height :=
  ⟨by decide, by decide,
    (stacks_form_chain classic 6 _ (by decide) (by decide : (enter classic >>= steps classic 6) =
      .ok { path := [{ id := 4, level := 2 }, { id := 1, level := 1 }, { id := 0, level := 0 }],
            next_child := [0, 2, 1], max_child_path_sum := [0, 10, 0],
            max_path_cache := [0, 0, 0, 10, 0, 0],
            max_path_cached := [false, false, false, true, false, false],
            max_path_sum := none })).2.2.1⟩

/-! ## Rows of a well-formed triangle -/

theorem row_start_succ_le (t : Triangle) {a b : Nat} (h : a < b) :
    row_start t a + row_items t a ≤ row_start t b := by
  have := row_start_mono t (show a + 1 ≤ b from h)
  simpa [row_start] using this

theorem in_row_root (t : Triangle) (hh : 1 ≤ t.height) : InRow t { id := 0, level := 0 } := by
  refine ⟨hh, Nat.le_refl _, ?_⟩
  simp [row_start, row_items]

theorem in_row_child (t : Triangle) (r : NodeRef) (n : Nat) (ho : 1 ≤ t.order)
    (hr : InRow t r) (hl : r.level + 1 < t.height) (hn : n < t.order) :
    InRow t (child_node t r n) := by
  obtain ⟨_, hlo, hhi⟩ := hr
  have hsucc := row_items_succ t r.level
  have hrs := row_size_eq_row_items t r.level ho
  have e : 1 + r.level = r.level + 1 := Nat.add_comm _ _
  refine ⟨?_, ?_, ?_⟩
  · simp only [child_node]; omega
  · simp only [child_node, e, row_start, hrs]; omega
  · simp only [child_node, e, row_start, hrs]; omega

theorem in_row_id_lt_items (t : Triangle) (r : NodeRef) (hwf : WellFormed t) (hr : InRow t r) :
    r.id < t.items.length := by
  obtain ⟨hlt, _, hhi⟩ := hr
  have := row_start_succ_le t hlt
  rw [hwf.2.2]
  omega

theorem in_row_id_lt_cache (t : Triangle) (r : NodeRef) (hr : InRow t r)
    (hl : r.level + 1 < t.height) : r.id < row_start t (t.height - 1) := by
  obtain ⟨_, _, hhi⟩ := hr
  have := row_start_succ_le t (show r.level < t.height - 1 by omega)
  omega

theorem in_row_level_eq (t : Triangle) (r q : NodeRef) (hr : InRow t r) (hq : InRow t q)
    (h : r.id = q.id) : r.level = q.level := by
  obtain ⟨_, hrlo, hrhi⟩ := hr
  obtain ⟨_, hqlo, hqhi⟩ := hq
  by_contra hne
  rcases Nat.lt_or_gt_of_ne hne with hlt | hgt
  · have := row_start_succ_le t hlt
    omega
  · have := row_start_succ_le t hgt
    omega

theorem in_row_inj (t : Triangle) (r q : NodeRef) (hr : InRow t r) (hq : InRow t q)
    (h : r.id = q.id) : r = q := by
  have hl := in_row_level_eq t r q hr hq h
  cases r
  cases q
  simp only [NodeRef.mk.injEq]
  exact ⟨h, hl⟩

theorem value_in_row (t : Triangle) (r : NodeRef) (hwf : WellFormed t) (hr : InRow t r) :
    r.value t = .ok (t.items.getD r.id 0) := by
  have hlt := in_row_id_lt_items t r hwf hr
  simp [NodeRef.value, List.getD, List.getElem?_eq_getElem hlt]

theorem final_false_iff (t : Triangle) (r : NodeRef) (hh : 1 ≤ t.height) :
    r.final t = false ↔ r.level ≠ t.height - 1 := by
  rw [← not_iff_not]
  simp [final_iff t r hh]

theorem chain_in_row (t : Triangle) (hwf : WellFormed t) (h2 : 2 ≤ t.height) (fs : List Frame) :
    Chain t fs → ∀ f ∈ fs, InRow t f.node ∧ f.node.level + 1 < t.height ∧ f.next ≤ t.order := by
  have ho : 1 ≤ t.order := hwf.2.1 h2
  induction fs with
  | nil =>
    intro _ f hf
    cases hf
  | cons g rest ih =>
    intro hch f hf
    have hrest := ih hch.2.2
    have hg : InRow t g.node ∧ g.node.level + 1 < t.height := by
      cases rest with
      | nil =>
        have : g.node = { id := 0, level := 0 } := hch.2.1
        rw [this]
        exact ⟨in_row_root t (by omega), by simp only; omega⟩
      | cons p rest2 =>
        obtain ⟨_, hc, hfin⟩ := hch.2.1
        obtain ⟨hp1, hp2, _⟩ := hrest p (by simp)
        obtain ⟨_, hn, hgc⟩ := not_final_of_child_ok t _ _ _ hc
        have hlv := (chain_top_level t (p :: rest2) g hch (by omega)).2
        have hne := (final_false_iff t g.node (by omega)).1 hfin
        refine ⟨?_, by omega⟩
        rw [hgc]
        exact in_row_child t p.node _ ho hp1 hp2 hn
    rcases List.mem_cons.1 hf with e | e
    · rw [e]
      refine ⟨hg.1, hg.2, ?_⟩
      have hle := hch.1
      rw [num_children_of_lt t g.node hg.2] at hle
      exact hle
    · exact hrest f e

theorem chain_levels_below (t : Triangle) (hh : 1 ≤ t.height) (fs : List Frame) :
    ∀ f, Chain t (f :: fs) → ∀ p ∈ fs, p.node.level < f.node.level := by
  induction fs with
  | nil =>
    intro f _ p hp
    cases hp
  | cons q rest ih =>
    intro f hch p hp
    have hf := (chain_top_level t (q :: rest) f hch hh).1
    have hq := (chain_top_level t rest q hch.2.2 hh).1
    rcases List.mem_cons.1 hp with e | e
    · rw [e, hf, hq]
      simp
    · have := ih q hch.2.2 p e
      rw [hf]
      rw [hq] at this
      simp only [List.length_cons]
      omega

/-! ## The best sum and the paths -/

theorem le_max_over (f : Nat → Int) (k : Nat) : ∀ n, n ≤ k → f n ≤ max_over f k := by
  induction k with
  | zero =>
    intro n hn
    have : n = 0 := by omega
    rw [this]
    exact Int.le_refl _
  | succ k ih =>
    intro n hn
    simp only [max_over]
    by_cases h : n = k + 1
    · rw [h]
      exact le_max_right _ _
    · exact le_trans (ih n (by omega)) (le_max_left _ _)

theorem max_over_le (f : Nat → Int) (b : Int) (k : Nat) (h : ∀ n, n ≤ k → f n ≤ b) :
    max_over f k ≤ b := by
  induction k with
  | zero => exact h 0 (Nat.le_refl _)
  | succ k ih =>
    simp only [max_over]
    exact max_le (ih (fun n hn => h n (by omega))) (h (k + 1) (Nat.le_refl _))

theorem max_over_attained (f : Nat → Int) (k : Nat) : ∃ n, n ≤ k ∧ max_over f k = f n := by
  induction k with
  | zero => exact ⟨0, Nat.le_refl _, rfl⟩
  | succ k ih =>
    obtain ⟨n, hn, he⟩ := ih
    simp only [max_over]
    by_cases h : max_over f k ≤ f (k + 1)
    · exact ⟨k + 1, Nat.le_refl _, max_eq_right h⟩
    · exact ⟨n, by omega, by rw [max_eq_left (by omega), he]⟩

theorem running_eq_max_over (f : Nat → Int) (k : Nat) (h : ∀ n, n ≤ k → 0 ≤ f n) :
    running f (k + 1) = max_over f k := by
  induction k with
  | zero =>
    simp only [running, max_over]
    exact max_eq_right (h 0 (Nat.le_refl _))
  | succ k ih =>
    rw [running, ih (fun n hn => h n (by omega)), max_over]

theorem getD_nonneg (t : Triangle) (hnn : NonNeg t) (i : Nat) : 0 ≤ t.items.getD i 0 := by
  rw [List.getD_eq_getElem?_getD]
  cases hi : t.items[i]? with
  | none => exact Int.le_refl _
  | some v => exact hnn v (List.mem_iff_getElem?.2 ⟨i, hi⟩)

theorem best_below_nonneg (t : Triangle) (hnn : NonNeg t) (d : Nat) :
    ∀ r, 0 ≤ best_below t d r := by
  induction d with
  | zero =>
    intro r
    exact getD_nonneg t hnn r.id
  | succ d ih =>
    intro r
    simp only [best_below]
    have h1 := getD_nonneg t hnn r.id
    have h2 : 0 ≤ max_over (fun n => best_below t d (child_node t r n)) (t.order - 1) :=
      le_trans (ih (child_node t r 0)) (le_max_over _ _ 0 (Nat.zero_le _))
    omega

theorem best_sum_nonneg (t : Triangle) (hnn : NonNeg t) (r : NodeRef) : 0 ≤ best_sum t r :=
  best_below_nonneg t hnn _ r

theorem best_sum_inner (t : Triangle) (r : NodeRef) (hl : r.level + 1 < t.height) :
    best_sum t r = t.items.getD r.id 0 +
      max_over (fun n => best_sum t (child_node t r n)) (t.order - 1) := by
  have e1 : t.height - 1 - r.level = (t.height - 2 - r.level) + 1 := by omega
  have e2 : ∀ n, t.height - 1 - (child_node t r n).level = t.height - 2 - r.level := by
    intro n
    simp only [child_node]
    omega
  simp only [best_sum, e1, best_below, e2]

theorem best_sum_final (t : Triangle) (r : NodeRef) (hh : 1 ≤ t.height)
    (hf : r.final t = true) : best_sum t r = t.items.getD r.id 0 := by
  have hl := (final_iff t r hh).1 hf
  have e : t.height - 1 - r.level = 0 := by omega
  simp only [best_sum, e, best_below]

theorem walk_sum_nil (t : Triangle) (r : NodeRef) : walk_sum t r [] = t.items.getD r.id 0 := by
  simp [walk_sum, walk]

theorem walk_sum_cons (t : Triangle) (r : NodeRef) (n : Nat) (rest : List Nat) :
    walk_sum t r (n :: rest) = t.items.getD r.id 0 + walk_sum t (child_node t r n) rest := by
  simp [walk_sum, walk, child_node]

theorem walk_sum_le_best_below (t : Triangle) (d : Nat) :
    ∀ (r : NodeRef) (slots : List Nat), slots.length = d → (∀ n ∈ slots, n < t.order) →
      walk_sum t r slots ≤ best_below t d r := by
  induction d with
  | zero =>
    intro r slots hlen _
    rw [List.length_eq_zero.1 hlen, walk_sum_nil]
    exact Int.le_refl _
  | succ d ih =>
    intro r slots hlen hall
    cases slots with
    | nil => simp at hlen
    | cons n rest =>
      rw [walk_sum_cons]
      simp only [best_below]
      have h1 := ih (child_node t r n) rest (by simpa using hlen)
        (fun m hm => hall m (by simp [hm]))
      have hn : n < t.order := hall n (by simp)
      have h2 := le_max_over (fun n => best_below t d (child_node t r n)) (t.order - 1) n
        (by omega)
      simp only at h2
      omega

theorem best_below_attained (t : Triangle) (ho : 1 ≤ t.order) (d : Nat) :
    ∀ r : NodeRef, ∃ slots : List Nat, slots.length = d ∧ (∀ n ∈ slots, n < t.order) ∧
      walk_sum t r slots = best_below t d r := by
  induction d with
  | zero =>
    intro r
    exact ⟨[], rfl, by simp, walk_sum_nil t r⟩
  | succ d ih =>
    intro r
    obtain ⟨n, hn, he⟩ :=
      max_over_attained (fun n => best_below t d (child_node t r n)) (t.order - 1)
    obtain ⟨rest, hlen, hall, hsum⟩ := ih (child_node t r n)
    refine ⟨n :: rest, by simp [hlen], ?_, ?_⟩
    · intro m hm
      rcases List.mem_cons.1 hm with e | e
      · rw [e]; omega
      · exact hall m e
    · rw [walk_sum_cons, hsum]
      simp only [best_below, he]

/-! ## The measure -/

theorem potential_of_frames (t : Triangle) (fs : List Frame) (cache : List Int)
    (cached : List Bool) (result : Option Int) :
    potential t (Loop.of_frames fs cache cached result) =
      (fs.map (fun f => frame_weight t f.node f.next)).sum := by
  simp only [potential, Loop.of_frames]
  induction fs with
  | nil => rfl
  | cons f fs ih =>
    simp only [List.map_cons, List.zip_cons_cons, List.sum_cons, ih]

theorem slot_cost_pos (t : Triangle) (d : Nat) : 1 ≤ slot_cost t d := by
  cases d with
  | zero => simp [slot_cost]
  | succ d => simp only [slot_cost]; omega

theorem potential_hand_down (t : Triangle) (v : Int) (fs : List Frame) :
    ((hand_down v fs).map (fun f => frame_weight t f.node f.next)).sum =
      (fs.map (fun f => frame_weight t f.node f.next)).sum := by
  cases fs with
  | nil => rfl
  | cons p rest => rfl

theorem frame_weight_bump (t : Triangle) (r : NodeRef) (n : Nat) (hn : n < t.order) :
    frame_weight t r (n + 1) + slot_cost t (t.height - 2 - r.level) = frame_weight t r n := by
  simp only [frame_weight]
  have e : t.order - n = (t.order - (n + 1)) + 1 := by omega
  rw [e, Nat.add_mul]
  omega

theorem frame_weight_child (t : Triangle) (r : NodeRef) (n : Nat)
    (hl : (child_node t r n).level + 1 < t.height) :
    frame_weight t (child_node t r n) 0 + 1 = slot_cost t (t.height - 2 - r.level) := by
  simp only [child_node] at hl
  have e1 : t.height - 2 - r.level = (t.height - 2 - (1 + r.level)) + 1 := by omega
  simp only [frame_weight, child_node, Nat.sub_zero]
  rw [e1, slot_cost]

/-! ## Frames under the steps of the loop -/

theorem getElem?_set_true (cached : List Bool) (i j : Nat) (h : cached[j]? = some true) :
    (cached.set i true)[j]? = some true := by
  by_cases e : i = j
  · subst e
    have hlt : i < cached.length := by
      by_contra hge
      rw [List.getElem?_eq_none (by omega)] at h
      cases h
    rw [List.getElem?_set_self hlt]
  · rw [List.getElem?_set_ne e]
    exact h

theorem done_mono (t : Triangle) (cached : List Bool) (i : Nat) (c : NodeRef)
    (h : Done t cached c) : Done t (cached.set i true) c := by
  rcases h with h | h
  · exact Or.inl h
  · exact Or.inr (getElem?_set_true cached i c.id h)

theorem frame_inv_mono (t : Triangle) (cached : List Bool) (i : Nat) (f : Frame) (d : Nat)
    (h : FrameInv t cached f d) : FrameInv t (cached.set i true) f d :=
  ⟨fun m hm => ⟨(h.1 m hm).1, done_mono t cached i _ (h.1 m hm).2⟩, h.2⟩

theorem frame_inv_fold (t : Triangle) (cached : List Bool) (f : Frame) (v : Int)
    (h : FrameInv t cached f f.next)
    (hv : best_sum t (child_node t f.node f.next) ≤ v)
    (hnn : NonNeg t → v = best_sum t (child_node t f.node f.next))
    (hd : Done t cached (child_node t f.node f.next)) :
    FrameInv t cached (fold_frame v f) (f.next + 1) := by
  obtain ⟨h1, h2⟩ := h
  refine ⟨?_, ?_⟩
  · intro m hm
    simp only [fold_frame]
    by_cases hlt : m < f.next
    · obtain ⟨hb, hdone⟩ := h1 m hlt
      refine ⟨?_, hdone⟩
      split
      · rename_i hc
        rcases hc with hc | hc
        · omega
        · omega
      · exact hb
    · have e : m = f.next := by omega
      rw [e]
      refine ⟨?_, hd⟩
      split
      · exact hv
      · rename_i hc
        push_neg at hc
        omega
  · intro hn
    have hb := h2 hn
    have hveq := hnn hn
    simp only [fold_frame, running]
    rw [← hb, ← hveq]
    by_cases h0 : f.next = 0
    · have hz : f.best = 0 := by
        rw [hb, h0]
        rfl
      have hpos : 0 ≤ v := by
        rw [hveq]
        exact best_sum_nonneg t hn _
      simp only [h0, or_true, if_true, hz]
      exact (max_eq_right hpos).symm
    · by_cases hgt : v > f.best
      · simp only [hgt, true_or, if_true]
        exact (max_eq_right (by omega)).symm
      · simp only [hgt, h0, or_self, if_false]
        exact (max_eq_left (by omega)).symm

theorem frame_inv_hand (t : Triangle) (cached : List Bool) (p : Frame) (r : NodeRef) (v : Int)
    (h : FrameInv t cached p (p.next - 1)) (hp : 1 ≤ p.next)
    (hr : child_node t p.node (p.next - 1) = r) (hv : best_sum t r ≤ v)
    (hnn : NonNeg t → v = best_sum t r) (hd : Done t cached r) :
    FrameInv t cached { p with best := if v > p.best ∨ p.next = 0 then v else p.best } p.next := by
  obtain ⟨h1, h2⟩ := h
  have hne : p.next ≠ 0 := by omega
  have hbest : (if v > p.best ∨ p.next = 0 then v else p.best) = max p.best v := by
    by_cases hgt : v > p.best
    · simp only [hgt, true_or, if_true]
      exact (max_eq_right (by omega)).symm
    · simp only [hgt, hne, or_self, if_false]
      exact (max_eq_left (by omega)).symm
  rw [hbest]
  refine ⟨?_, ?_⟩
  · intro m hm
    simp only
    by_cases hlt : m < p.next - 1
    · obtain ⟨hb, hdone⟩ := h1 m hlt
      exact ⟨le_trans hb (le_max_left _ _), hdone⟩
    · have e : m = p.next - 1 := by omega
      rw [e, hr]
      exact ⟨le_trans hv (le_max_right _ _), hd⟩
  · intro hn
    simp only
    have e : p.next = (p.next - 1) + 1 := by omega
    rw [e, running, ← h2 hn, hr, ← hnn hn]

theorem resolve_value (t : Triangle) (cached : List Bool) (f : Frame) (ho : 1 ≤ t.order)
    (hl : f.node.level + 1 < t.height) (h : FrameInv t cached f t.order) :
    best_sum t f.node ≤ t.items.getD f.node.id 0 + f.best ∧
    (NonNeg t → t.items.getD f.node.id 0 + f.best = best_sum t f.node) ∧
    ∀ m, m < t.order → Done t cached (child_node t f.node m) := by
  obtain ⟨h1, h2⟩ := h
  rw [best_sum_inner t f.node hl]
  refine ⟨?_, ?_, fun m hm => (h1 m hm).2⟩
  · have := max_over_le (fun n => best_sum t (child_node t f.node n)) f.best (t.order - 1)
      (fun n hn => (h1 n (by omega)).1)
    omega
  · intro hn
    have e : t.order = (t.order - 1) + 1 := by omega
    have hb := h2 hn
    rw [e, running_eq_max_over _ _ (fun n _ => best_sum_nonneg t hn _)] at hb
    rw [hb]

theorem logged_set (log : List Nat) (cached : List Bool) (i : Nat) (h : Logged log cached)
    (hi : cached[i]? = some false) : Logged (log ++ [i]) (cached.set i true) := by
  obtain ⟨hnd, hmem⟩ := h
  have hlt : i < cached.length := by
    by_contra hge
    rw [List.getElem?_eq_none (by omega)] at hi
    cases hi
  have hnot : i ∉ log := by
    intro hin
    rw [(hmem i).1 hin] at hi
    cases hi
  refine ⟨?_, ?_⟩
  · rw [List.nodup_append]
    refine ⟨hnd, List.nodup_singleton i, ?_⟩
    intro a ha hb
    simp only [List.mem_singleton] at hb
    rw [hb] at ha
    exact hnot ha
  · intro id
    simp only [List.mem_append, List.mem_singleton]
    by_cases e : id = i
    · subst e
      simp [List.getElem?_set_self hlt]
    · rw [List.getElem?_set_ne (fun h => e h.symm), ← hmem id]
      simp [e]

/-! ## Preservation of the invariant -/

theorem hand_down_nodes (v : Int) (fs : List Frame) :
    ∀ q ∈ hand_down v fs, ∃ p ∈ fs, q.node = p.node := by
  intro q hq
  cases fs with
  | nil => cases hq
  | cons p rest =>
    rcases List.mem_cons.1 hq with e | e
    · exact ⟨p, by simp, by rw [e]⟩
    · exact ⟨q, by simp [e], rfl⟩

theorem good_resolve (t : Triangle) (hwf : WellFormed t) (h2 : 2 ≤ t.height) (log : List Nat)
    (f : Frame) (fs : List Frame) (cache : List Int) (cached : List Bool) (result : Option Int)
    (hg : GoodAt t log (f :: fs) cache cached result) (hn : f.next = t.order) :
    GoodAt t (log ++ [f.node.id]) (hand_down (t.items.getD f.node.id 0 + f.best) fs)
      (cache.set f.node.id (t.items.getD f.node.id 0 + f.best)) (cached.set f.node.id true)
      (if fs.isEmpty then some (t.items.getD f.node.id 0 + f.best) else result) := by
  obtain ⟨hch, hlen1, hlen2, hfr, hci, hun, hlog, _⟩ := hg
  have ho : 1 ≤ t.order := hwf.2.1 h2
  have hh : 1 ≤ t.height := by omega
  have hrows := chain_in_row t hwf h2 (f :: fs) hch
  obtain ⟨hfin, hfl, _⟩ := hrows f (by simp)
  have hidc : f.node.id < cached.length := by
    rw [hlen2]; exact in_row_id_lt_cache t f.node hfin hfl
  have hidk : f.node.id < cache.length := by
    rw [hlen1]; exact in_row_id_lt_cache t f.node hfin hfl
  have hftop : FrameInv t cached f t.order := by
    have := hfr.1
    rwa [hn] at this
  obtain ⟨hval1, hval2, hval3⟩ := resolve_value t cached f ho hfl hftop
  have hdone : Done t (cached.set f.node.id true) f.node :=
    Or.inr (List.getElem?_set_self hidc)
  have hother : ∀ p ∈ fs, p.node.id ≠ f.node.id := by
    intro p hp e
    have hlv := chain_levels_below t hh fs f hch p hp
    have := in_row_level_eq t p.node f.node (hrows p (by simp [hp])).1 hfin e
    omega
  refine ⟨chain_hand_down t _ fs hch.2.2, by simpa using hlen1, by simpa using hlen2, ?_, ?_, ?_,
    logged_set log cached f.node.id hlog (hun f (by simp)), ?_⟩
  · -- frames
    cases fs with
    | nil => trivial
    | cons p rest =>
      obtain ⟨hp1, hpc, _⟩ := hch.2.1
      obtain ⟨_, _, hpe⟩ := not_final_of_child_ok t _ _ _ hpc
      refine ⟨?_, ?_⟩
      · exact frame_inv_hand t _ p f.node _
          (frame_inv_mono t cached _ p _ (hfr.2 p (by simp))) hp1 hpe.symm hval1
          (fun hnn => (hval2 hnn)) hdone
      · intro q hq
        exact frame_inv_mono t cached _ q _ (hfr.2 q (by simp [hq]))
  · -- cache
    intro r hr hrl hrc
    by_cases e : r.id = f.node.id
    · have hrf : r = f.node := in_row_inj t r f.node hr hfin e
      rw [hrf]
      refine ⟨⟨_, List.getElem?_set_self hidk, hval1, hval2⟩, ?_⟩
      intro m hm
      exact done_mono t cached _ _ (hval3 m hm)
    · have hne : f.node.id ≠ r.id := fun h => e h.symm
      rw [List.getElem?_set_ne hne] at hrc
      obtain ⟨⟨c, hc1, hc2⟩, hc3⟩ := hci r hr hrl hrc
      refine ⟨⟨c, by rw [List.getElem?_set_ne hne]; exact hc1, hc2⟩, ?_⟩
      intro m hm
      exact done_mono t cached _ _ (hc3 m hm)
  · -- nodes on the stack are not cached
    intro q hq
    obtain ⟨p, hp, hqp⟩ := hand_down_nodes _ fs q hq
    rw [hqp, List.getElem?_set_ne (fun h => hother p hp h.symm)]
    exact hun p (by simp [hp])
  · -- the result
    intro hnil
    have hfs : fs = [] := by
      cases fs with
      | nil => rfl
      | cons p rest => simp [hand_down] at hnil
    subst hfs
    have hroot : f.node = { id := 0, level := 0 } := hch.2.1
    rw [hroot] at hval1 hval2 hidc ⊢
    exact ⟨_, rfl, hval1, fun hnn => hval2 hnn, List.getElem?_set_self hidc⟩

theorem good_fold (t : Triangle) (hwf : WellFormed t) (h2 : 2 ≤ t.height) (log : List Nat)
    (f : Frame) (fs : List Frame) (cache : List Int) (cached : List Bool) (result : Option Int)
    (v : Int) (hg : GoodAt t log (f :: fs) cache cached result) (hlt : f.next < t.order)
    (hv : best_sum t (child_node t f.node f.next) ≤ v)
    (hnn : NonNeg t → v = best_sum t (child_node t f.node f.next))
    (hd : Done t cached (child_node t f.node f.next)) :
    GoodAt t log (fold_frame v f :: fs) cache cached result := by
  obtain ⟨hch, hlen1, hlen2, hfr, hci, hun, hlog, _⟩ := hg
  obtain ⟨_, hfl, _⟩ := chain_in_row t hwf h2 (f :: fs) hch f (by simp)
  refine ⟨⟨?_, linked_same_node t f _ fs rfl hch.2.1, hch.2.2⟩, hlen1, hlen2,
    ⟨frame_inv_fold t cached f v hfr.1 hv hnn hd, hfr.2⟩, hci, ?_, hlog, ?_⟩
  · rw [show (fold_frame v f).node = f.node from rfl, num_children_of_lt t f.node hfl]
    exact hlt
  · intro q hq
    rcases List.mem_cons.1 hq with e | e
    · rw [e]
      exact hun f (by simp)
    · exact hun q (by simp [e])
  · intro hnil
    cases hnil

theorem good_push (t : Triangle) (hwf : WellFormed t) (h2 : 2 ≤ t.height) (log : List Nat)
    (f : Frame) (fs : List Frame) (cache : List Int) (cached : List Bool) (result : Option Int)
    (hg : GoodAt t log (f :: fs) cache cached result) (hlt : f.next < t.order)
    (hcf : (child_node t f.node f.next).final t = false)
    (hcc : cached[(child_node t f.node f.next).id]? = some false) :
    GoodAt t log
      ({ node := child_node t f.node f.next, next := 0, best := 0 } ::
        { f with next := f.next + 1 } :: fs) cache cached result := by
  obtain ⟨hch, hlen1, hlen2, hfr, hci, hun, hlog, _⟩ := hg
  obtain ⟨_, hfl, _⟩ := chain_in_row t hwf h2 (f :: fs) hch f (by simp)
  have hnc := num_children_of_lt t f.node hfl
  have hchild : f.node.child t f.next = .ok (child_node t f.node f.next) := by
    rw [child_ok_iff, hnc]
    exact ⟨hlt, rfl⟩
  refine ⟨⟨Nat.zero_le _, ⟨by simp, by simpa using hchild, hcf⟩, ?_,
    linked_same_node t f _ fs rfl hch.2.1, hch.2.2⟩, hlen1, hlen2, ⟨⟨?_, ?_⟩, ?_⟩, hci, ?_, hlog, ?_⟩
  · simp only
    rw [hnc]
    exact hlt
  · intro m hm
    cases hm
  · intro _
    rfl
  · intro p hp
    rcases List.mem_cons.1 hp with e | e
    · rw [e]
      exact hfr.1
    · exact hfr.2 p e
  · intro q hq
    rcases List.mem_cons.1 hq with e | e
    · rw [e]
      exact hcc
    · rcases List.mem_cons.1 e with e2 | e2
      · rw [e2]
        exact hun f (by simp)
      · exact hun q (by simp [e2])
  · intro hnil
    cases hnil

theorem written_of_frames (t : Triangle) (f : Frame) (fs : List Frame) (cache : List Int)
    (cached : List Bool) (result : Option Int) :
    written t (Loop.of_frames (f :: fs) cache cached result) =
      if f.next = f.node.num_children t then [f.node.id] else [] := by
  simp [written, Loop.of_frames]

/-- On a well-formed triangle with at least two rows, an iteration that starts
in a state with the invariant and a non-empty stack succeeds, keeps the
invariant, and lowers the measure. -/
theorem good_iteration (t : Triangle) (hwf : WellFormed t) (h2 : 2 ≤ t.height) (log : List Nat)
    (s : Loop) (hg : Good t log s) (hne : s.path.isEmpty = false) :
    ∃ s1, iteration t s = .ok s1 ∧ Good t (log ++ written t s) s1 ∧
      potential t s1 < potential t s := by
  obtain ⟨fs, cache, cached, result, rfl, hga⟩ := hg
  cases fs with
  | nil => simp [Loop.of_frames] at hne
  | cons f fs =>
    have ho : 1 ≤ t.order := hwf.2.1 h2
    have hh : 1 ≤ t.height := by omega
    have hch := hga.1
    obtain ⟨hfin, hfl, hfn⟩ := chain_in_row t hwf h2 (f :: fs) hch f (by simp)
    have hnc := num_children_of_lt t f.node hfl
    have hlen1 := hga.2.1
    have hlen2 := hga.2.2.1
    rw [written_of_frames, hnc]
    by_cases hn : f.next = t.order
    · -- resolve
      have hid := in_row_id_lt_cache t f.node hfin hfl
      refine ⟨_, iteration_resolve t f fs cache cached result _ (by rw [hnc]; exact hn)
        (value_in_row t f.node hwf hfin) (by rw [hlen2]; exact hid) (by rw [hlen1]; exact hid),
        ⟨_, _, _, _, rfl, ?_⟩, ?_⟩
      · rw [if_pos hn]
        exact good_resolve t hwf h2 log f fs cache cached result hga hn
      · rw [potential_of_frames, potential_of_frames, potential_hand_down]
        simp only [List.map_cons, List.sum_cons, frame_weight]
        omega
    · -- a child is tried
      have hlt : f.next < t.order := by omega
      have hnn : f.next ≠ f.node.num_children t := by rw [hnc]; exact hn
      have hchild : f.node.child t f.next = .ok (child_node t f.node f.next) := by
        rw [child_ok_iff, hnc]
        exact ⟨hlt, rfl⟩
      have hcin := in_row_child t f.node f.next ho hfin hfl hlt
      rw [if_neg hn, List.append_nil]
      have hbump := frame_weight_bump t f.node f.next hlt
      have hpos := slot_cost_pos t (t.height - 2 - f.node.level)
      cases hcf : (child_node t f.node f.next).final t with
      | true =>
        refine ⟨_, iteration_fold_final t f fs cache cached result _ _ hnn hchild hcf
          (value_in_row t _ hwf hcin), ⟨_, _, _, _, rfl, ?_⟩, ?_⟩
        · have hbs := best_sum_final t _ hh hcf
          exact good_fold t hwf h2 log f fs cache cached result _ hga hlt
            (by rw [hbs]) (fun _ => hbs.symm) (Or.inl hcf)
        · rw [potential_of_frames, potential_of_frames]
          simp only [List.map_cons, List.sum_cons, fold_frame]
          omega
      | false =>
        have hcl : (child_node t f.node f.next).level + 1 < t.height := by
          have h1 := hcin.1
          have h3 := (final_false_iff t _ hh).1 hcf
          omega
        have hcid := in_row_id_lt_cache t _ hcin hcl
        cases hget : cached[(child_node t f.node f.next).id]? with
        | none =>
          rw [List.getElem?_eq_none_iff, hlen2] at hget
          omega
        | some b =>
          cases b with
          | true =>
            obtain ⟨⟨v, hv1, hv2, hv3⟩, _⟩ := hga.2.2.2.2.1 _ hcin hcl hget
            refine ⟨_, iteration_fold_cached t f fs cache cached result _ v hnn hchild hcf hget
              hv1, ⟨_, _, _, _, rfl, ?_⟩, ?_⟩
            · exact good_fold t hwf h2 log f fs cache cached result v hga hlt hv2 hv3
                (Or.inr hget)
            · rw [potential_of_frames, potential_of_frames]
              simp only [List.map_cons, List.sum_cons, fold_frame]
              omega
          | false =>
            refine ⟨_, iteration_push t f fs cache cached result _ hnn hchild hcf hget,
              ⟨_, _, _, _, rfl, ?_⟩, ?_⟩
            · exact good_push t hwf h2 log f fs cache cached result hga hlt hcf hget
            · have hw := frame_weight_child t f.node f.next hcl
              rw [potential_of_frames, potential_of_frames]
              simp only [List.map_cons, List.sum_cons]
              omega

/-! ## The whole run -/

theorem cache_size_eq (t : Triangle) (hwf : WellFormed t) (h2 : 2 ≤ t.height) :
    t.row_size (size_sub t.height 1) ≤ t.num_items ∧
    t.num_items - t.row_size (size_sub t.height 1) = row_start t (t.height - 1) ∧
    1 ≤ row_start t (t.height - 1) := by
  have ho : 1 ≤ t.order := hwf.2.1 h2
  have e : t.height = (t.height - 1) + 1 := by omega
  have hlen : t.num_items = row_start t (t.height - 1) + row_items t (t.height - 1) := by
    simp only [Triangle.num_items]
    rw [hwf.2.2]
    conv_lhs => rw [e]
    rfl
  have h1 := row_start_mono t (show 1 ≤ t.height - 1 by omega)
  simp only [row_start, row_items] at h1
  rw [size_sub_of_le (by omega), row_size_eq_row_items t _ ho, hlen]
  refine ⟨by omega, by omega, by omega⟩

theorem replicate_false_ne_true (n i : Nat) : (List.replicate n false)[i]? ≠ some true := by
  intro h
  have hmem := List.mem_iff_getElem?.2 ⟨i, h⟩
  have := List.eq_of_mem_replicate hmem
  cases this

theorem good_enter (t : Triangle) (hwf : WellFormed t) (h2 : 2 ≤ t.height) :
    ∃ s0, enter t = .ok s0 ∧ Good t [] s0 ∧
      potential t s0 = t.order * slot_cost t (t.height - 2) + 1 := by
  obtain ⟨hle, hsize, hpos⟩ := cache_size_eq t hwf h2
  have hitems : t.empty = false := by
    have : 0 < t.items.length := by
      have := hwf.2.2
      have h1 := row_start_mono t (show 1 ≤ t.height by omega)
      simp only [row_start, row_items] at h1
      omega
    cases hi : t.items with
    | nil => rw [hi] at this; simp at this
    | cons a rest => simp [Triangle.empty, hi]
  refine ⟨Loop.of_frames [{ node := { id := 0, level := 0 }, next := 0, best := 0 }]
    (List.replicate (row_start t (t.height - 1)) 0)
    (List.replicate (row_start t (t.height - 1)) false) none, ?_, ⟨_, _, _, _, rfl, ?_⟩, ?_⟩
  · unfold enter
    have hnlt : ¬ t.num_items < t.row_size (size_sub t.height 1) := by omega
    simp only [hnlt, if_false, bind, Except.bind, Triangle.head, hitems, Bool.not_false, if_true,
      pure, Except.pure, hsize]
    rfl
  · refine ⟨⟨Nat.zero_le _, rfl, trivial⟩, by simp, by simp, ⟨⟨?_, fun _ => rfl⟩, ?_⟩, ?_, ?_,
      ⟨List.nodup_nil, ?_⟩, ?_⟩
    · intro m hm
      cases hm
    · intro p hp
      cases hp
    · intro r _ _ hc
      exact absurd hc (replicate_false_ne_true _ _)
    · intro f hf
      simp only [List.mem_singleton] at hf
      rw [hf]
      simp only
      rw [List.getElem?_eq_getElem (by simp; omega)]
      simp
    · intro id
      constructor
      · intro h
        cases h
      · intro h
        exact absurd h (replicate_false_ne_true _ _)
    · intro h
      cases h
  · rw [potential_of_frames]
    simp [frame_weight]

theorem good_steps (t : Triangle) (hwf : WellFormed t) (h2 : 2 ≤ t.height) (k : Nat) :
    ∀ (s : Loop) (log : List Nat), Good t log s →
      ∃ s1, steps t k s = .ok s1 ∧ Good t (log ++ writes t k s) s1 ∧
        (s1.path.isEmpty = true ∨ potential t s1 + k ≤ potential t s) := by
  induction k with
  | zero =>
    intro s log hg
    exact ⟨s, rfl, by simpa [writes] using hg, Or.inr (by omega)⟩
  | succ k ih =>
    intro s log hg
    cases hp : s.path.isEmpty with
    | true =>
      exact ⟨s, by simp [steps, hp], by simpa [writes, hp] using hg, Or.inl hp⟩
    | false =>
      obtain ⟨s2, hit, hg2, hpot⟩ := good_iteration t hwf h2 log s hg hp
      obtain ⟨s1, hst, hg1, hor⟩ := ih s2 _ hg2
      refine ⟨s1, by simp [steps, hp, hit, hst], ?_, ?_⟩
      · simp only [writes, hp, Bool.false_eq_true, if_false, hit]
        rw [← List.append_assoc]
        exact hg1
      · rcases hor with h | h
        · exact Or.inl h
        · exact Or.inr (by omega)

theorem steps_loop (t : Triangle) (k : Nat) :
    ∀ s s1 : Loop, steps t k s = .ok s1 → s1.path.isEmpty = true →
      loop t k s = some (.ok s1) := by
  induction k with
  | zero =>
    intro s s1 h he
    simp only [steps, Except.ok.injEq] at h
    subst h
    simp [loop, he]
  | succ k ih =>
    intro s s1 h he
    cases hp : s.path.isEmpty with
    | true =>
      simp only [steps, hp, if_true, Except.ok.injEq] at h
      subst h
      simp [loop, hp]
    | false =>
      simp only [steps, hp, Bool.false_eq_true, if_false] at h
      cases hi : iteration t s with
      | error e => simp [hi] at h
      | ok s2 =>
        simp only [hi] at h
        simp only [loop, hp, Bool.false_eq_true, if_false, hi]
        exact ih s2 s1 h he

theorem potential_pos (t : Triangle) (s : Loop) (log : List Nat) (hg : Good t log s)
    (hne : s.path.isEmpty = false) : 1 ≤ potential t s := by
  obtain ⟨fs, cache, cached, result, rfl, _⟩ := hg
  cases fs with
  | nil => simp [Loop.of_frames] at hne
  | cons f fs =>
    rw [potential_of_frames]
    simp only [List.map_cons, List.sum_cons, frame_weight]
    omega

/-- On a well-formed triangle with at least two rows the loop, entered by
`max_path_sum`, ends within `order * slot_cost (height - 2) + 1` iterations in
a state with an empty stack that has the invariant for the list of all its
cache writes. -/
theorem good_run (t : Triangle) (hwf : WellFormed t) (h2 : 2 ≤ t.height) :
    ∃ s0 s1, enter t = .ok s0 ∧
      steps t (t.order * slot_cost t (t.height - 2) + 1) s0 = .ok s1 ∧
      loop t (t.order * slot_cost t (t.height - 2) + 1) s0 = some (.ok s1) ∧
      s1.path.isEmpty = true ∧
      Good t (writes t (t.order * slot_cost t (t.height - 2) + 1) s0) s1 := by
  obtain ⟨s0, hen, hg0, hpot⟩ := good_enter t hwf h2
  obtain ⟨s1, hst, hg1, hor⟩ :=
    good_steps t hwf h2 (t.order * slot_cost t (t.height - 2) + 1) s0 [] hg0
  have hemp : s1.path.isEmpty = true := by
    rcases hor with h | h
    · exact h
    · cases he : s1.path.isEmpty with
      | true => rfl
      | false =>
        have := potential_pos t s1 _ hg1 he
        omega
  exact ⟨s0, s1, hen, hst, steps_loop t _ s0 s1 hst hemp, hemp, by simpa using hg1⟩

/-! ## The value returned -/

theorem max_path_sum_unique (t : Triangle) (f1 f2 : Nat) (r1 r2 : Except Error Int)
    (h1 : max_path_sum f1 t = some r1) (h2 : max_path_sum f2 t = some r2) : r1 = r2 := by
  have e1 := max_path_sum_add t f1 r1 h1 f2
  have e2 := max_path_sum_add t f2 r2 h2 f1
  rw [Nat.add_comm f2 f1, e1] at e2
  injection e2

theorem of_frames_path_empty (fs : List Frame) (cache : List Int) (cached : List Bool)
    (result : Option Int) (h : (Loop.of_frames fs cache cached result).path.isEmpty = true) :
    fs = [] := by
  cases fs with
  | nil => rfl
  | cons f fs => simp [Loop.of_frames] at h

/-- On a well-formed triangle with at least two rows `max_path_sum` returns a
value that is at least the best sum from the root, and equal to it when no
item is negative. -/
theorem max_path_sum_good (t : Triangle) (hwf : WellFormed t) (h2 : 2 ≤ t.height) :
    ∃ v, max_path_sum (t.order * slot_cost t (t.height - 2) + 1) t = some (.ok v) ∧
      best_sum t { id := 0, level := 0 } ≤ v ∧
      (NonNeg t → v = best_sum t { id := 0, level := 0 }) := by
  obtain ⟨s0, s1, hen, _, hloop, hemp, hg⟩ := good_run t hwf h2
  obtain ⟨fs, cache, cached, result, rfl, hga⟩ := hg
  have hfs := of_frames_path_empty fs cache cached result hemp
  obtain ⟨v, hres, hv1, hv2, _⟩ := hga.2.2.2.2.2.2.2 hfs
  obtain ⟨_, _, _, _, hne⟩ := enter_eq_ok t s0 hen
  refine ⟨v, ?_, hv1, hv2⟩
  simp [max_path_sum, hne, hen, hloop, Loop.of_frames, hres]

theorem max_path_sum_order_zero (a : Int) (height : Nat) :
    max_path_sum 1 { items := [a], height := height, order := 0 } = some (.ok a) := by
  simp [max_path_sum, Triangle.empty, enter, Triangle.row_size, Triangle.num_items, Triangle.head,
    loop, iteration, back, NodeRef.num_children, resolve, NodeRef.value,
    write_at, bind, Except.bind, pure, Except.pure, throw, throwThe, MonadExceptOf.throw]

theorem max_path_sum_height_one_fault (a : Int) (order : Nat) (ho : 1 ≤ order) :
    max_path_sum 1 { items := [a], height := 1, order := order } = some (.error .undefined) := by
  have ho' : order > 0 := ho
  simp [max_path_sum, Triangle.empty, enter, Triangle.row_size, Triangle.num_items, Triangle.head,
    loop, iteration, back, NodeRef.num_children, NodeRef.final, size_sub, resolve, NodeRef.value,
    write_at, bind, Except.bind, pure, Except.pure, throw, throwThe, MonadExceptOf.throw, ho']

theorem well_formed_height_one (t : Triangle) (hwf : WellFormed t) (h1 : t.height = 1) :
    ∃ a, t = { items := [a], height := 1, order := t.order } := by
  have hlen := hwf.2.2
  rw [h1] at hlen
  simp only [row_start, row_items, Nat.zero_mul, Nat.add_zero, Nat.zero_add] at hlen
  cases t with
  | mk items height order =>
    simp only at h1 hlen
    subst h1
    match items, hlen with
    | [a], _ => exact ⟨a, rfl⟩

theorem path_sum_eq_walk_sum (t : Triangle) (slots : List Nat) :
    path_sum t slots = walk_sum t { id := 0, level := 0 } slots := rfl

theorem path_sum_le_best_sum (t : Triangle) (slots : List Nat)
    (hlen : slots.length + 1 = t.height) (hall : ∀ n ∈ slots, n < t.order) :
    path_sum t slots ≤ best_sum t { id := 0, level := 0 } := by
  rw [path_sum_eq_walk_sum]
  exact walk_sum_le_best_below t _ _ slots (by simp only [Nat.sub_zero]; omega) hall

theorem best_sum_is_path_sum (t : Triangle) (hh : 1 ≤ t.height)
    (ho : 2 ≤ t.height → 1 ≤ t.order) :
    ∃ slots : List Nat, slots.length + 1 = t.height ∧ (∀ n ∈ slots, n < t.order) ∧
      path_sum t slots = best_sum t { id := 0, level := 0 } := by
  by_cases h2 : 2 ≤ t.height
  · obtain ⟨slots, hlen, hall, hsum⟩ :=
      best_below_attained t (ho h2) (t.height - 1 - 0) { id := 0, level := 0 }
    exact ⟨slots, by simp only [Nat.sub_zero] at hlen; omega, hall, hsum⟩
  · have e : t.height - 1 - 0 = 0 := by omega
    refine ⟨[], by simp; omega, by simp, ?_⟩
    rw [path_sum_eq_walk_sum, walk_sum_nil]
    simp only [best_sum, e, best_below]

/-- On a well-formed triangle whose order is 0 when it has a single row,
`max_path_sum` returns within `order * slot_cost (height - 2) + 1` iterations
a value that is at least the best sum from the root, and equal to it when no
item is negative. -/
theorem max_path_sum_returns (t : Triangle) (hwf : WellFormed t)
    (hc : t.height = 1 → t.order = 0) :
    ∃ v, max_path_sum (t.order * slot_cost t (t.height - 2) + 1) t = some (.ok v) ∧
      best_sum t { id := 0, level := 0 } ≤ v ∧
      (NonNeg t → v = best_sum t { id := 0, level := 0 }) := by
  by_cases h2 : 2 ≤ t.height
  · exact max_path_sum_good t hwf h2
  · have h1 : t.height = 1 := by
      have := hwf.1
      omega
    obtain ⟨a, ha⟩ := well_formed_height_one t hwf h1
    have ho := hc h1
    rw [ho] at ha
    rw [ha]
    refine ⟨a, ?_, ?_, fun _ => ?_⟩
    · simpa using max_path_sum_order_zero a 1
    · simp [best_sum, best_below]
    · simp [best_sum, best_below]

theorem good_reached (t : Triangle) (hwf : WellFormed t) (h2 : 2 ≤ t.height) (k : Nat)
    (s0 s : Loop) (hen : enter t = .ok s0) (hk : steps t k s0 = .ok s) :
    Good t (writes t k s0) s := by
  obtain ⟨s0', hen', hg0, _⟩ := good_enter t hwf h2
  rw [hen] at hen'
  injection hen' with e
  subst e
  obtain ⟨s1, hst, hg1, _⟩ := good_steps t hwf h2 k s0 [] hg0
  rw [hk] at hst
  injection hst with e
  subst e
  simpa using hg1

/-- In every state that the loop reaches on a well-formed triangle, a top
frame that has tried all its children has a running best that is at least the
best sum of each child. -/
theorem top_frame_best (t : Triangle) (hwf : WellFormed t) (k : Nat) (s : Loop) (r : NodeRef)
    (n : Nat) (b : Int) (hk : (enter t >>= steps t k) = .ok s) (hr : s.path.head? = some r)
    (hn : s.next_child.head? = some n) (hb : s.max_child_path_sum.head? = some b) :
    ∀ m, m < n → best_sum t (child_node t r m) ≤ b := by
  intro m hm
  by_cases h2 : 2 ≤ t.height
  · obtain ⟨s0, hen, hst⟩ := bind_eq_ok _ _ _ hk
    obtain ⟨fs, cache, cached, result, rfl, hga⟩ := good_reached t hwf h2 k s0 s hen hst
    cases fs with
    | nil => simp [Loop.of_frames] at hr
    | cons f fs =>
      simp only [Loop.of_frames, List.map_cons, List.head?_cons, Option.some.injEq] at hr hn hb
      have := (hga.2.2.2.1.1.1 m (by rw [hn]; exact hm)).1
      rw [hr, hb] at this
      exact this
  · exfalso
    have hh := hwf.1
    obtain ⟨fs, cache, cached, result, rfl, hch⟩ := shaped_reached t k s hk
    cases fs with
    | nil => simp [Loop.of_frames] at hr
    | cons f fs =>
      simp only [Loop.of_frames, List.map_cons, List.head?_cons, Option.some.injEq] at hr hn
      have hlv := (chain_top_level t fs f hch hh).2
      have hfin : f.node.final t = true := (final_iff t f.node hh).2 (by omega)
      have hle := hch.1
      simp only [NodeRef.num_children, hfin, Bool.not_true, Bool.false_eq_true, if_false] at hle
      omega

/-- C19: on a well-formed triangle, with items of any sign, every value that
`max_path_sum` returns is at least the sum along every root-to-leaf path; it
does return a value, within `order * slot_cost (height - 2) + 1` iterations,
when the order is 0 for a single row; and in every state the loop reaches, the
running best of the top frame is at least the best sum of each child folded so
far, so of every child once all are folded. -/
theorem max_path_sum_ge_every_path (t : Triangle) (hwf : WellFormed t) :
    (∀ fuel v, max_path_sum fuel t = some (.ok v) →
      ∀ slots : List Nat, slots.length + 1 = t.height → (∀ n ∈ slots, n < t.order) →
        path_sum t slots ≤ v) ∧
    ((t.height = 1 → t.order = 0) →
      ∃ v, ∀ extra,
        max_path_sum (t.order * slot_cost t (t.height - 2) + 1 + extra) t = some (.ok v)) ∧
    (∀ k s r n b, (enter t >>= steps t k) = .ok s → s.path.head? = some r →
      s.next_child.head? = some n → s.max_child_path_sum.head? = some b →
      ∀ m, m < n → best_sum t (child_node t r m) ≤ b) := by
  refine ⟨?_, ?_, fun k s r n b hk hr hn hb => top_frame_best t hwf k s r n b hk hr hn hb⟩
  · intro fuel v hv slots hlen hall
    have hpath := path_sum_le_best_sum t slots hlen hall
    by_cases hc : t.height = 1 → t.order = 0
    · obtain ⟨v0, hv0, hle, _⟩ := max_path_sum_returns t hwf hc
      have := max_path_sum_unique t _ _ _ _ hv hv0
      injection this with e
      omega
    · exfalso
      push_neg at hc
      obtain ⟨h1, ho⟩ := hc
      obtain ⟨a, ha⟩ := well_formed_height_one t hwf h1
      have hf := max_path_sum_height_one_fault a t.order (by omega)
      rw [← ha] at hf
      have := max_path_sum_unique t _ _ _ _ hv hf
      cases this
  · intro hc
    obtain ⟨v0, hv0, _, _⟩ := max_path_sum_returns t hwf hc
    exact ⟨v0, max_path_sum_add t _ _ hv0⟩

/-- C19 on the classic triangle and its path 3, 7, 4, 9. -/
theorem max_path_sum_ge_every_path_witness :
    WellFormed classic ∧ max_path_sum 18 classic = some (.ok 23) ∧
    path_sum classic [0, 1, 1] = 23 ∧ path_sum classic [0, 1, 1] ≤ 23 :=
  ⟨by decide, by decide, by decide,
    (max_path_sum_ge_every_path classic (by decide)).1 18 23 (by decide) [0, 1, 1] (by decide)
      (by decide)⟩

/-! ## Correctness without negative items, and termination -/

/-- Why the order of a single row matters: on the triangle value with items
`[5]`, height 1 and order 1, which no construction produces
(`constructed_order_zero`), the cache gets `1 - row_size 0 = 0` entries and the
first iteration writes entry 0, outside the vector. -/
theorem single_row_order_one_faults :
    WellFormed single_order_one ∧ NonNeg single_order_one ∧
    1 ≤ single_order_one.order ∧ 1 ≤ single_order_one.height ∧
    enter single_order_one =
      .ok { path := [{ id := 0, level := 0 }], next_child := [0], max_child_path_sum := [0],
            max_path_cache := [], max_path_cached := [], max_path_sum := none } ∧
    max_path_sum 0 single_order_one = none ∧
    ∀ extra, max_path_sum (1 + extra) single_order_one = some (.error .undefined) :=
  ⟨by decide, by decide, by decide, by decide, by decide, by decide,
    max_path_sum_add single_order_one 1 _ (by decide)⟩

/-- C18: on a well-formed triangle without negative items, `max_path_sum`
returns, within `order * slot_cost (height - 2) + 1` iterations, a value that
is at least the sum along every root-to-leaf path and is the sum along one of
them: the maximum of the path sums, with `int` read as the integers.  The
hypothesis `hc` is the invariant of the class that a single row has order 0,
which `constructed_order_zero` proves of every triangle that is constructed;
every height from 1 on and, from height 2 on, every order from 1 on is
covered. -/
theorem max_path_sum_nonneg (t : Triangle) (hwf : WellFormed t) (hnn : NonNeg t)
    (hc : t.height = 1 → t.order = 0) :
    ∃ v, (∀ extra,
        max_path_sum (t.order * slot_cost t (t.height - 2) + 1 + extra) t = some (.ok v)) ∧
      (∀ slots : List Nat, slots.length + 1 = t.height → (∀ n ∈ slots, n < t.order) →
        path_sum t slots ≤ v) ∧
      ∃ slots : List Nat, slots.length + 1 = t.height ∧ (∀ n ∈ slots, n < t.order) ∧
        path_sum t slots = v := by
  obtain ⟨v, hv, _, heq⟩ := max_path_sum_returns t hwf hc
  have hbest := heq hnn
  refine ⟨v, max_path_sum_add t _ _ hv, ?_, ?_⟩
  · intro slots hlen hall
    rw [hbest]
    exact path_sum_le_best_sum t slots hlen hall
  · rw [hbest]
    exact best_sum_is_path_sum t hwf.1 hwf.2.1

/-- C18 on the classic triangle. -/
theorem max_path_sum_nonneg_witness :
    WellFormed classic ∧ NonNeg classic ∧ (classic.height = 1 → classic.order = 0) ∧
    ∃ v, (∀ extra,
        max_path_sum (classic.order * slot_cost classic (classic.height - 2) + 1 + extra) classic =
          some (.ok v)) ∧
      (∀ slots : List Nat, slots.length + 1 = classic.height →
        (∀ n ∈ slots, n < classic.order) → path_sum classic slots ≤ v) ∧
      ∃ slots : List Nat, slots.length + 1 = classic.height ∧
        (∀ n ∈ slots, n < classic.order) ∧ path_sum classic slots = v :=
  ⟨by decide, by decide, by decide,
    max_path_sum_nonneg classic (by decide) (by decide) (by decide)⟩

/-- The loop on the triangle value with items `[5]`, height 1 and order 1,
which no construction produces (`constructed_order_zero`): the cache vectors
are empty, the first iteration writes outside them, and the loop ends by this
fault. -/
theorem loop_faults_single_row_order_one :
    WellFormed single_order_one ∧
    (enter single_order_one >>= iteration single_order_one) = .error .undefined ∧
    (enter single_order_one >>= fun s0 => pure (loop single_order_one 1 s0)) =
      .ok (some (.error .undefined)) ∧
    (enter single_order_one >>= fun s0 => pure (loop single_order_one 0 s0)) = .ok none := by
  decide

/-- The order of a constructed triangle with fewer than two rows is 0: the
reader assigns `order_` on the second line only. -/
theorem constructed_order_zero (lines : List (List Char)) (t : Triangle)
    (h : construct lines = some (.ok t)) (h1 : t.height ≤ 1) : t.order = 0 := by
  by_contra hne
  have := (constructed_geometry lines t h).1 (by omega)
  omega

/-! ## The evaluator with 32-bit `int` -/

theorem to_size_id_int (r : NodeRef) (h : r.id < 2147483648) : to_size r.id_int = r.id := by
  have hm : r.id % 4294967296 = r.id := Nat.mod_eq_of_lt (by omega)
  simp only [NodeRef.id_int, to_size, hm, if_pos h]
  have : (r.id : Int) % 18446744073709551616 = r.id := Int.emod_eq_of_lt (by omega) (by omega)
  rw [this]
  exact Int.toNat_ofNat _

theorem add_int_cases (a b : Int) :
    add_int a b = .ok (a + b) ∨ add_int a b = .error .signed_overflow := by
  unfold add_int
  split
  · exact Or.inl rfl
  · exact Or.inr rfl

theorem add_int_in_range (a b : Int) (h1 : -2147483648 ≤ a + b) (h2 : a + b ≤ 2147483647) :
    add_int a b = .ok (a + b) := by
  simp [add_int, h1, h2]

theorem iteration_int_of_frames (t : Triangle) (f : Frame) (fs : List Frame) (cache : List Int)
    (cached : List Bool) (result : Option Int) :
    iteration_int t (Loop.of_frames (f :: fs) cache cached result) =
      if f.next = f.node.num_children t then
        (do
          let v ← f.node.value t
          let w ← add_int v f.best
          let cached1 ← write_at cached (to_size f.node.id_int) true
          let cache1 ← write_at cache (to_size f.node.id_int) w
          pure (Loop.of_frames (hand_down w fs) cache1 cached1
            (if fs.isEmpty then some w else result)))
      else
        (do
          let c ← f.node.child t f.next
          if c.final t then
            let v ← c.value t
            pure (Loop.of_frames (fold_frame v f :: fs) cache cached result)
          else if ← read_at cached (to_size c.id_int) then
            let v ← read_at cache (to_size c.id_int)
            pure (Loop.of_frames (fold_frame v f :: fs) cache cached result)
          else
            pure (Loop.of_frames
              ({ node := c, next := 0, best := 0 } :: { f with next := f.next + 1 } :: fs)
              cache cached result)) := by
  by_cases hn : f.next = f.node.num_children t
  · simp only [iteration_int, Loop.of_frames, List.map_cons, back, bind, Except.bind, hn,
      beq_self_eq_true, if_true, resolve_int, List.tail_cons, pure, Except.pure]
    cases f.node.value t with
    | error e => rfl
    | ok v =>
      simp only
      cases add_int v f.best with
      | error e => rfl
      | ok w =>
        simp only
        cases write_at cached (to_size f.node.id_int) true with
        | error e => rfl
        | ok cached1 =>
          simp only
          cases write_at cache (to_size f.node.id_int) w with
          | error e => rfl
          | ok cache1 =>
            simp only
            cases fs with
            | nil => simp [hand_down]
            | cons p fs =>
              simp only [List.map_cons, List.isEmpty_cons, Bool.not_false, if_true, takes, back,
                bind, Except.bind, pure, Except.pure, hand_down, Bool.false_eq_true, if_false]
              by_cases hv : w > p.best
              · simp [hv, set_back]
              · by_cases hp : p.next = 0 <;> simp [hv, hp, set_back]
  · have hb : (f.next == f.node.num_children t) = false := by simpa using hn
    simp only [iteration_int, Loop.of_frames, List.map_cons, back, bind, Except.bind, hb,
      Bool.false_eq_true, if_false, hn, pure, Except.pure]
    cases f.node.child t f.next with
    | error e => rfl
    | ok c =>
      simp only
      cases hf : c.final t with
      | true =>
        simp only [if_true]
        cases c.value t with
        | error e => rfl
        | ok v =>
          simp only [fold_in, takes, back, bind, Except.bind, pure, Except.pure, fold_frame]
          by_cases hv : v > f.best
          · simp [hv, set_back, bump, back, bind, Except.bind, pure, Except.pure]
          · by_cases hp : f.next = 0 <;>
              simp [hv, hp, set_back, bump, back, bind, Except.bind, pure, Except.pure]
      | false =>
        simp only [Bool.false_eq_true, if_false]
        cases read_at cached (to_size c.id_int) with
        | error e => rfl
        | ok b =>
          cases b with
          | true =>
            simp only [if_true]
            cases read_at cache (to_size c.id_int) with
            | error e => rfl
            | ok v =>
              simp only [fold_in, takes, back, bind, Except.bind, pure, Except.pure, fold_frame]
              by_cases hv : v > f.best
              · simp [hv, set_back, bump, back, bind, Except.bind, pure, Except.pure]
              · by_cases hp : f.next = 0 <;>
                  simp [hv, hp, set_back, bump, back, bind, Except.bind, pure, Except.pure]
          | false =>
            simp [bump, back, set_back, push, bind, Except.bind, pure, Except.pure]

/-- An iteration that succeeds with unbounded sums, on cache vectors of at most
`2 ^ 31` entries, gives the same state with 32-bit `int` when the sum of the
pop branch is in the range of `int`, and is the overflow of that sum
otherwise. -/
theorem iteration_int_of_ok (t : Triangle) (f : Frame) (fs : List Frame) (cache : List Int)
    (cached : List Bool) (result : Option Int) (s1 : Loop)
    (hlen : cached.length ≤ 2147483648)
    (h : iteration t (Loop.of_frames (f :: fs) cache cached result) = .ok s1) :
    (iteration_int t (Loop.of_frames (f :: fs) cache cached result) = .ok s1 ∧
      (f.next = f.node.num_children t →
        ∃ v, f.node.value t = .ok v ∧ add_int v f.best = .ok (v + f.best))) ∨
    (iteration_int t (Loop.of_frames (f :: fs) cache cached result) = .error .signed_overflow ∧
      f.next = f.node.num_children t ∧
        ∃ v, f.node.value t = .ok v ∧ add_int v f.best = .error .signed_overflow) := by
  have hlt : ∀ (c : NodeRef) (b : Bool), cached[c.id]? = some b → to_size c.id_int = c.id := by
    intro c b hb
    apply to_size_id_int
    by_contra hge
    rw [List.getElem?_eq_none (by omega)] at hb
    cases hb
  rcases iteration_cases t f fs cache cached result s1 h with
    ⟨hn, v, hv, h1, h2, e⟩ | ⟨hn, c, v, hc, hcase, e⟩ | ⟨hn, c, hc, hf, h1, e⟩
  · have hidx : to_size f.node.id_int = f.node.id := to_size_id_int _ (by omega)
    rcases add_int_cases v f.best with hw | hw
    · left
      refine ⟨?_, fun _ => ⟨v, hv, hw⟩⟩
      rw [iteration_int_of_frames, if_pos hn, hv]
      simp only [bind, Except.bind, hw, hidx, write_at_ok _ _ _ h1, write_at_ok _ _ _ h2]
      rw [e]
      rfl
    · right
      refine ⟨?_, hn, v, hv, hw⟩
      rw [iteration_int_of_frames, if_pos hn, hv]
      simp only [bind, Except.bind, hw]
  · left
    refine ⟨?_, fun hn2 => absurd hn2 hn⟩
    rw [iteration_int_of_frames, if_neg hn, hc, e]
    rcases hcase with ⟨hf, hv⟩ | ⟨hf, h1, h2⟩
    · simp only [bind, Except.bind, hf, if_true, hv]
      rfl
    · simp only [bind, Except.bind, hf, Bool.false_eq_true, if_false, hlt c true h1,
        (read_at_eq_ok _ _ _).2 h1, if_true, (read_at_eq_ok _ _ _).2 h2]
      rfl
  · left
    refine ⟨?_, fun hn2 => absurd hn2 hn⟩
    rw [iteration_int_of_frames, if_neg hn, hc, e]
    simp only [bind, Except.bind, hf, Bool.false_eq_true, if_false, hlt c false h1,
      (read_at_eq_ok _ _ _).2 h1]
    rfl
theorem best_sum_le_root (t : Triangle) (hwf : WellFormed t) (h2 : 2 ≤ t.height)
    (hnn : NonNeg t) (fs : List Frame) :
    Chain t fs → ∀ f ∈ fs, best_sum t f.node ≤ best_sum t { id := 0, level := 0 } := by
  induction fs with
  | nil =>
    intro _ f hf
    cases hf
  | cons g rest ih =>
    intro hch f hf
    have hrest := ih hch.2.2
    rcases List.mem_cons.1 hf with e | e
    · rw [e]
      cases rest with
      | nil =>
        have : g.node = { id := 0, level := 0 } := hch.2.1
        rw [this]
      | cons p rest2 =>
        obtain ⟨_, hc, _⟩ := hch.2.1
        obtain ⟨_, hn, hgc⟩ := not_final_of_child_ok t _ _ _ hc
        obtain ⟨_, hpl, _⟩ := chain_in_row t hwf h2 (p :: rest2) hch.2.2 p (by simp)
        have hp := hrest p (by simp)
        rw [best_sum_inner t p.node hpl] at hp
        have h1 := le_max_over (fun n => best_sum t (child_node t p.node n)) (t.order - 1)
          (p.next - 1) (by omega)
        have h0 := getD_nonneg t hnn p.node.id
        simp only at h1
        rw [hgc]
        omega
    · exact hrest f e

/-- From a state in which the invariant holds, on cache vectors of at most
`2 ^ 31` entries, the loop with 32-bit `int` ends as the loop with unbounded
sums or by the overflow of a sum, and as the loop with unbounded sums when no
item is negative and the best sum of the root is in the range of `int`. -/
theorem loop_int_of_good (t : Triangle) (hwf : WellFormed t) (h2 : 2 ≤ t.height)
    (hN : row_start t (t.height - 1) ≤ 2147483648) (fuel : Nat) :
    ∀ log s, Good t log s →
      (loop_int t fuel s = loop t fuel s ∨
        loop_int t fuel s = some (.error .signed_overflow)) ∧
      (NonNeg t → best_sum t { id := 0, level := 0 } ≤ 2147483647 →
        loop_int t fuel s = loop t fuel s) := by
  induction fuel with
  | zero =>
    intro log s _
    exact ⟨Or.inl rfl, fun _ _ => rfl⟩
  | succ fuel ih =>
    intro log s hg
    by_cases he : s.path.isEmpty = true
    · simp [loop_int, loop, he]
    · have hne : s.path.isEmpty = false := by simpa using he
      obtain ⟨s1, hit, hg1, _⟩ := good_iteration t hwf h2 log s hg hne
      obtain ⟨ih1, ih2⟩ := ih _ s1 hg1
      obtain ⟨fs, cache, cached, result, rfl, hga⟩ := hg
      cases fs with
      | nil => simp [Loop.of_frames] at hne
      | cons f fs =>
        have hlen : cached.length ≤ 2147483648 := by
          rw [hga.2.2.1]
          exact hN
        have hl : loop t (fuel + 1) (Loop.of_frames (f :: fs) cache cached result) =
            loop t fuel s1 := by
          simp only [loop, hne, Bool.false_eq_true, if_false, hit]
        rcases iteration_int_of_ok t f fs cache cached result s1 hlen hit with
          ⟨hint, _⟩ | ⟨hint, hn, v, hv, hw⟩
        · have hli : loop_int t (fuel + 1) (Loop.of_frames (f :: fs) cache cached result) =
              loop_int t fuel s1 := by
            simp only [loop_int, hne, Bool.false_eq_true, if_false, hint]
          rw [hli, hl]
          exact ⟨ih1, ih2⟩
        · have hli : loop_int t (fuel + 1) (Loop.of_frames (f :: fs) cache cached result) =
              some (.error .signed_overflow) := by
            simp only [loop_int, hne, Bool.false_eq_true, if_false, hint]
          refine ⟨Or.inr hli, ?_⟩
          intro hnn hroot
          exfalso
          have ho : 1 ≤ t.order := hwf.2.1 h2
          obtain ⟨hfin, hfl, _⟩ := chain_in_row t hwf h2 (f :: fs) hga.1 f (by simp)
          have hnc := num_children_of_lt t f.node hfl
          have hval := value_in_row t f.node hwf hfin
          rw [hv] at hval
          injection hval with hval
          have hfi : FrameInv t cached f t.order := by
            have := hga.2.2.2.1.1
            rw [hn, hnc] at this
            exact this
          obtain ⟨_, hbs, _⟩ := resolve_value t cached f ho hfl hfi
          have hb := hbs hnn
          have h0 := best_sum_nonneg t hnn f.node
          have hr := best_sum_le_root t hwf h2 hnn (f :: fs) hga.1 f (by simp)
          rw [add_int_in_range v f.best (by rw [hval]; omega) (by rw [hval]; omega)] at hw
          cases hw

theorem loop_int_add (t : Triangle) (fuel : Nat) :
    ∀ (s : Loop) (r : Except Error Loop), loop_int t fuel s = some r →
      ∀ extra, loop_int t (fuel + extra) s = some r := by
  induction fuel with
  | zero =>
    intro s r h extra
    cases hp : s.path.isEmpty with
    | false => simp [loop_int, hp] at h
    | true =>
      simp only [loop_int, hp, if_true] at h
      cases extra with
      | zero => simp [loop_int, hp, h]
      | succ extra => simp [loop_int, hp, h]
  | succ fuel ih =>
    intro s r h extra
    have e : fuel + 1 + extra = (fuel + extra) + 1 := by omega
    rw [e]
    cases hp : s.path.isEmpty with
    | true =>
      simp only [loop_int, hp, if_true] at h ⊢
      exact h
    | false =>
      simp only [loop_int, hp, Bool.false_eq_true, if_false] at h ⊢
      cases hi : iteration_int t s with
      | error err =>
        simp only [hi] at h ⊢
        exact h
      | ok s1 =>
        simp only [hi] at h ⊢
        exact ih s1 r h extra

theorem max_path_sum_int_add (t : Triangle) (fuel : Nat) (r : Except Error Int)
    (h : max_path_sum_int fuel t = some r) :
    ∀ extra, max_path_sum_int (fuel + extra) t = some r := by
  intro extra
  unfold max_path_sum_int at h ⊢
  cases he : t.empty with
  | true =>
    simp only [he, if_true] at h ⊢
    exact h
  | false =>
    simp only [he, Bool.false_eq_true, if_false] at h ⊢
    cases hen : enter t with
    | error err =>
      simp only [hen] at h ⊢
      exact h
    | ok s =>
      simp only [hen] at h ⊢
      cases hl : loop_int t fuel s with
      | none => simp [hl] at h
      | some res =>
        rw [loop_int_add t fuel s res hl extra]
        rw [hl] at h
        exact h

/-- On a well-formed triangle of at least two rows with at most `2 ^ 31` nodes
above the last row, `max_path_sum_int` ends as `max_path_sum` or by the
overflow of a sum, and as `max_path_sum` when no item is negative and the best
sum of the root is in the range of `int`. -/
theorem max_path_sum_int_good (t : Triangle) (hwf : WellFormed t) (h2 : 2 ≤ t.height)
    (hN : row_start t (t.height - 1) ≤ 2147483648) (fuel : Nat) :
    (max_path_sum_int fuel t = max_path_sum fuel t ∨
      max_path_sum_int fuel t = some (.error .signed_overflow)) ∧
    (NonNeg t → best_sum t { id := 0, level := 0 } ≤ 2147483647 →
      max_path_sum_int fuel t = max_path_sum fuel t) := by
  obtain ⟨s0, hen, hg, _⟩ := good_enter t hwf h2
  obtain ⟨_, _, _, _, hne⟩ := enter_eq_ok t s0 hen
  obtain ⟨h1, h3⟩ := loop_int_of_good t hwf h2 hN fuel [] s0 hg
  have hsame : loop_int t fuel s0 = loop t fuel s0 →
      max_path_sum_int fuel t = max_path_sum fuel t := by
    intro e
    simp only [max_path_sum_int, max_path_sum, hne, Bool.false_eq_true, if_false, hen, e]
  refine ⟨?_, fun hnn hr => hsame (h3 hnn hr)⟩
  rcases h1 with e | e
  · exact Or.inl (hsame e)
  · right
    simp only [max_path_sum_int, hne, Bool.false_eq_true, if_false, hen, e]

theorem max_path_sum_int_order_zero (a : Int) (height fuel : Nat) :
    max_path_sum_int (fuel + 1) { items := [a], height := height, order := 0 } =
      some (add_int a 0) := by
  rcases add_int_cases a 0 with h | h
  · rw [h]
    simp [max_path_sum_int, Triangle.empty, enter, Triangle.row_size, Triangle.num_items,
      Triangle.head, loop_int, iteration_int, back, NodeRef.num_children, resolve_int,
      NodeRef.value, NodeRef.id_int, to_size, h, write_at, bind, Except.bind, pure, Except.pure,
      throw, throwThe, MonadExceptOf.throw]
    cases fuel <;> simp [loop_int]
  · rw [h]
    simp [max_path_sum_int, Triangle.empty, enter, Triangle.row_size, Triangle.num_items,
      Triangle.head, loop_int, iteration_int, back, NodeRef.num_children, resolve_int,
      NodeRef.value, h, bind, Except.bind, pure, Except.pure,
      throw, throwThe, MonadExceptOf.throw]

theorem max_path_sum_int_zero (t : Triangle) (e : Error) (hn : t.empty = false)
    (hen : ∃ s, enter t = .ok s) : max_path_sum_int 0 t ≠ some (.error e) := by
  obtain ⟨s, hs⟩ := hen
  obtain ⟨size, rfl, _⟩ := enter_eq_ok t s hs
  simp [max_path_sum_int, hn, hs, loop_int, Loop.of_frames]

/-- A triangle produced by a successful construction is well-formed with at
least two rows, or has order 0 and at most one item. -/
theorem constructed_cases (lines : List (List Char)) (t : Triangle)
    (h : construct lines = some (.ok t)) :
    (WellFormed t ∧ 2 ≤ t.height) ∨ (t.order = 0 ∧ t.items = []) ∨
      (t.order = 0 ∧ ∃ a, t.items = [a]) := by
  have hgeo := constructed_geometry lines t h
  by_cases ho : 1 ≤ t.order
  · obtain ⟨h2, _, _⟩ := hgeo.1 ho
    exact Or.inl ⟨construct_well_formed lines t h (by omega) (Or.inr ho), h2⟩
  · have hz : t.order = 0 := by omega
    obtain ⟨_, hn⟩ := hgeo.2 hz
    right
    simp only [Triangle.num_items] at hn
    cases hi : t.items with
    | nil => exact Or.inl ⟨hz, rfl⟩
    | cons a rest =>
      cases rest with
      | nil => exact Or.inr ⟨hz, a, rfl⟩
      | cons b rest =>
        rw [hi] at hn
        simp only [List.length_cons] at hn
        omega

/-- C20, amended: on a triangle produced by a successful construction, with
at most `2 ^ 31` nodes above the last row, the cache size
`num_items - row_size (height - 1)` does not wrap around and `max_path_sum`
with 32-bit `int` ends, within `order * slot_cost (height - 2) + 1`
iterations, with the value that unbounded sums give or by the signed overflow
of a sum `value() + back()`; with no bound on the iterations does it end in
another error: not the out-of-range error of `child`, and not an access
outside `items` or outside the cache vectors.  It ends with the value when no
item is negative and the value is at most `2 ^ 31 - 1`. -/
theorem constructed_faults_by_overflow_only (lines : List (List Char)) (t : Triangle)
    (h : construct lines = some (.ok t))
    (hsize : t.num_items - t.row_size (size_sub t.height 1) ≤ 2147483648) :
    t.row_size (size_sub t.height 1) ≤ t.num_items ∧
    (∃ v, (∀ extra,
        max_path_sum (t.order * slot_cost t (t.height - 2) + 1 + extra) t = some (.ok v)) ∧
      (∀ extra,
        max_path_sum_int (t.order * slot_cost t (t.height - 2) + 1 + extra) t = some (.ok v) ∨
        max_path_sum_int (t.order * slot_cost t (t.height - 2) + 1 + extra) t =
          some (.error .signed_overflow)) ∧
      (NonNeg t → v ≤ 2147483647 → ∀ extra,
        max_path_sum_int (t.order * slot_cost t (t.height - 2) + 1 + extra) t =
          some (.ok v))) ∧
    ∀ fuel e, max_path_sum_int fuel t = some (.error e) → e = .signed_overflow := by
  rcases constructed_cases lines t h with ⟨hwf, h2⟩ | ⟨hz, hnil⟩ | ⟨hz, a, ha⟩
  · obtain ⟨hle, hcs, _⟩ := cache_size_eq t hwf h2
    have hN : row_start t (t.height - 1) ≤ 2147483648 := by
      rw [← hcs]
      exact hsize
    obtain ⟨v, hv, _, heq⟩ := max_path_sum_good t hwf h2
    have hall := max_path_sum_add t _ _ hv
    refine ⟨hle, ⟨v, hall, ?_, ?_⟩, ?_⟩
    · intro extra
      rcases (max_path_sum_int_good t hwf h2 hN _).1 with e | e
      · left
        rw [e]
        exact hall extra
      · exact Or.inr e
    · intro hnn hle2 extra
      rw [(max_path_sum_int_good t hwf h2 hN _).2 hnn (by rw [← heq hnn]; exact hle2)]
      exact hall extra
    · intro fuel e he
      rcases (max_path_sum_int_good t hwf h2 hN fuel).1 with e1 | e1
      · rw [e1] at he
        have := max_path_sum_unique t _ _ _ _ he hv
        cases this
      · rw [e1] at he
        injection he with he
        injection he with he
        exact he.symm
  · cases t with
    | mk items height order =>
      simp only at hz hnil
      subst hz
      subst hnil
      refine ⟨by simp [Triangle.row_size], ⟨0, ?_, ?_, ?_⟩, ?_⟩
      · intro extra
        simp [max_path_sum, Triangle.empty]
      · intro extra
        left
        simp [max_path_sum_int, Triangle.empty]
      · intro _ _ extra
        simp [max_path_sum_int, Triangle.empty]
      · intro fuel e he
        simp [max_path_sum_int, Triangle.empty] at he
  · cases t with
    | mk items height order =>
      simp only at hz ha
      subst hz
      subst ha
      refine ⟨by simp [Triangle.row_size], ⟨a, ?_, ?_, ?_⟩, ?_⟩
      · intro extra
        have := max_path_sum_add _ _ _ (max_path_sum_order_zero a height) extra
        simpa using this
      · intro extra
        have e : 0 * slot_cost { items := [a], height := height, order := 0 } (height - 2) + 1 +
            extra = extra + 1 := by omega
        simp only [e, max_path_sum_int_order_zero]
        rcases add_int_cases a 0 with hw | hw
        · left
          rw [hw, Int.add_zero]
        · right
          rw [hw]
      · intro hnn hle extra
        have e : 0 * slot_cost { items := [a], height := height, order := 0 } (height - 2) + 1 +
            extra = extra + 1 := by omega
        have h0 : 0 ≤ a := hnn a (by simp)
        simp only [e, max_path_sum_int_order_zero]
        rw [add_int_in_range a 0 (by omega) (by omega), Int.add_zero]
      · intro fuel e he
        cases fuel with
        | zero =>
          exfalso
          refine max_path_sum_int_zero _ e (by simp [Triangle.empty]) ?_ he
          exact ⟨_, by
            simp [enter, Triangle.row_size, Triangle.num_items, Triangle.head, Triangle.empty,
              bind, Except.bind, pure, Except.pure]
            rfl⟩
        | succ fuel =>
          rw [max_path_sum_int_order_zero] at he
          rcases add_int_cases a 0 with hw | hw
          · rw [hw] at he
            cases he
          · rw [hw] at he
            injection he with he
            injection he with he
            exact he.symm

/-- C20, as stated, fails on the lines `2147483647` and `1 1`: the
construction succeeds, each leaf is folded into the frame of the root, and the
sum `2147483647 + 1` of the pop branch is outside the range of `int`, which is
undefined behaviour; with unbounded sums the run returns 2147483648. -/
theorem constructed_sum_overflows :
    construct ["2147483647".toList, "1 1".toList] =
      some (.ok { items := [2147483647, 1, 1], height := 2, order := 2 }) ∧
    max_path_sum_int 2 { items := [2147483647, 1, 1], height := 2, order := 2 } = none ∧
    (∀ extra, max_path_sum_int (3 + extra) { items := [2147483647, 1, 1], height := 2, order := 2 } =
      some (.error .signed_overflow)) ∧
    max_path_sum 3 { items := [2147483647, 1, 1], height := 2, order := 2 } =
      some (.ok 2147483648) :=
  ⟨by decide, by decide, max_path_sum_int_add _ 3 _ (by decide), by decide⟩

/-- The amended C20 on the single line `5` and on the classic lines, whose
run with 32-bit `int` returns 23. -/
theorem constructed_faults_by_overflow_only_witness :
    construct ["3".toList, "7 4".toList, "2 4 6".toList, "8 5 9 3".toList] = some (.ok classic) ∧
    classic.num_items - classic.row_size (size_sub classic.height 1) ≤ 2147483648 ∧
    max_path_sum_int 18 classic = some (.ok 23) ∧
    (∀ fuel e, max_path_sum_int fuel classic = some (.error e) → e = .signed_overflow) ∧
    construct ["5".toList] = some (.ok { items := [5], height := 1, order := 0 }) ∧
    ∀ fuel e, max_path_sum_int fuel { items := [5], height := 1, order := 0 } = some (.error e) →
      e = .signed_overflow :=
  ⟨by decide, by decide, by decide,
    (constructed_faults_by_overflow_only
      ["3".toList, "7 4".toList, "2 4 6".toList, "8 5 9 3".toList] classic (by decide)
      (by decide)).2.2,
    by decide,
    (constructed_faults_by_overflow_only ["5".toList] _ (by decide) (by decide)).2.2⟩

/-! ## A column of more than `2 ^ 31` rows -/

theorem flatten_replicate_single (n : Nat) (a : Int) :
    (List.replicate n [a]).flatten = List.replicate n a := by
  induction n with
  | zero => rfl
  | succ n ih => simp [List.replicate_succ, ih]

theorem scans_replicate (l : List Char) (r : List Int) (h : ScansAs l r) (n : Nat) :
    List.Forall₂ ScansAs (List.replicate n l) (List.replicate n r) := by
  induction n with
  | zero => exact List.Forall₂.nil
  | succ n ih => exact List.Forall₂.cons h ih

theorem triangle_of_rows_column (n : Nat) (h2 : 2 ≤ n) :
    triangle_of_rows (List.replicate n [0]) = column n := by
  obtain ⟨m, rfl⟩ : ∃ m, n = m + 2 := ⟨n - 2, by omega⟩
  simp only [triangle_of_rows, column, flatten_replicate_single, List.length_replicate,
    Triangle.mk.injEq, true_and]
  simp [List.replicate_succ]

theorem column_row_size (n level : Nat) : (column n).row_size level = 1 := by
  simp [Triangle.row_size, column]

theorem construct_column (n : Nat) (h2 : 2 ≤ n) :
    construct (List.replicate n ['0']) = some (.ok (column n)) := by
  have hs := scans_replicate ['0'] [0] (by decide) n
  have h := construct_of_scans _ _ [] hs (Or.inl rfl)
  rw [List.append_nil] at h
  rw [h]
  rcases read_rows_fresh (List.replicate n [0]) with ⟨hok, _⟩ | ⟨i, row, hrow, hi1, hne, _, _⟩
  · rw [hok, triangle_of_rows_column n h2]
  · exfalso
    apply hne
    have hmem := List.mem_iff_getElem?.2 ⟨i, hrow⟩
    rw [List.eq_of_mem_replicate hmem]
    simp only [expected_count, triangle_of_rows_column n h2, column_row_size]
    simp
theorem column_final (n k : Nat) (hn : 1 ≤ n) (hk : k + 1 < n) :
    NodeRef.final (column n) { id := k, level := k } = false := by
  have e : size_sub n 1 = n - 1 := size_sub_of_le hn
  simp only [NodeRef.final, column, e, beq_eq_false_iff_ne, ne_eq]
  omega

theorem column_child (n k : Nat) (hk : k + 1 < n) :
    NodeRef.child (column n) { id := k, level := k } 0 = .ok { id := k + 1, level := k + 1 } := by
  have hf := column_final n k (by omega) hk
  have hnc : NodeRef.num_children (column n) { id := k, level := k } = 1 := by
    rw [NodeRef.num_children, hf]
    rfl
  simp only [NodeRef.child, hnc, column_row_size]
  simp
  omega

/-- In a column, the iteration on a fresh frame of row `k` pushes the node of
row `k + 1` when that row is not the last one and `k + 1` is below `2 ^ 31`. -/
theorem column_push (n k : Nat) (fs : List Frame) (cache : List Int) (result : Option Int)
    (hk : k + 1 < 2147483648) (hn : k + 2 < n) :
    iteration_int (column n)
        (Loop.of_frames ({ node := { id := k, level := k }, next := 0, best := 0 } :: fs) cache
          (List.replicate (n - 1) false) result) =
      .ok (Loop.of_frames
        ({ node := { id := k + 1, level := k + 1 }, next := 0, best := 0 } ::
          { node := { id := k, level := k }, next := 1, best := 0 } :: fs) cache
        (List.replicate (n - 1) false) result) := by
  have hf := column_final n k (by omega) (by omega)
  have hnc : NodeRef.num_children (column n) { id := k, level := k } = 1 := by
    rw [NodeRef.num_children, hf]
    rfl
  have hcf := column_final n (k + 1) (by omega) (by omega)
  have hidx : to_size (NodeRef.id_int { id := k + 1, level := k + 1 }) = k + 1 :=
    to_size_id_int _ hk
  have hread : read_at (List.replicate (n - 1) false) (k + 1) = .ok false := by
    rw [read_at_eq_ok]
    rw [List.getElem?_replicate]
    simp
    omega
  rw [iteration_int_of_frames]
  simp only [hnc, column_child n k (by omega), bind, Except.bind, hcf, hidx, hread]
  rfl

/-- In a column of more than `2 ^ 31 + 1` rows, the iteration on a fresh frame
of row `2 ^ 31 - 1` reads the flag of the node `2 ^ 31` at the index that
`int id()` gives, `2 ^ 64 - 2 ^ 31`, outside the cache vector. -/
theorem column_fault (n k : Nat) (fs : List Frame) (cache : List Int) (result : Option Int)
    (hk : k + 1 = 2147483648) (hn : k + 2 < n) (hn2 : n ≤ 4294967296) :
    iteration_int (column n)
        (Loop.of_frames ({ node := { id := k, level := k }, next := 0, best := 0 } :: fs) cache
          (List.replicate (n - 1) false) result) = .error .undefined := by
  have hf := column_final n k (by omega) (by omega)
  have hnc : NodeRef.num_children (column n) { id := k, level := k } = 1 := by
    rw [NodeRef.num_children, hf]
    rfl
  have hcf := column_final n (k + 1) (by omega) (by omega)
  have hidx : to_size (NodeRef.id_int { id := k + 1, level := k + 1 }) =
      18446744071562067968 := by
    simp only [hk]
    decide
  have hread : read_at (List.replicate (n - 1) false) 18446744071562067968 =
      .error .undefined := by
    unfold read_at
    rw [List.getElem?_eq_none (by rw [List.length_replicate]; omega)]
  rw [iteration_int_of_frames]
  simp only [hnc, column_child n k (by omega), bind, Except.bind, hcf, hidx, hread]
  rfl

theorem column_loop (n : Nat) (hn : 2147483650 ≤ n) (hn2 : n ≤ 4294967296) (cache : List Int)
    (result : Option Int) (extra d : Nat) :
    ∀ (k : Nat) (fs : List Frame), k + d + 1 = 2147483648 →
      loop_int (column n) (d + 1 + extra)
        (Loop.of_frames ({ node := { id := k, level := k }, next := 0, best := 0 } :: fs) cache
          (List.replicate (n - 1) false) result) = some (.error .undefined) := by
  induction d with
  | zero =>
    intro k fs hk
    have e : 0 + 1 + extra = extra + 1 := by omega
    rw [e]
    have := column_fault n k fs cache result (by omega) (by omega) hn2
    simp only [loop_int, this]
    simp [Loop.of_frames]
  | succ d ih =>
    intro k fs hk
    have e : d + 1 + 1 + extra = (d + 1 + extra) + 1 := by omega
    rw [e]
    have := column_push n k fs cache result (by omega) (by omega)
    simp only [loop_int, this]
    rw [ih (k + 1) _ (by omega)]
    simp [Loop.of_frames]

theorem column_empty (n : Nat) (hn : 2 ≤ n) : (column n).empty = false := by
  obtain ⟨m, rfl⟩ : ∃ m, n = m + 2 := ⟨n - 2, by omega⟩
  simp [Triangle.empty, column, List.replicate_succ]

theorem column_enter (n : Nat) (hn : 2 ≤ n) :
    enter (column n) =
      .ok (Loop.of_frames [{ node := { id := 0, level := 0 }, next := 0, best := 0 }]
        (List.replicate (n - 1) 0) (List.replicate (n - 1) false) none) := by
  have hni : (column n).num_items = n := by simp [Triangle.num_items, column]
  have hhead : (column n).head = .ok { id := 0, level := 0 } := by
    simp [Triangle.head, column_empty n hn]
  have hlt : ¬ n < 1 := by omega
  simp only [enter, column_row_size, hni, hhead, hlt, if_false, bind, Except.bind, pure,
    Except.pure]
  rfl

/-- On a column of `n` rows, for `n` from `2 ^ 31 + 2` to `2 ^ 32`, the run with
32-bit `int` ends in an access outside the cache vector. -/
theorem column_run (n : Nat) (hn : 2147483650 ≤ n) (hn2 : n ≤ 4294967296) (extra : Nat) :
    max_path_sum_int (2147483648 + extra) (column n) = some (.error .undefined) := by
  have he := column_empty n (by omega)
  have hl := column_loop n hn hn2 (List.replicate (n - 1) 0) none extra 2147483647 0 [] (by omega)
  simp only [max_path_sum_int, he, Bool.false_eq_true, if_false, column_enter n (by omega)]
  have e : 2147483648 + extra = 2147483647 + 1 + extra := by omega
  rw [e, hl]

theorem column_cache_size (n : Nat) :
    (column n).num_items - (column n).row_size (size_sub (column n).height 1) = n - 1 := by
  rw [column_row_size]
  simp [Triangle.num_items, column]

/-- Why the cache vectors must have at most `2 ^ 31` entries for the index
`id()` to be the id: the `2 ^ 31 + 2` lines `0` construct a column whose cache
vectors have `2 ^ 31 + 1` entries, and the run with 32-bit `int` reaches the
node with id `2 ^ 31`, for which `id()` returns `- 2 ^ 31`, and reads
`max_path_cached` at the index `2 ^ 64 - 2 ^ 31`, outside the vector. -/
theorem column_cache_index_outside :
    construct (List.replicate 2147483650 ['0']) = some (.ok (column 2147483650)) ∧
    (column 2147483650).num_items -
      (column 2147483650).row_size (size_sub (column 2147483650).height 1) = 2147483649 ∧
    NodeRef.id_int { id := 2147483648, level := 2147483648 } = -2147483648 ∧
    to_size (-2147483648) = 18446744071562067968 ∧
    ∀ extra, max_path_sum_int (2147483648 + extra) (column 2147483650) =
      some (.error .undefined) :=
  ⟨construct_column 2147483650 (by norm_num), column_cache_size 2147483650, by decide, by decide,
    column_run 2147483650 (by norm_num) (by norm_num)⟩

end Triangles
